import Mathlib

/-!
# ViennaCL incomplete LU factorisation with threshold (ILUT)

A shallow embedding of `viennacl/linalg/detail/ilu/ilut.hpp`, and of the enumeration of
tuning parameters of `viennacl/generator/autotune.hpp`.

* `ScalarType` is modelled by the rationals (exact arithmetic); `std::sqrt` is a
  parameter `sqrt : ℚ → ℚ` of every definition that reaches it.
* `std::map<K, V>` is modelled by an association list that the operations keep in
  strictly ascending key order (`StdMap`).  The operations assume, but do not
  require, that their inputs are ordered; the ordering lemmas are separate.
* `throw` is modelled by `Except`; the error carries the contents of `output` at the
  moment of the throw, because `output` is passed by reference.
* The two loops whose trip count is not syntactically bounded (the elimination scan over
  a map that grows while it is scanned, and the key-uniqueness `while`) carry a fuel
  counter; running out of fuel is the separate outcome `IlutError.out_of_fuel`, which is
  proved unreachable for inputs in valid storage (`precondition_fuel`).
* `unsigned int` is modelled by the naturals with explicit reduction modulo `2 ^ 32` where
  the presets of `inc` compute; the loop `while (has_next()) update();` carries a fuel
  counter and returns `none` when it runs out.
-/

namespace ViennaCL

/-! ## `std::map` -/

/-- An ordered associative container: `std::map<κ, β>` as a list of pairs in iteration order. -/
abbrev StdMap (κ : Type) (β : Type) := List (κ × β)

namespace StdMap

variable {κ β : Type}

/-- Lookup `m.find(k)`: the mapped value, or `none` for `m.end()`. -/
def find [DecidableEq κ] : StdMap κ β → κ → Option β
  | [], _ => none
  | (k', v) :: rest, k => if k = k' then some v else find rest k

/-- Assignment `m[k] = v`: replaces the mapped value, or inserts at the ordered position. -/
def assign [LinearOrder κ] : StdMap κ β → κ → β → StdMap κ β
  | [], k, v => [(k, v)]
  | (k', v') :: rest, k, v =>
    if k < k' then (k, v) :: (k', v') :: rest
    else if k = k' then (k, v) :: rest
    else (k', v') :: assign rest k v

/-- Read access `m[k]` through the non-const `operator[]`: an absent key is first inserted
with the value-initialised mapped value `d`.  Returns the value read and the container. -/
def index [LinearOrder κ] (m : StdMap κ β) (k : κ) (d : β) : β × StdMap κ β :=
  match find m k with
  | some v => (v, m)
  | none => (d, assign m k d)

/-- The entry an iterator reaches when it is advanced past every key below `lo`:
the first entry in iteration order whose key is at least `lo`. -/
def lower_bound [LinearOrder κ] : StdMap κ β → κ → Option (κ × β)
  | [], _ => none
  | (k, v) :: rest, lo => if lo ≤ k then some (k, v) else lower_bound rest lo

/-- The keys in iteration order. -/
def keys (m : StdMap κ β) : List κ := m.map Prod.fst

/-- Well-formedness of a `std::map`: keys strictly ascending in iteration order. -/
def Ordered [LinearOrder κ] (m : StdMap κ β) : Prop := (keys m).Pairwise (fun a b => a < b)

instance decidableOrdered [LinearOrder κ] (m : StdMap κ β) : Decidable (Ordered m) :=
  inferInstanceAs (Decidable ((keys m).Pairwise (fun a b => a < b)))

end StdMap

/-- The type `std::map<SizeType, ScalarType>`, a sparse row or working vector. -/
abbrev SparseVector := StdMap Nat ℚ

/-- The type `std::map<ScalarType, std::pair<SizeType, ScalarType> >` used for ranking. -/
abbrev TemporarySortMap := StdMap ℚ (Nat × ℚ)

/-- Magnitude `std::fabs` on exact scalars. -/
def fabs (x : ℚ) : ℚ := if x < 0 then -x else x

/-- Value of a sparse vector at a column, absent entries counting as zero. -/
def SparseVector.val (w : SparseVector) (j : Nat) : ℚ := (StdMap.find w j).getD 0

/-! ## `ilut_tag` -/

/-- Configuration `ilut_tag`: the private members `entries_per_row_` and `drop_tolerance_`. -/
structure ilut_tag where
  entries_per_row_ : Nat
  drop_tolerance_ : ℚ
  deriving DecidableEq, Repr

namespace ilut_tag

/-- Constructor `ilut_tag(entries_per_row, drop_tolerance)`. -/
def ctor (entries_per_row : Nat) (drop_tolerance : ℚ) : ilut_tag :=
  ⟨entries_per_row, drop_tolerance⟩

/-- Constructor with both default arguments, `ilut_tag()`. -/
def ctor_default : ilut_tag := ctor 20 (1 / 10000)

/-- Setter `set_drop_tolerance`. -/
def set_drop_tolerance (t : ilut_tag) (tol : ℚ) : ilut_tag :=
  if tol > 0 then { t with drop_tolerance_ := tol } else t

/-- Getter `get_drop_tolerance`. -/
def get_drop_tolerance (t : ilut_tag) : ℚ := t.drop_tolerance_

/-- Setter `set_entries_per_row`. -/
def set_entries_per_row (t : ilut_tag) (e : Nat) : ilut_tag :=
  if e > 0 then { t with entries_per_row_ := e } else t

/-- Getter `get_entries_per_row`. -/
def get_entries_per_row (t : ilut_tag) : Nat := t.entries_per_row_

end ilut_tag

/-! ## Input matrices and `setup_w` -/

/-- Host-resident `compressed_matrix<ScalarType>` (CSR): the row count, the row offsets
(`handle1`), the column indices (`handle2`) and the values (`handle`). -/
structure compressed_matrix where
  size1 : Nat
  row_buffer : List Nat
  col_buffer : List Nat
  elements : List ℚ
  deriving DecidableEq, Repr

/-- The two matrix types for which `setup_w` is overloaded. -/
inductive SparseMatrix where
  | compressed (A : compressed_matrix)
  | stl (A : List SparseVector)
  deriving DecidableEq, Repr

/-- Row count `viennacl::traits::size1(A)`. -/
def SparseMatrix.size1 : SparseMatrix → Nat
  | .compressed A => A.size1
  | .stl A => A.length

/-- Overload `setup_w` for `compressed_matrix`: copies the stored entries of `row` into `w`
(in buffer order, columns not assumed sorted) and returns the square root of the
accumulated squares. -/
def setup_w_compressed (sqrt : ℚ → ℚ) (A : compressed_matrix) (row : Nat) (w : SparseVector) :
    ℚ × SparseVector :=
  let row_i_begin := A.row_buffer.getD row 0
  let row_i_end := A.row_buffer.getD (row + 1) 0
  let r := (List.range' row_i_begin (row_i_end - row_i_begin)).foldl
    (fun (acc : ℚ × SparseVector) buf_index_i =>
      let entry := A.elements.getD buf_index_i 0
      (acc.1 + entry * entry, StdMap.assign acc.2 (A.col_buffer.getD buf_index_i 0) entry))
    (0, w)
  (sqrt r.1, r.2)

/-- Overload `setup_w` for `std::vector< std::map<SizeType, ScalarType> >`: `w = A[row]`, then
the square root of the accumulated squares of the entries of `w`. -/
def setup_w_stl (sqrt : ℚ → ℚ) (A : List SparseVector) (row : Nat) (_w : SparseVector) :
    ℚ × SparseVector :=
  let w := A.getD row []
  (sqrt (w.foldl (fun (row_norm : ℚ) iter_w => row_norm + iter_w.2 * iter_w.2) 0), w)

/-- Dispatch of `setup_w(A, row, w)` on the matrix type: returns `(row_norm, w)`. -/
def setup_w (sqrt : ℚ → ℚ) : SparseMatrix → Nat → SparseVector → ℚ × SparseVector
  | .compressed A, row, w => setup_w_compressed sqrt A row w
  | .stl A, row, w => setup_w_stl sqrt A row w

/-! ## `precondition` -/

/-- The ways `precondition` can stop without returning. -/
inductive IlutError where
  /-- Assertion "Output matrix size mismatch". -/
  | size_mismatch
  /-- Exception "ILUT zero diagonal!". -/
  | zero_diagonal
  /-- Exception "Triangular factor in ILUT singular!". -/
  | singular_factor
  /-- A fuel counter of the model ran out (unreachable). -/
  | out_of_fuel
  deriving DecidableEq, Repr

deriving instance DecidableEq for Except

/-- The output matrix `std::vector< std::map<SizeType, ScalarType> >`. -/
abbrev Output := List SparseVector

/-- Element access `output[k]` of the `std::vector` (an empty row outside the range). -/
def row_at (output : Output) (k : Nat) : SparseVector := output.getD k []

/-- Lines 172-176: the update loop over `output[k]`, `w[u_k->first] -= w_k_entry * u_k->second`
for the stored columns above `k`. -/
def update_w (k : Nat) (w_k_entry : ℚ) (row_k : SparseVector) (w : SparseVector) :
    SparseVector :=
  row_k.foldl
    (fun w u_k =>
      if u_k.1 > k then
        let r := StdMap.index w u_k.1 0
        StdMap.assign r.2 u_k.1 (r.1 - w_k_entry * u_k.2)
      else w)
    w

/-- Lines 152-177: the body of the elimination loop for the entry `(k, w_k)` of `w`, `k < i`. -/
def elim_body (tau_i : ℚ) (k : Nat) (w_k : ℚ) (w : SparseVector) (output : Output) :
    Except (IlutError × Output) (SparseVector × Output) :=
  let r := StdMap.index (row_at output k) k 0
  let a_kk := r.1
  let output := output.set k r.2
  if a_kk = 0 then
    .error (.zero_diagonal, output)
  else
    let w_k_entry := w_k / a_kk
    let w := StdMap.assign w k w_k_entry
    if fabs w_k_entry > tau_i then
      .ok (update_w k w_k_entry (row_at output k) w, output)
    else
      .ok (w, output)

/-- Lines 150-181: the elimination loop.  The iterator `w_k` is represented by the least key
`lo` it may still reach; entries inserted into `w` during the scan are visited. -/
def eliminate (i : Nat) (tau_i : ℚ) :
    Nat → Nat → SparseVector → Output → Except (IlutError × Output) (SparseVector × Output)
  | fuel, lo, w, output =>
    match StdMap.lower_bound w lo with
    | none => .ok (w, output)
    | some (k, w_k) =>
      if k ≥ i then .ok (w, output)
      else
        match fuel with
        | 0 => .error (.out_of_fuel, output)
        | fuel + 1 =>
          match elim_body tau_i k w_k w output with
          | .error e => .error e
          | .ok (w, output) => eliminate i tau_i fuel (k + 1) w output

/-- Ghost trace of the elimination loop: the columns `k` at which line 165, the division of
`w_k->second` by the pivot, is executed, in the order of execution.  It follows `eliminate`
step for step; a step that throws at line 162 performs no division. -/
def eliminate_visits (i : Nat) (tau_i : ℚ) : Nat → Nat → SparseVector → Output → List Nat
  | fuel, lo, w, output =>
    match StdMap.lower_bound w lo with
    | none => []
    | some (k, w_k) =>
      if k ≥ i then []
      else
        match fuel with
        | 0 => []
        | fuel + 1 =>
          match elim_body tau_i k w_k w output with
          | .error _ => []
          | .ok (w, output) => k :: eliminate_visits i tau_i fuel (k + 1) w output

/-- Lines 198-199: `while (temp_map.find(temp) != temp_map.end()) temp *= 1.000001`. -/
def unique_key : Nat → TemporarySortMap → ℚ → Option ℚ
  | 0, temp_map, temp =>
    if (StdMap.find temp_map temp).isSome then none else some temp
  | fuel + 1, temp_map, temp =>
    if (StdMap.find temp_map temp).isSome then
      unique_key fuel temp_map (temp * (1000001 / 1000000))
    else some temp

/-- Lines 186-202: the dropping pass, which fills `temp_map` from the entries of `w`. -/
def sort_pass (i : Nat) (tau_i : ℚ) :
    SparseVector → TemporarySortMap → Except IlutError TemporarySortMap
  | [], temp_map => .ok temp_map
  | (k, w_k_entry) :: rest, temp_map =>
    if fabs w_k_entry > tau_i ∨ k = i then
      let temp := fabs w_k_entry
      if temp = 0 then .error .singular_factor
      else
        match unique_key temp_map.length temp_map temp with
        | none => .error .out_of_fuel
        | some temp => sort_pass i tau_i rest (StdMap.assign temp_map temp (k, w_k_entry))
    else sort_pass i tau_i rest temp_map

/-- State of the write loop: `written_L`, `written_U` and the row `output[i]`. -/
structure WriteState where
  written_L : Nat
  written_U : Nat
  row_i : SparseVector
  deriving DecidableEq, Repr

/-- Lines 209-232: the body of the write loop for one candidate of `temp_map`. -/
def write_body (i : Nat) (entries_per_row : Nat) (s : WriteState) (iter : ℚ × (Nat × ℚ)) :
    WriteState :=
  let j := iter.2.1
  let w_j_entry := iter.2.2
  if j < i then
    if s.written_L < entries_per_row then
      { s with row_i := StdMap.assign s.row_i j w_j_entry, written_L := s.written_L + 1 }
    else s
  else if j = i then
    { s with row_i := StdMap.assign s.row_i j w_j_entry }
  else
    if s.written_U < entries_per_row then
      { s with row_i := StdMap.assign s.row_i j w_j_entry, written_U := s.written_U + 1 }
    else s

/-- Lines 205-233: the write loop, from `temp_map.rbegin()` to `temp_map.rend()`. -/
def write_pass (i : Nat) (entries_per_row : Nat) (temp_map : TemporarySortMap)
    (row_i : SparseVector) : SparseVector :=
  (temp_map.reverse.foldl (write_body i entries_per_row) ⟨0, 0, row_i⟩).row_i

/-- Lines 185-233: dropping pass and write loop for the post-elimination `w`, giving the
new contents of `output[i]`. -/
def finalize_row (i : Nat) (tau_i : ℚ) (entries_per_row : Nat) (w : SparseVector)
    (row_i : SparseVector) : Except IlutError SparseVector :=
  match sort_pass i tau_i w [] with
  | .error e => .error e
  | .ok temp_map => .ok (write_pass i entries_per_row temp_map row_i)

/-- Lines 146-235: one iteration of the row loop. -/
def process_row (sqrt : ℚ → ℚ) (A : SparseMatrix) (tag : ilut_tag) (output : Output)
    (i : Nat) : Except (IlutError × Output) Output :=
  let r := setup_w sqrt A i []
  let row_norm := r.1
  let tau_i := tag.get_drop_tolerance * row_norm
  match eliminate i tau_i i 0 r.2 output with
  | .error e => .error e
  | .ok (w, output) =>
    match finalize_row i tau_i tag.get_entries_per_row w (row_at output i) with
    | .error e => .error (e, output)
    | .ok row_i => .ok (output.set i row_i)

/-- Lines 140-237: the row loop over the rows `is`. -/
def row_loop (sqrt : ℚ → ℚ) (A : SparseMatrix) (tag : ilut_tag) :
    List Nat → Output → Except (IlutError × Output) Output
  | [], output => .ok output
  | i :: is, output =>
    match process_row sqrt A tag output i with
    | .error e => .error e
    | .ok output => row_loop sqrt A tag is output

/-- Function `precondition(A, output, tag)`. -/
def precondition (sqrt : ℚ → ℚ) (A : SparseMatrix) (output : Output) (tag : ilut_tag) :
    Except (IlutError × Output) Output :=
  if A.size1 ≠ output.length then .error (.size_mismatch, output)
  else row_loop sqrt A tag (List.range A.size1) output

/-- An output of `n` empty rows, `std::vector< std::map<...> >(n)`. -/
def empty_output (n : Nat) : Output := List.replicate n []

/-! ## `ilut_precond::apply` -/

/-- The memory domains `viennacl::backend::memory_types`. -/
inductive memory_types where
  | MEMORY_NOT_INITIALIZED
  | MAIN_MEMORY
  | OPENCL_MEMORY
  | CUDA_MEMORY
  deriving DecidableEq, Repr

/-- The tags `unit_lower_tag` and `upper_tag` that select the triangular solve. -/
inductive solver_tag where
  | unit_lower_tag
  | upper_tag
  deriving DecidableEq, Repr

/-- A `viennacl::vector<ScalarType>`: the active handle id of its memory handle and its
elements. -/
structure vector where
  active_handle_id : memory_types
  elements : List ℚ
  deriving DecidableEq, Repr

/-- Modelled from the spec: `mem_handle::switch_active_handle_id`, which is not part of the
sources at hand; it sets the active handle id and leaves the elements alone (memory migration
is an external collaborator of the core). -/
def vector.switch_active_handle_id (vec : vector) (id : memory_types) : vector :=
  { vec with active_handle_id := id }

/-- Modelled from the spec: `viennacl::linalg::inplace_solve(LU, vec, tag)`, which is not part
of the sources at hand.  The in-place triangular solve `solve` (a parameter) acts on the
elements of the vector; the factor is read only and the handle of the vector is kept. -/
def inplace_solve (solve : compressed_matrix → List ℚ → solver_tag → List ℚ)
    (LU : compressed_matrix) (vec : vector) (tag : solver_tag) : vector :=
  { vec with elements := solve LU vec.elements tag }

/-- Lines 257-267: `ilut_precond<MatrixType>::apply(vec)`, the generic variant.  The backend
routine `csr_inplace_solve(row_buffer, col_buffer, elements, vec, size2, tag)` is a
parameter; `size2` is `LU.size2()`. -/
def apply_generic
    (csr_inplace_solve : List Nat → List Nat → List ℚ → List ℚ → Nat → solver_tag → List ℚ)
    (LU : compressed_matrix) (size2 : Nat) (vec : List ℚ) : List ℚ :=
  let row_buffer := LU.row_buffer
  let col_buffer := LU.col_buffer
  let elements := LU.elements
  let vec := csr_inplace_solve row_buffer col_buffer elements vec size2 .unit_lower_tag
  csr_inplace_solve row_buffer col_buffer elements vec size2 .upper_tag

/-- Lines 313-328: `ilut_precond< compressed_matrix >::apply(vec)`, the specialisation. -/
def apply_compressed (solve : compressed_matrix → List ℚ → solver_tag → List ℚ)
    (LU : compressed_matrix) (vec : vector) : vector :=
  if vec.active_handle_id ≠ .MAIN_MEMORY then
    let old_memory_location := vec.active_handle_id
    let vec := vec.switch_active_handle_id .MAIN_MEMORY
    let vec := inplace_solve solve LU vec .unit_lower_tag
    let vec := inplace_solve solve LU vec .upper_tag
    vec.switch_active_handle_id old_memory_location
  else
    let vec := inplace_solve solve LU vec .unit_lower_tag
    inplace_solve solve LU vec .upper_tag

/-! ## Enumeration of tuning parameters (`viennacl/generator/autotune.hpp`) -/

/-- The presets of `struct inc` for incrementing a tuning parameter. -/
inductive inc where
  | mul_by_two
  | add_one
  deriving DecidableEq, Repr

/-- The effect of a preset on its `unsigned int &` argument (32 bits, wrapping). -/
def inc.apply : inc → Nat → Nat
  | .mul_by_two, val => (val * 2) % 2 ^ 32
  | .add_one, val => (val + 1) % 2 ^ 32

/-- The class `tuning_param`: `current_`, `min_max_` and the increment policy `inc_`. -/
structure tuning_param where
  current_ : Nat
  min_max_ : Nat × Nat
  inc_ : inc
  deriving DecidableEq, Repr

namespace tuning_param

/-- Constructor `tuning_param(min, max, inc)`. -/
def ctor (min max : Nat) (policy : inc) : tuning_param := ⟨min, (min, max), policy⟩

/-- Method `is_max()`. -/
def is_max (p : tuning_param) : Bool := decide (p.current_ ≥ p.min_max_.2)

/-- Method `inc()`: the returned flag says whether the parameter has been reset. -/
def inc (p : tuning_param) : Bool × tuning_param :=
  let current := p.inc_.apply p.current_
  if current ≤ p.min_max_.2 then (false, { p with current_ := current })
  else (true, { p with current_ := p.min_max_.1 })

/-- Method `current()`. -/
def current (p : tuning_param) : Nat := p.current_

/-- Method `reset()`. -/
def reset (p : tuning_param) : tuning_param := { p with current_ := p.min_max_.1 }

end tuning_param

/-- The storage `params_t`, a `std::map<std::string, tuning_param>` in iteration order. -/
abbrev params_t := StdMap String tuning_param

/-- Line 184: the loop of `has_next()`, `res = res || !it->second.is_max()`. -/
def has_next_loop (params : params_t) : Bool :=
  params.foldl (fun res it => res || !it.2.is_max) false

/-- Line 190: the loop of `update()`, which stops at the first parameter whose `inc()`
returns `false`. -/
def update_loop : params_t → params_t
  | [] => []
  | it :: rest =>
    if it.2.inc.1 = false then (it.1, it.2.inc.2) :: rest
    else (it.1, it.2.inc.2) :: update_loop rest

/-- The class `tuning_config`, reduced to its member `params_`. -/
structure tuning_config where
  params_ : params_t
  deriving DecidableEq, Repr

namespace tuning_config

/-- Method `add_tuning_param(name, min, max, inc)`; `std::map::insert` keeps an entry that is
already stored under the name. -/
def add_tuning_param (c : tuning_config) (name : String) (min max : Nat) (policy : inc) :
    tuning_config :=
  match StdMap.find c.params_ name with
  | some _ => c
  | none => ⟨StdMap.assign c.params_ name (tuning_param.ctor min max policy)⟩

/-- Method `has_next()`. -/
def has_next (c : tuning_config) : Bool := has_next_loop c.params_

/-- Method `update()`. -/
def update (c : tuning_config) : tuning_config := ⟨update_loop c.params_⟩

/-- Method `reset()`. -/
def reset (c : tuning_config) : tuning_config :=
  ⟨c.params_.map (fun it => (it.1, it.2.reset))⟩

/-- The current values of the parameters, in iteration order. -/
def currents (c : tuning_config) : List Nat := c.params_.map (fun it => it.2.current)

end tuning_config

/-- Lines 264-268 and 273-278: the loop `while (config.has_next()) config.update();` of
`benchmark`, recording the configuration on entry and the one after every `update()`.
`none` when the fuel runs out while `has_next()` still holds. -/
def enumerate : Nat → tuning_config → Option (List tuning_config)
  | 0, config => if config.has_next then none else some [config]
  | fuel + 1, config =>
    if config.has_next then (enumerate fuel config.update).map (fun t => config :: t)
    else some [config]

/-- The configuration after `n` calls of `update()`. -/
def updates : Nat → tuning_config → tuning_config
  | 0, config => config
  | n + 1, config => updates n config.update

/-- A configuration with the single parameter `tuning_param(1, 3, inc::mul_by_two)`. -/
def skip_max_config : tuning_config := ⟨[("p", tuning_param.ctor 1 3 .mul_by_two)]⟩

/-- A configuration with the parameters `a` in `[0, 1]` and `b` in `[3, 5]`, both
`inc::add_one`. -/
def two_by_three_config : tuning_config :=
  ⟨[("a", tuning_param.ctor 0 1 .add_one), ("b", tuning_param.ctor 3 5 .add_one)]⟩

/-- The bounds `(min, max)` of the parameters, in iteration order. -/
def bounds (params : params_t) : List (Nat × Nat) := params.map (fun it => it.2.min_max_)

/-- Number of combinations of values within the bounds. -/
def combinations : List (Nat × Nat) → Nat
  | [] => 1
  | b :: bs => (b.2 - b.1 + 1) * combinations bs

/-- Position of a tuple of values in the odometer order, the first parameter being the
fastest. -/
def rank_of : List (Nat × Nat) → List Nat → Nat
  | b :: bs, v :: vs => (v - b.1) + (b.2 - b.1 + 1) * rank_of bs vs
  | _, _ => 0

/-- Position of the current values of `params` in the odometer order. -/
def rank (params : params_t) : Nat :=
  rank_of (bounds params) (params.map (fun it => it.2.current))

/-- The tuple `vals` gives every parameter a value within its bounds. -/
def InBounds : List (Nat × Nat) → List Nat → Prop
  | [], [] => True
  | b :: bs, v :: vs => (b.1 ≤ v ∧ v ≤ b.2) ∧ InBounds bs vs
  | _, _ => False

/-- Parameters that all use `inc::add_one`, with a value within bounds and a maximum below
the largest `unsigned int`. -/
def AddOneParams (params : params_t) : Prop :=
  ∀ it ∈ params, it.2.inc_ = .add_one ∧ it.2.min_max_.1 ≤ it.2.current_ ∧
    it.2.current_ ≤ it.2.min_max_.2 ∧ it.2.min_max_.2 < 2 ^ 32 - 1

/-! ## Quantities the properties are stated with -/

/-- The stored entries `(column, value)` of row `i` of the input, in storage order. -/
def SparseMatrix.row_entries : SparseMatrix → Nat → List (Nat × ℚ)
  | .compressed A, i =>
    (List.range' (A.row_buffer.getD i 0) (A.row_buffer.getD (i + 1) 0 - A.row_buffer.getD i 0)).map
      (fun idx => (A.col_buffer.getD idx 0, A.elements.getD idx 0))
  | .stl A, i => A.getD i []

/-- Well-formed storage of the input: every per-row `std::map` has its keys in strictly
ascending order (no condition on a compressed matrix, whose rows need not be sorted). -/
def SparseMatrix.Valid : SparseMatrix → Prop
  | .compressed _ => True
  | .stl A => ∀ r ∈ A, StdMap.Ordered r

instance SparseMatrix.decidableValid : (A : SparseMatrix) → Decidable A.Valid
  | .compressed _ => isTrue trivial
  | .stl A => inferInstanceAs (Decidable (∀ r ∈ A, StdMap.Ordered r))

/-- Sum of the squares of the stored values of a list of entries. -/
def sum_of_squares (entries : List (Nat × ℚ)) : ℚ := (entries.map (fun e => e.2 * e.2)).sum

/-- Euclidean norm of a list of stored entries, relative to the square root function. -/
def euclidean_norm (sqrt : ℚ → ℚ) (entries : List (Nat × ℚ)) : ℚ :=
  sqrt ((entries.map (fun e => e.2 * e.2)).sum)

/-- Number of stored entries of a row with column below `i` (the L part of row `i`). -/
def count_L (i : Nat) (row : SparseVector) : Nat := row.countP (fun e => decide (e.1 < i))

/-- Number of stored entries of a row with column above `i` (the strict U part of row `i`). -/
def count_U (i : Nat) (row : SparseVector) : Nat := row.countP (fun e => decide (i < e.1))

/-- Entry `A[i][j]` of the input, absent entries counting as zero. -/
def SparseMatrix.entry (A : SparseMatrix) (i j : Nat) : ℚ :=
  SparseVector.val (A.row_entries i) j

/-- The input is an `n × n` sparse matrix: `n` rows, and in every row the stored column indices
are pairwise distinct and below `n`. -/
def SparseMatrix.Square (A : SparseMatrix) (n : Nat) : Prop :=
  A.size1 = n ∧ ∀ i, i < n →
    (StdMap.keys (A.row_entries i)).Nodup ∧ ∀ k ∈ StdMap.keys (A.row_entries i), k < n

/-- Entry `L[i][k]` of the unit lower triangular factor read off the combined output. -/
def L_entry (out : Output) (i k : Nat) : ℚ :=
  if k < i then SparseVector.val (row_at out i) k else if k = i then 1 else 0

/-- Entry `U[k][j]` of the upper triangular factor read off the combined output. -/
def U_entry (out : Output) (k j : Nat) : ℚ :=
  if k ≤ j then SparseVector.val (row_at out k) j else 0

/-- Total number of stored entries of a factor. -/
def stored_entries (out : Output) : Nat := (out.map List.length).sum

/-- Largest `r` not above `bound` with `r * r ≤ n`. -/
def nat_sqrt_below (n : Nat) : Nat → Nat
  | 0 => 0
  | r + 1 => if (r + 1) * (r + 1) ≤ n then r + 1 else nat_sqrt_below n r

/-- A computable square root on the rationals, exact on squares of rationals (numerator and
denominator are rounded down otherwise); it is the `std::sqrt` of the worked examples. -/
def rat_sqrt (q : ℚ) : ℚ :=
  (nat_sqrt_below q.num.toNat q.num.toNat : ℚ) / (nat_sqrt_below q.den q.den : ℚ)

/-! ## Worked inputs -/

/-- The matrix `[[4,1,0],[1,3,1],[0,1,2]]` as per-row maps of its non-zero entries. -/
def tridiag_stl : SparseMatrix :=
  .stl [[(0, 4), (1, 1)], [(0, 1), (1, 3), (2, 1)], [(1, 1), (2, 2)]]

/-- The matrix `[[4,1,0],[1,3,1],[0,1,2]]` in compressed (CSR) storage. -/
def tridiag_csr : SparseMatrix :=
  .compressed ⟨3, [0, 2, 5, 7], [0, 1, 0, 1, 2, 1, 2], [4, 1, 1, 3, 1, 1, 2]⟩

/-- The matrix `[[1,0,2,2],[1,4,2,2],[0,0,1,0],[0,0,0,1]]`; its rows have the norms 3, 5, 1, 1. -/
def cancel_matrix : SparseMatrix :=
  .stl [[(0, 1), (2, 2), (3, 2)], [(0, 1), (1, 4), (2, 2), (3, 2)], [(2, 1)], [(3, 1)]]

/-- A matrix whose row 0 holds the magnitudes `1, 1, 1` and `1.0000005` (rows 1 to 3 are
those of the identity). -/
def near_tie_matrix : SparseMatrix :=
  .stl [[(0, 1), (1, 1), (2, 1), (3, 2000001 / 2000000)], [(1, 1)], [(2, 1)], [(3, 1)]]

/-- The singular matrix `[[1,1],[1,1]]`. -/
def ones_matrix : SparseMatrix := .stl [[(0, 1), (1, 1)], [(0, 1), (1, 1)]]

/-- The permutation matrix `[[0,1],[1,0]]`, stored with its two non-zero entries. -/
def swap_matrix : SparseMatrix := .stl [[(1, 1)], [(0, 1)]]

/-- A one-row compressed matrix with the unsorted row `{1: 4, 0: 3}`. -/
def three_four_csr : compressed_matrix := ⟨1, [0, 2], [1, 0], [4, 3]⟩

/-- The matrix `[[1,0],[0,0]]`, whose second row stores no entry. -/
def rank_one_matrix : SparseMatrix := .stl [[(0, 1)], []]

/-! ## Auxiliary predicates used by the proofs -/

/-- Line 147: the threshold `tau_i` of row `i`. -/
def tau (sqrt : ℚ → ℚ) (A : SparseMatrix) (tag : ilut_tag) (i : Nat) : ℚ :=
  tag.get_drop_tolerance * (setup_w sqrt A i []).1

/-- The working row after one executed elimination step with a non-zero pivot `a_kk`. -/
def elim_step_w (tau_i : ℚ) (k : Nat) (w_k a_kk : ℚ) (row_k w : SparseVector) : SparseVector :=
  if fabs (w_k / a_kk) > tau_i then
    update_w k (w_k / a_kk) row_k (StdMap.assign w k (w_k / a_kk))
  else StdMap.assign w k (w_k / a_kk)

/-- Row `r` of `out` is the finalisation of the working row that elimination against the
rows above `r` produced. -/
def RowDone (sqrt : ℚ → ℚ) (A : SparseMatrix) (tag : ilut_tag) (n r : Nat) (out : Output) : Prop :=
  ∃ (out_r : Output) (w : SparseVector) (temp_map : TemporarySortMap),
    out_r.length = n ∧ (∀ k, k < r → row_at out_r k = row_at out k) ∧
    eliminate r (tau sqrt A tag r) r 0 (setup_w sqrt A r []).2 out_r = .ok (w, out_r) ∧
    sort_pass r (tau sqrt A tag r) w [] = .ok temp_map ∧
    row_at out r = write_pass r tag.get_entries_per_row temp_map []

/-- An entry of the working row survives the dropping rule of line 191. -/
def survives (i : Nat) (tau_i : ℚ) (e : Nat × ℚ) : Bool :=
  decide (fabs e.2 > tau_i) || decide (e.1 = i)

/-- Invariant of the write loop: the counters bound the L and U parts and never pass the
budget. -/
def WriteBounded (i entries_per_row : Nat) (s : WriteState) : Prop :=
  count_L i s.row_i ≤ s.written_L ∧ s.written_L ≤ entries_per_row ∧
  count_U i s.row_i ≤ s.written_U ∧ s.written_U ≤ entries_per_row

/-- The column of a candidate of the sort map. -/
def cand_col (c : ℚ × (Nat × ℚ)) : Nat := c.2.1

/-- Invariant of the write loop over candidates with distinct columns, `done_` being the
candidates already visited: the counters are the sizes of the parts of the row, and every
stored entry is a visited candidate. -/
def WriteExact (i : Nat) (done_ : List (ℚ × (Nat × ℚ))) (s : WriteState) : Prop :=
  count_L i s.row_i = s.written_L ∧ count_U i s.row_i = s.written_U ∧
  s.row_i.length = s.written_L + s.written_U + done_.countP (fun c => decide (cand_col c = i)) ∧
  ∀ x, x ∈ s.row_i → ∃ c, c ∈ done_ ∧ x = c.2

/-- What the elimination of a row has accounted for when the scan has passed the columns
below `lo`: multipliers times pivot rows for those columns, plus the rest of the working row. -/
def elim_residual (out : Output) (lo : Nat) (w : SparseVector) (j : Nat) : ℚ :=
  (∑ k in Finset.range lo, SparseVector.val w k * U_entry out k j) +
    (if lo ≤ j then SparseVector.val w j else 0)

/-- All stored columns of a sparse vector are below `n`. -/
def KeysBelow (n : Nat) (m : SparseVector) : Prop := ∀ k ∈ StdMap.keys m, k < n

/-- Ghost counter of the loop of lines 198-199: the number of times its body
`temp *= 1.000001` is executed by `unique_key`. -/
def unique_key_steps : Nat → TemporarySortMap → ℚ → Nat
  | 0, _, _ => 0
  | fuel + 1, temp_map, temp =>
    if (StdMap.find temp_map temp).isSome then
      unique_key_steps fuel temp_map (temp * (1000001 / 1000000)) + 1
    else 0

/-- Every key of the sort map is the magnitude of its entry scaled by a power of `1.000001`,
and the keys with the lower powers are stored as well. -/
def KeyChains (tm : TemporarySortMap) : Prop :=
  ∀ c ∈ tm, ∃ a : Nat, c.1 = fabs c.2.2 * (1000001 / 1000000) ^ a ∧
    ∀ a', a' < a → fabs c.2.2 * (1000001 / 1000000) ^ a' ∈ StdMap.keys tm

/-- Among the candidates of equal magnitude the sort key grows with the column. -/
def TieOrder (tm : TemporarySortMap) : Prop :=
  ∀ c ∈ tm, ∀ c' ∈ tm, cand_col c < cand_col c' → fabs c.2.2 = fabs c'.2.2 → c.1 < c'.1

/-! ## Lemmas on `std::map` -/

namespace StdMap

variable {κ β : Type}

theorem mem_keys_of_mem {m : StdMap κ β} {x : κ × β} (h : x ∈ m) : x.1 ∈ keys m :=
  List.mem_map_of_mem _ h

variable [LinearOrder κ]

theorem assign_cons_lt {k k' : κ} (h : k < k') (v v' : β) (tl : StdMap κ β) :
    assign ((k', v') :: tl) k v = (k, v) :: (k', v') :: tl := by
  simp [assign, h]

theorem assign_cons_eq (k : κ) (v v' : β) (tl : StdMap κ β) :
    assign ((k, v') :: tl) k v = (k, v) :: tl := by
  simp [assign]

theorem assign_cons_gt {k k' : κ} (h : k' < k) (v v' : β) (tl : StdMap κ β) :
    assign ((k', v') :: tl) k v = (k', v') :: assign tl k v := by
  simp [assign, not_lt_of_gt h, ne_of_gt h]

theorem find_assign (m : StdMap κ β) (k : κ) (v : β) (j : κ) :
    find (assign m k v) j = if j = k then some v else find m j := by
  induction m with
  | nil => simp [assign, find]
  | cons hd tl ih =>
    obtain ⟨k', v'⟩ := hd
    rcases lt_trichotomy k k' with h | h | h
    · rw [assign_cons_lt h]
      simp [find]
    · subst h
      rw [assign_cons_eq]
      by_cases h3 : j = k <;> simp [find, h3]
    · rw [assign_cons_gt h]
      by_cases h3 : j = k
      · subst h3
        simp [find, ne_of_gt h, ih]
      · simp [find, h3, ih]

theorem mem_assign {m : StdMap κ β} {k : κ} {v : β} {x : κ × β}
    (h : x ∈ assign m k v) : x = (k, v) ∨ x ∈ m := by
  induction m with
  | nil => simpa [assign] using h
  | cons hd tl ih =>
    obtain ⟨k', v'⟩ := hd
    rcases lt_trichotomy k k' with h1 | h1 | h1
    · rw [assign_cons_lt h1] at h
      simpa using h
    · subst h1
      rw [assign_cons_eq] at h
      rcases List.mem_cons.1 h with h | h <;> simp [h]
    · rw [assign_cons_gt h1] at h
      rcases List.mem_cons.1 h with h | h
      · simp [h]
      · rcases ih h with h | h <;> simp [h]

theorem mem_assign_self (m : StdMap κ β) (k : κ) (v : β) : (k, v) ∈ assign m k v := by
  induction m with
  | nil => simp [assign]
  | cons hd tl ih =>
    obtain ⟨k', v'⟩ := hd
    rcases lt_trichotomy k k' with h1 | h1 | h1
    · rw [assign_cons_lt h1]; simp
    · subst h1
      rw [assign_cons_eq]; simp
    · rw [assign_cons_gt h1]; simp [ih]

theorem mem_assign_of_ne {m : StdMap κ β} {k : κ} {v : β} {x : κ × β}
    (h : x ∈ m) (hx : x.1 ≠ k) : x ∈ assign m k v := by
  induction m with
  | nil => simp at h
  | cons hd tl ih =>
    obtain ⟨k', v'⟩ := hd
    rcases lt_trichotomy k k' with h1 | h1 | h1
    · rw [assign_cons_lt h1]
      exact List.mem_cons_of_mem _ h
    · subst h1
      rw [assign_cons_eq]
      rcases List.mem_cons.1 h with h | h
      · exact absurd (by rw [h]) hx
      · exact List.mem_cons_of_mem _ h
    · rw [assign_cons_gt h1]
      rcases List.mem_cons.1 h with h | h
      · simp [h]
      · exact List.mem_cons_of_mem _ (ih h)

theorem find_eq_none_iff (m : StdMap κ β) (k : κ) : find m k = none ↔ k ∉ keys m := by
  induction m with
  | nil => simp [find, keys]
  | cons hd tl ih =>
    obtain ⟨k', v'⟩ := hd
    by_cases h : k = k'
    · simp [find, keys, h]
    · simp only [find, h, if_false, ih]
      simp [keys, h]

theorem mem_of_find {m : StdMap κ β} {k : κ} {v : β} (h : find m k = some v) : (k, v) ∈ m := by
  induction m with
  | nil => simp [find] at h
  | cons hd tl ih =>
    obtain ⟨k', v'⟩ := hd
    by_cases h1 : k = k'
    · simp only [find, h1, if_true, Option.some.injEq] at h
      simp [h1, h]
    · simp only [find, h1, if_false] at h
      exact List.mem_cons_of_mem _ (ih h)

theorem find_of_mem {m : StdMap κ β} (hm : (keys m).Nodup) {k : κ} {v : β}
    (h : (k, v) ∈ m) : find m k = some v := by
  induction m with
  | nil => simp at h
  | cons hd tl ih =>
    obtain ⟨k', v'⟩ := hd
    simp only [keys, List.map_cons, List.nodup_cons] at hm
    rcases List.mem_cons.1 h with h' | h'
    · simp only [Prod.mk.injEq] at h'
      simp [find, h'.1, h'.2]
    · have hne : k ≠ k' := by
        intro hk
        exact hm.1 (hk ▸ @mem_keys_of_mem _ _ _ (k, v) h')
      simp only [find, hne, if_false]
      exact ih hm.2 h'

theorem Ordered.nodup {m : StdMap κ β} (h : Ordered m) : (keys m).Nodup :=
  List.Pairwise.imp (fun hab => ne_of_lt hab) h

theorem mem_keys_assign (m : StdMap κ β) (k : κ) (v : β) (j : κ) :
    j ∈ keys (assign m k v) ↔ j = k ∨ j ∈ keys m := by
  have h1 := find_eq_none_iff (assign m k v) j
  have h2 := find_eq_none_iff m j
  rw [find_assign] at h1
  by_cases hj : j = k
  · simp only [hj, if_true] at h1
    simp only [hj, true_or, iff_true]
    by_contra hc
    exact absurd (h1.2 hc) (by simp)
  · simp only [hj, if_false] at h1
    simp only [hj, false_or]
    rw [← not_iff_not, ← h1, ← h2]

theorem ordered_nil : Ordered ([] : StdMap κ β) := by simp [Ordered, keys]

theorem ordered_cons {k : κ} {v : β} {tl : StdMap κ β} :
    Ordered ((k, v) :: tl) ↔ (∀ a ∈ keys tl, k < a) ∧ Ordered tl := by
  simp [Ordered, keys]

theorem Ordered.assign {m : StdMap κ β} (h : Ordered m) (k : κ) (v : β) :
    Ordered (assign m k v) := by
  induction m with
  | nil => simp [StdMap.assign, Ordered, keys]
  | cons hd tl ih =>
    obtain ⟨k', v'⟩ := hd
    have hcons := ordered_cons.1 h
    rcases lt_trichotomy k k' with h1 | h1 | h1
    · rw [assign_cons_lt h1]
      refine ordered_cons.2 ⟨?_, h⟩
      intro a ha
      rcases List.mem_cons.1 ha with ha | ha
      · exact ha ▸ h1
      · exact lt_trans h1 (hcons.1 a ha)
    · subst h1
      rw [assign_cons_eq]
      exact ordered_cons.2 hcons
    · rw [assign_cons_gt h1]
      refine ordered_cons.2 ⟨?_, ih hcons.2⟩
      intro a ha
      rcases (mem_keys_assign tl k v a).1 ha with ha | ha
      · rw [ha]
        exact h1
      · exact hcons.1 a ha

theorem assign_perm {m : StdMap κ β} {k : κ} (h : find m k = none) (v : β) :
    List.Perm (assign m k v) ((k, v) :: m) := by
  induction m with
  | nil => simp [assign]
  | cons hd tl ih =>
    obtain ⟨k', v'⟩ := hd
    rcases lt_trichotomy k k' with h1 | h1 | h1
    · rw [assign_cons_lt h1]
    · subst h1
      simp [find] at h
    · rw [assign_cons_gt h1]
      have h' : find tl k = none := by
        simpa [find, ne_of_gt h1] using h
      exact ((ih h').cons (k', v')).trans (List.Perm.swap _ _ _)

theorem countP_assign_le (p : κ × β → Bool) (m : StdMap κ β) (k : κ) (v : β) :
    (assign m k v).countP p ≤ m.countP p + (if p (k, v) then 1 else 0) := by
  induction m with
  | nil => simp [assign, List.countP_cons]
  | cons hd tl ih =>
    obtain ⟨k', v'⟩ := hd
    rcases lt_trichotomy k k' with h1 | h1 | h1
    · rw [assign_cons_lt h1]
      simp only [List.countP_cons]
      omega
    · subst h1
      rw [assign_cons_eq]
      simp only [List.countP_cons]
      omega
    · rw [assign_cons_gt h1]
      simp only [List.countP_cons]
      omega

end StdMap

/-! ## Structure of a completed factorisation -/

theorem row_at_set_eq (l : Output) {i : Nat} (h : i < l.length) (x : SparseVector) :
    row_at (l.set i x) i = x := by
  simp [row_at, List.getD_eq_getElem?_getD, List.getElem?_set, h]

theorem row_at_set_ne (l : Output) {i j : Nat} (h : i ≠ j) (x : SparseVector) :
    row_at (l.set i x) j = row_at l j := by
  simp [row_at, List.getD_eq_getElem?_getD, List.getElem?_set, h]

theorem set_row_at_self (l : Output) (i : Nat) : l.set i (row_at l i) = l := by
  induction l generalizing i with
  | nil => simp
  | cons hd tl ih =>
    cases i with
    | zero => simp [row_at]
    | succ i =>
      have := ih i
      simp only [row_at, List.getD_cons_succ, List.set_cons_succ] at this ⊢
      rw [this]

theorem row_at_empty_output (n r : Nat) : row_at (empty_output n) r = [] := by
  simp only [row_at, empty_output, List.getD_eq_getElem?_getD, List.getElem?_replicate]
  split <;> rfl

theorem index_fst {κ β : Type} [LinearOrder κ] (m : StdMap κ β) (k : κ) (d : β) :
    (StdMap.index m k d).1 = (StdMap.find m k).getD d := by
  unfold StdMap.index
  cases StdMap.find m k <;> rfl

theorem index_snd_of_ne {κ β : Type} [LinearOrder κ] (m : StdMap κ β) (k : κ) (d : β)
    (h : (StdMap.index m k d).1 ≠ d) : (StdMap.index m k d).2 = m := by
  unfold StdMap.index at h ⊢
  cases hf : StdMap.find m k with
  | none => simp [hf] at h
  | some v => rfl

theorem elim_body_ok {tau_i : ℚ} {k : Nat} {w_k : ℚ} {w w' : SparseVector} {output out' : Output}
    (h : elim_body tau_i k w_k w output = .ok (w', out')) :
    out' = output ∧ SparseVector.val (row_at output k) k ≠ 0 ∧
      w' = elim_step_w tau_i k w_k (SparseVector.val (row_at output k) k) (row_at output k) w := by
  unfold elim_body at h
  simp only [index_fst] at h
  have hval : (StdMap.find (row_at output k) k).getD 0 = SparseVector.val (row_at output k) k := rfl
  rw [hval] at h
  by_cases ha : SparseVector.val (row_at output k) k = 0
  · rw [if_pos ha] at h
    cases h
  · have hidx : (StdMap.index (row_at output k) k (0 : ℚ)).2 = row_at output k :=
      index_snd_of_ne _ _ _ (by rw [index_fst]; exact ha)
    rw [if_neg ha, hidx, set_row_at_self] at h
    unfold elim_step_w
    by_cases hc : fabs (w_k / SparseVector.val (row_at output k) k) > tau_i
    · rw [if_pos hc] at h ⊢
      simp only [Except.ok.injEq, Prod.mk.injEq] at h
      exact ⟨h.2.symm, ha, h.1.symm⟩
    · rw [if_neg hc] at h ⊢
      simp only [Except.ok.injEq, Prod.mk.injEq] at h
      exact ⟨h.2.symm, ha, h.1.symm⟩

theorem elim_body_zero {tau_i : ℚ} {k : Nat} {w_k : ℚ} {w : SparseVector} {output : Output}
    (ha : SparseVector.val (row_at output k) k = 0) :
    elim_body tau_i k w_k w output =
      .error (.zero_diagonal, output.set k (StdMap.index (row_at output k) k 0).2) := by
  unfold elim_body
  simp only [index_fst]
  have hval : (StdMap.find (row_at output k) k).getD 0 = SparseVector.val (row_at output k) k := rfl
  rw [hval, if_pos ha]

theorem eliminate_ok_output {i : Nat} {tau_i : ℚ} :
    ∀ (fuel lo : Nat) (w w' : SparseVector) (output out' : Output),
      eliminate i tau_i fuel lo w output = .ok (w', out') → out' = output := by
  intro fuel
  induction fuel with
  | zero =>
    intro lo w w' output out' h
    unfold eliminate at h
    split at h
    · simp at h; exact h.2.symm
    · split at h
      · simp at h; exact h.2.symm
      · simp at h
  | succ fuel ih =>
    intro lo w w' output out' h
    unfold eliminate at h
    split at h
    · simp at h; exact h.2.symm
    · split at h
      · simp at h; exact h.2.symm
      · simp only at h
        split at h
        · simp at h
        · rename_i w1 out1 hb
          have h1 := (elim_body_ok hb).1
          have h2 := ih _ _ _ _ _ h
          rw [h2, h1]

theorem process_row_ok {sqrt : ℚ → ℚ} {A : SparseMatrix} {tag : ilut_tag} {output out' : Output}
    {i : Nat} (h : process_row sqrt A tag output i = .ok out') :
    ∃ w temp_map,
      eliminate i (tau sqrt A tag i) i 0 (setup_w sqrt A i []).2 output = .ok (w, output) ∧
      sort_pass i (tau sqrt A tag i) w [] = .ok temp_map ∧
      out' = output.set i (write_pass i tag.get_entries_per_row temp_map (row_at output i)) := by
  unfold process_row at h
  simp only at h
  split at h
  · simp at h
  · rename_i w out1 he
    have ho := eliminate_ok_output _ _ _ _ _ _ he
    subst ho
    unfold finalize_row at h
    split at h
    · simp at h
    · rename_i row_i hf
      split at hf
      · simp at hf
      · rename_i temp_map hs
        simp only [Except.ok.injEq] at hf h
        exact ⟨w, temp_map, he, hs, by rw [← h, ← hf]⟩

theorem row_loop_inv {sqrt : ℚ → ℚ} {A : SparseMatrix} {tag : ilut_tag} (Inv : Nat → Output → Prop)
    (n : Nat)
    (step : ∀ i out out', i < n → Inv i out → process_row sqrt A tag out i = .ok out' →
      Inv (i + 1) out') :
    ∀ (m s : Nat) (out out' : Output), s + m = n → Inv s out →
      row_loop sqrt A tag (List.range' s m) out = .ok out' → Inv n out' := by
  intro m
  induction m with
  | zero =>
    intro s out out' hs hI h
    simp only [List.range'_zero, row_loop, Except.ok.injEq] at h
    have : s = n := by omega
    rw [← h, ← this]
    exact hI
  | succ m ih =>
    intro s out out' hs hI h
    simp only [List.range'_succ, row_loop] at h
    split at h
    · simp at h
    · rename_i out1 hp
      exact ih (s + 1) out1 out' (by omega) (step s out out1 (by omega) hI hp) h

theorem precondition_ok_rows {sqrt : ℚ → ℚ} {A : SparseMatrix} {tag : ilut_tag} {n : Nat}
    {out : Output} (h : precondition sqrt A (empty_output n) tag = .ok out) :
    A.size1 = n ∧ out.length = n ∧ ∀ r, r < n → RowDone sqrt A tag n r out := by
  unfold precondition at h
  have hlen : (empty_output n).length = n := by simp [empty_output]
  rw [hlen] at h
  by_cases hs : A.size1 = n
  · simp only [hs, ne_eq, not_true_eq_false, if_false, List.range_eq_range'] at h
    have key := @row_loop_inv sqrt A tag
      (fun i o => o.length = n ∧ (∀ r, i ≤ r → row_at o r = []) ∧
        ∀ r, r < i → RowDone sqrt A tag n r o) n ?_ n 0 (empty_output n) out (by omega) ?_ h
    · exact ⟨hs, key.1, key.2.2⟩
    · intro i o o' hi hI hp
      obtain ⟨hl, hempty, hdone⟩ := hI
      obtain ⟨w, tm, he, hsp, ho'⟩ := process_row_ok hp
      rw [hempty i (le_refl i)] at ho'
      subst ho'
      refine ⟨by simp [hl], ?_, ?_⟩
      · intro r hr
        rw [row_at_set_ne _ (by omega)]
        exact hempty r (by omega)
      · intro r hr
        by_cases hri : r = i
        · subst hri
          refine ⟨o, w, tm, hl, ?_, he, hsp, ?_⟩
          · intro k hk
            rw [row_at_set_ne _ (by omega)]
          · rw [row_at_set_eq _ (by omega)]
        · obtain ⟨out_r, w_r, tm_r, h1, h2, h3, h4, h5⟩ := hdone r (by omega)
          refine ⟨out_r, w_r, tm_r, h1, ?_, h3, h4, ?_⟩
          · intro k hk
            rw [row_at_set_ne _ (by omega)]
            exact h2 k hk
          · rw [row_at_set_ne _ (Ne.symm hri)]
            exact h5
    · refine ⟨hlen, ?_, ?_⟩
      · intro r _
        exact row_at_empty_output n r
      · intro r hr
        omega
  · simp [hs] at h

/-! ## Row norm -/

theorem fabs_eq_abs (x : ℚ) : fabs x = |x| := by
  unfold fabs
  split
  · rename_i h; rw [abs_of_neg h]
  · rename_i h; rw [abs_of_nonneg (not_lt.1 h)]

theorem foldl_add_sq (l : List (Nat × ℚ)) (a : ℚ) :
    l.foldl (fun (row_norm : ℚ) iter_w => row_norm + iter_w.2 * iter_w.2) a =
      a + (l.map (fun e => e.2 * e.2)).sum := by
  induction l generalizing a with
  | nil => simp
  | cons hd tl ih => simp [List.foldl_cons, ih, add_assoc]

theorem foldl_compressed_fst (A : compressed_matrix) (l : List Nat) (acc : ℚ × SparseVector) :
    (l.foldl (fun (acc : ℚ × SparseVector) buf_index_i =>
        (acc.1 + A.elements.getD buf_index_i 0 * A.elements.getD buf_index_i 0,
          StdMap.assign acc.2 (A.col_buffer.getD buf_index_i 0) (A.elements.getD buf_index_i 0)))
      acc).1 =
      acc.1 + ((l.map (fun idx => (A.col_buffer.getD idx 0, A.elements.getD idx 0))).map
        (fun e => e.2 * e.2)).sum := by
  induction l generalizing acc with
  | nil => simp
  | cons hd tl ih => simp only [List.foldl_cons, ih, List.map_cons, List.sum_cons, add_assoc]

theorem setup_w_norm (sqrt : ℚ → ℚ) (A : SparseMatrix) (i : Nat) (w : SparseVector) :
    (setup_w sqrt A i w).1 = euclidean_norm sqrt (A.row_entries i) := by
  cases A with
  | compressed A =>
    simp only [setup_w, setup_w_compressed, euclidean_norm, SparseMatrix.row_entries]
    rw [foldl_compressed_fst]
    simp
  | stl A =>
    simp only [setup_w, setup_w_stl, euclidean_norm, SparseMatrix.row_entries]
    rw [foldl_add_sq]
    simp

theorem tau_eq (sqrt : ℚ → ℚ) (A : SparseMatrix) (tag : ilut_tag) (i : Nat) :
    tau sqrt A tag i = tag.get_drop_tolerance * euclidean_norm sqrt (A.row_entries i) := by
  rw [tau, setup_w_norm]

/-! ## The dropping pass and the write loop -/

theorem unique_key_find {fuel : Nat} {temp_map : TemporarySortMap} {temp key : ℚ}
    (h : unique_key fuel temp_map temp = some key) : StdMap.find temp_map key = none := by
  induction fuel generalizing temp with
  | zero =>
    unfold unique_key at h
    split at h
    · simp at h
    · rename_i hf
      simp only [Option.some.injEq] at h
      rw [← h]
      simpa using hf
  | succ fuel ih =>
    unfold unique_key at h
    split at h
    · exact ih h
    · rename_i hf
      simp only [Option.some.injEq] at h
      rw [← h]
      simpa using hf

theorem sort_pass_mem {i : Nat} {tau_i : ℚ} :
    ∀ (w : SparseVector) (tm0 tm : TemporarySortMap),
      sort_pass i tau_i w tm0 = .ok tm →
      ∀ x, x ∈ tm → x ∈ tm0 ∨ (x.2 ∈ w ∧ survives i tau_i x.2 = true ∧ x.2.2 ≠ 0) := by
  intro w
  induction w with
  | nil =>
    intro tm0 tm h x hx
    simp only [sort_pass, Except.ok.injEq] at h
    exact Or.inl (h ▸ hx)
  | cons hd tl ih =>
    intro tm0 tm h x hx
    obtain ⟨k, v⟩ := hd
    unfold sort_pass at h
    split at h
    · rename_i hc
      simp only at h
      split at h
      · simp at h
      · rename_i hz
        split at h
        · simp at h
        · rename_i key hu
          rcases ih _ _ h x hx with h1 | h1
          · rcases StdMap.mem_assign h1 with h2 | h2
            · right
              rw [h2]
              refine ⟨List.mem_cons_self _ _, ?_, ?_⟩
              · simpa [survives] using hc
              · intro hv
                apply hz
                simp only at hv
                simp [hv, fabs]
            · exact Or.inl h2
          · exact Or.inr ⟨List.mem_cons_of_mem _ h1.1, h1.2⟩
    · rcases ih _ _ h x hx with h1 | h1
      · exact Or.inl h1
      · exact Or.inr ⟨List.mem_cons_of_mem _ h1.1, h1.2⟩

theorem write_body_bounded {i entries_per_row : Nat} {s : WriteState} (c : ℚ × (Nat × ℚ))
    (h : WriteBounded i entries_per_row s) :
    WriteBounded i entries_per_row (write_body i entries_per_row s c) := by
  obtain ⟨h1, h2, h3, h4⟩ := h
  have hL := StdMap.countP_assign_le (fun e : Nat × ℚ => decide (e.1 < i)) s.row_i c.2.1 c.2.2
  have hU := StdMap.countP_assign_le (fun e : Nat × ℚ => decide (i < e.1)) s.row_i c.2.1 c.2.2
  unfold WriteBounded count_L count_U at *
  unfold write_body
  by_cases hj : c.2.1 < i
  · have hj' : ¬ i < c.2.1 := by omega
    simp only [hj, hj', decide_True, decide_False, if_true] at hL hU ⊢
    by_cases hb : s.written_L < entries_per_row
    · simp only [hb, if_true]
      refine ⟨by omega, by omega, ?_, h4⟩
      simp only [Bool.false_eq_true, if_false, add_zero] at hU
      omega
    · simp only [hb, if_false]
      exact ⟨h1, h2, h3, h4⟩
  · by_cases hji : c.2.1 = i
    · have hj' : ¬ i < c.2.1 := by omega
      simp only [hj, hj', hji, decide_True, decide_False, if_true, if_false, lt_irrefl,
        Bool.false_eq_true, add_zero] at hL hU ⊢
      exact ⟨by omega, h2, by omega, h4⟩
    · have hj' : i < c.2.1 := by omega
      simp only [hj, hj', hji, decide_True, decide_False, if_true, if_false,
        Bool.false_eq_true, add_zero] at hL hU ⊢
      by_cases hb : s.written_U < entries_per_row
      · simp only [hb, if_true]
        exact ⟨by omega, h2, by omega, by omega⟩
      · simp only [hb, if_false]
        exact ⟨h1, h2, h3, h4⟩

theorem write_fold_bounded (i entries_per_row : Nat) (cs : List (ℚ × (Nat × ℚ))) (s : WriteState)
    (h : WriteBounded i entries_per_row s) :
    WriteBounded i entries_per_row (cs.foldl (write_body i entries_per_row) s) := by
  induction cs generalizing s with
  | nil => exact h
  | cons c cs ih => exact ih _ (write_body_bounded c h)

theorem write_pass_budget (i entries_per_row : Nat) (temp_map : TemporarySortMap) :
    count_L i (write_pass i entries_per_row temp_map []) ≤ entries_per_row ∧
    count_U i (write_pass i entries_per_row temp_map []) ≤ entries_per_row := by
  have h := write_fold_bounded i entries_per_row temp_map.reverse
    ⟨0, 0, []⟩ (by simp [WriteBounded, count_L, count_U])
  unfold write_pass
  exact ⟨le_trans h.1 h.2.1, le_trans h.2.2.1 h.2.2.2⟩

theorem write_body_mem {i entries_per_row : Nat} {s : WriteState} (c : ℚ × (Nat × ℚ))
    {x : Nat × ℚ} (h : x ∈ (write_body i entries_per_row s c).row_i) :
    x ∈ s.row_i ∨ x = c.2 := by
  unfold write_body at h
  simp only at h
  split at h
  · split at h
    · rcases StdMap.mem_assign h with h | h
      · exact Or.inr h
      · exact Or.inl h
    · exact Or.inl h
  · split at h
    · rcases StdMap.mem_assign h with h | h
      · exact Or.inr h
      · exact Or.inl h
    · split at h
      · rcases StdMap.mem_assign h with h | h
        · exact Or.inr h
        · exact Or.inl h
      · exact Or.inl h

theorem write_fold_mem {i entries_per_row : Nat} (cs : List (ℚ × (Nat × ℚ))) (s : WriteState)
    {x : Nat × ℚ} (h : x ∈ (cs.foldl (write_body i entries_per_row) s).row_i) :
    x ∈ s.row_i ∨ ∃ c ∈ cs, x = c.2 := by
  induction cs generalizing s with
  | nil => exact Or.inl h
  | cons c cs ih =>
    rcases ih _ h with h | ⟨c', hc', hx⟩
    · rcases write_body_mem c h with h | h
      · exact Or.inl h
      · exact Or.inr ⟨c, List.mem_cons_self _ _, h⟩
    · exact Or.inr ⟨c', List.mem_cons_of_mem _ hc', hx⟩

theorem write_pass_mem {i entries_per_row : Nat} {temp_map : TemporarySortMap} {x : Nat × ℚ}
    (h : x ∈ write_pass i entries_per_row temp_map []) : ∃ c ∈ temp_map, x = c.2 := by
  rcases write_fold_mem temp_map.reverse ⟨0, 0, []⟩ h with h | ⟨c, hc, hx⟩
  · simp at h
  · exact ⟨c, List.mem_reverse.1 hc, hx⟩

/-! ## Independence of the square root at zero tolerance -/

theorem setup_w_snd (sqrt sqrt' : ℚ → ℚ) (A : SparseMatrix) (i : Nat) (w : SparseVector) :
    (setup_w sqrt A i w).2 = (setup_w sqrt' A i w).2 := by
  cases A <;> rfl

theorem process_row_tol_zero (sqrt sqrt' : ℚ → ℚ) (A : SparseMatrix) (tag : ilut_tag)
    (htol : tag.get_drop_tolerance = 0) (output : Output) (i : Nat) :
    process_row sqrt A tag output i = process_row sqrt' A tag output i := by
  unfold process_row
  simp only [htol, zero_mul]
  rw [setup_w_snd sqrt sqrt']

theorem row_loop_tol_zero (sqrt sqrt' : ℚ → ℚ) (A : SparseMatrix) (tag : ilut_tag)
    (htol : tag.get_drop_tolerance = 0) (rows : List Nat) (output : Output) :
    row_loop sqrt A tag rows output = row_loop sqrt' A tag rows output := by
  induction rows generalizing output with
  | nil => rfl
  | cons i rows ih =>
    simp only [row_loop, process_row_tol_zero sqrt sqrt' A tag htol]
    split
    · rfl
    · exact ih _

theorem precondition_tol_zero (sqrt sqrt' : ℚ → ℚ) (A : SparseMatrix) (tag : ilut_tag)
    (htol : tag.get_drop_tolerance = 0) (output : Output) :
    precondition sqrt A output tag = precondition sqrt' A output tag := by
  unfold precondition
  rw [row_loop_tol_zero sqrt sqrt' A tag htol]

/-! ## The key-uniqueness loop and the sort map -/

theorem countP_lt_of_mem {α : Type} (p q : α → Bool) (l : List α)
    (hqp : ∀ x ∈ l, q x = true → p x = true) {a : α} (ha : a ∈ l) (hp : p a = true)
    (hq : q a = false) : l.countP q < l.countP p := by
  induction l with
  | nil => simp at ha
  | cons hd tl ih =>
    have hmono : tl.countP q ≤ tl.countP p :=
      List.countP_mono_left (fun x hx hqx => hqp x (List.mem_cons_of_mem _ hx) hqx)
    rcases List.mem_cons.1 ha with h | h
    · subst h
      have e1 : (a :: tl).countP q = tl.countP q + (if q a = true then 1 else 0) :=
        List.countP_cons _ _ _
      have e2 : (a :: tl).countP p = tl.countP p + (if p a = true then 1 else 0) :=
        List.countP_cons _ _ _
      rw [e1, e2, if_pos hp, if_neg (by simp [hq])]
      omega
    · have := ih (fun x hx => hqp x (List.mem_cons_of_mem _ hx)) h
      have hhd := hqp hd (List.mem_cons_self _ _)
      have e1 : (hd :: tl).countP q = tl.countP q + (if q hd = true then 1 else 0) :=
        List.countP_cons _ _ _
      have e2 : (hd :: tl).countP p = tl.countP p + (if p hd = true then 1 else 0) :=
        List.countP_cons _ _ _
      rw [e1, e2]
      by_cases hqh : q hd = true
      · rw [if_pos hqh, if_pos (hhd hqh)]
        omega
      · rw [if_neg hqh]
        by_cases hph : p hd = true
        · rw [if_pos hph]; omega
        · rw [if_neg hph]; omega

theorem unique_key_some (fuel : Nat) (temp_map : TemporarySortMap) (temp : ℚ) (hpos : 0 < temp)
    (hfuel : temp_map.countP (fun e => decide (temp ≤ e.1)) ≤ fuel) :
    ∃ key, unique_key fuel temp_map temp = some key := by
  induction fuel generalizing temp with
  | zero =>
    unfold unique_key
    cases hf : StdMap.find temp_map temp with
    | none => exact ⟨temp, by simp⟩
    | some c =>
      have hmem := StdMap.mem_of_find hf
      have : 0 < temp_map.countP (fun e => decide (temp ≤ e.1)) :=
        List.countP_pos_iff.2 ⟨_, hmem, by simp⟩
      omega
  | succ fuel ih =>
    unfold unique_key
    cases hf : StdMap.find temp_map temp with
    | none => exact ⟨temp, by simp⟩
    | some c =>
      simp only [Option.isSome_some, if_true]
      have hlt : temp < temp * (1000001 / 1000000) := by
        have : (1 : ℚ) < 1000001 / 1000000 := by norm_num
        calc temp = temp * 1 := (mul_one temp).symm
          _ < temp * (1000001 / 1000000) := mul_lt_mul_of_pos_left this hpos
      apply ih _ (lt_trans hpos hlt)
      have hmem := StdMap.mem_of_find hf
      have := countP_lt_of_mem (fun e : ℚ × (Nat × ℚ) => decide (temp ≤ e.1))
        (fun e => decide (temp * (1000001 / 1000000) ≤ e.1)) temp_map
        (fun x _ hx => by
          simp only [decide_eq_true_eq] at hx ⊢
          exact le_trans (le_of_lt hlt) hx)
        hmem (by simp) (by simpa using hlt)
      omega

theorem unique_key_length (temp_map : TemporarySortMap) (temp : ℚ) (hpos : 0 < temp) :
    ∃ key, unique_key temp_map.length temp_map temp = some key :=
  unique_key_some _ _ _ hpos (List.countP_le_length _)

theorem unique_key_of_absent (fuel : Nat) (temp_map : TemporarySortMap) (temp : ℚ)
    (h : StdMap.find temp_map temp = none) : unique_key fuel temp_map temp = some temp := by
  cases fuel <;> simp [unique_key, h]

theorem unique_key_pow {fuel : Nat} {temp_map : TemporarySortMap} {temp key : ℚ}
    (h : unique_key fuel temp_map temp = some key) :
    ∃ m, m ≤ fuel ∧ key = temp * (1000001 / 1000000) ^ m := by
  induction fuel generalizing temp with
  | zero =>
    unfold unique_key at h
    split at h
    · simp at h
    · simp only [Option.some.injEq] at h
      exact ⟨0, le_refl _, by simp [h]⟩
  | succ fuel ih =>
    unfold unique_key at h
    split at h
    · obtain ⟨m, hm, hk⟩ := ih h
      exact ⟨m + 1, by omega, by rw [hk, pow_succ]; ring⟩
    · simp only [Option.some.injEq] at h
      exact ⟨0, by omega, by simp [h]⟩

theorem fabs_nonneg (x : ℚ) : 0 ≤ fabs x := by
  rw [fabs_eq_abs]
  exact abs_nonneg x

theorem fabs_eq_zero_iff (x : ℚ) : fabs x = 0 ↔ x = 0 := by
  rw [fabs_eq_abs]
  exact abs_eq_zero

theorem sort_pass_ordered {i : Nat} {tau_i : ℚ} :
    ∀ (w : SparseVector) (tm0 tm : TemporarySortMap),
      sort_pass i tau_i w tm0 = .ok tm → StdMap.Ordered tm0 → StdMap.Ordered tm := by
  intro w
  induction w with
  | nil =>
    intro tm0 tm h h0
    simp only [sort_pass, Except.ok.injEq] at h
    exact h ▸ h0
  | cons hd tl ih =>
    intro tm0 tm h h0
    obtain ⟨k, v⟩ := hd
    unfold sort_pass at h
    split at h
    · simp only at h
      split at h
      · simp at h
      · split at h
        · simp at h
        · exact ih _ _ h (h0.assign _ _)
    · exact ih _ _ h h0

theorem sort_pass_perm {i : Nat} {tau_i : ℚ} :
    ∀ (w : SparseVector) (tm0 tm : TemporarySortMap),
      sort_pass i tau_i w tm0 = .ok tm →
      List.Perm (tm.map Prod.snd) (tm0.map Prod.snd ++ w.filter (survives i tau_i)) := by
  intro w
  induction w with
  | nil =>
    intro tm0 tm h
    simp only [sort_pass, Except.ok.injEq] at h
    simp [h]
  | cons hd tl ih =>
    intro tm0 tm h
    obtain ⟨k, v⟩ := hd
    unfold sort_pass at h
    split at h
    · rename_i hc
      simp only at h
      split at h
      · simp at h
      · split at h
        · simp at h
        · rename_i key hu
          have hs : survives i tau_i (k, v) = true := by simpa [survives] using hc
          have h1 := ih _ _ h
          have h2 : List.Perm ((StdMap.assign tm0 key (k, v)).map Prod.snd)
              ((k, v) :: tm0.map Prod.snd) :=
            (StdMap.assign_perm (unique_key_find hu) (k, v)).map Prod.snd
          rw [List.filter_cons_of_pos hs]
          exact h1.trans ((h2.append_right _).trans List.perm_middle.symm)
    · rename_i hc
      have hs : ¬ (survives i tau_i (k, v) = true) := by simpa [survives] using hc
      rw [List.filter_cons_of_neg hs]
      exact ih _ _ h

theorem sort_pass_fuel {i : Nat} {tau_i : ℚ} :
    ∀ (w : SparseVector) (tm0 : TemporarySortMap),
      sort_pass i tau_i w tm0 ≠ .error .out_of_fuel := by
  intro w
  induction w with
  | nil => intro tm0; simp [sort_pass]
  | cons hd tl ih =>
    intro tm0
    obtain ⟨k, v⟩ := hd
    unfold sort_pass
    split
    · simp only
      split
      · simp
      · rename_i hz
        have hpos : 0 < fabs v := lt_of_le_of_ne (fabs_nonneg v) (Ne.symm hz)
        obtain ⟨key, hkey⟩ := unique_key_length tm0 (fabs v) hpos
        rw [hkey]
        exact ih _
    · exact ih _

/-! ## Exact description of the write loop -/

theorem write_fold_mem_mono {i entries_per_row : Nat} (cs : List (ℚ × (Nat × ℚ)))
    (s : WriteState) {x : Nat × ℚ} (hx : x ∈ s.row_i) (hne : ∀ c ∈ cs, cand_col c ≠ x.1) :
    x ∈ (cs.foldl (write_body i entries_per_row) s).row_i := by
  induction cs generalizing s with
  | nil => exact hx
  | cons c cs ih =>
    apply ih _ _ (fun c' hc' => hne c' (List.mem_cons_of_mem _ hc'))
    have hc : x.1 ≠ c.2.1 := fun h => hne c (List.mem_cons_self _ _) h.symm
    unfold write_body
    simp only
    split
    · split
      · exact StdMap.mem_assign_of_ne hx hc
      · exact hx
    · split
      · exact StdMap.mem_assign_of_ne hx hc
      · split
        · exact StdMap.mem_assign_of_ne hx hc
        · exact hx

theorem write_body_accept {i entries_per_row : Nat} (s : WriteState) (c : ℚ × (Nat × ℚ))
    (h : (cand_col c < i ∧ s.written_L < entries_per_row) ∨ cand_col c = i ∨
      (i < cand_col c ∧ s.written_U < entries_per_row)) :
    c.2 ∈ (write_body i entries_per_row s c).row_i := by
  unfold cand_col at h
  unfold write_body
  simp only
  rcases h with ⟨h1, h2⟩ | h1 | ⟨h1, h2⟩
  · rw [if_pos h1, if_pos h2]
    exact StdMap.mem_assign_self _ _ _
  · rw [if_neg (by omega), if_pos h1]
    exact StdMap.mem_assign_self _ _ _
  · rw [if_neg (by omega), if_neg (by omega), if_pos h2]
    exact StdMap.mem_assign_self _ _ _

theorem write_fold_saturated_L {i entries_per_row : Nat} (cs : List (ℚ × (Nat × ℚ)))
    (s : WriteState) (hs : entries_per_row ≤ s.written_L) {x : Nat × ℚ}
    (hx : x ∈ (cs.foldl (write_body i entries_per_row) s).row_i) (hxi : x.1 < i) :
    x ∈ s.row_i := by
  induction cs generalizing s with
  | nil => exact hx
  | cons c cs ih =>
    simp only [List.foldl_cons] at hx
    by_cases hc : c.2.1 < i
    · have : write_body i entries_per_row s c = s := by
        unfold write_body
        simp only
        rw [if_pos hc, if_neg (by omega)]
      rw [this] at hx
      exact ih s hs hx
    · have hw : (write_body i entries_per_row s c).written_L = s.written_L := by
        unfold write_body
        simp only
        rw [if_neg hc]
        split
        · rfl
        · split <;> rfl
      have h1 := ih _ (by rw [hw]; exact hs) hx
      rcases write_body_mem c h1 with h2 | h2
      · exact h2
      · rw [h2] at hxi
        exact absurd hxi hc

theorem write_fold_saturated_U {i entries_per_row : Nat} (cs : List (ℚ × (Nat × ℚ)))
    (s : WriteState) (hs : entries_per_row ≤ s.written_U) {x : Nat × ℚ}
    (hx : x ∈ (cs.foldl (write_body i entries_per_row) s).row_i) (hxi : i < x.1) :
    x ∈ s.row_i := by
  induction cs generalizing s with
  | nil => exact hx
  | cons c cs ih =>
    simp only [List.foldl_cons] at hx
    by_cases hc : i < c.2.1
    · have : write_body i entries_per_row s c = s := by
        unfold write_body
        simp only
        rw [if_neg (by omega), if_neg (by omega), if_neg (by omega)]
      rw [this] at hx
      exact ih s hs hx
    · have hw : (write_body i entries_per_row s c).written_U = s.written_U := by
        unfold write_body
        simp only
        split
        · split <;> rfl
        · split
          · rfl
          · rename_i h1 h2
            exact absurd (show i < c.2.1 by omega) hc
      have h1 := ih _ (by rw [hw]; exact hs) hx
      rcases write_body_mem c h1 with h2 | h2
      · exact h2
      · rw [h2] at hxi
        exact absurd hxi hc

theorem write_body_L_acc {i entries_per_row : Nat} {s : WriteState} {c : ℚ × (Nat × ℚ)}
    (h1 : c.2.1 < i) (h2 : s.written_L < entries_per_row) :
    write_body i entries_per_row s c =
      ⟨s.written_L + 1, s.written_U, StdMap.assign s.row_i c.2.1 c.2.2⟩ := by
  unfold write_body
  simp only
  rw [if_pos h1, if_pos h2]

theorem write_body_L_rej {i entries_per_row : Nat} {s : WriteState} {c : ℚ × (Nat × ℚ)}
    (h1 : c.2.1 < i) (h2 : ¬ s.written_L < entries_per_row) :
    write_body i entries_per_row s c = s := by
  unfold write_body
  simp only
  rw [if_pos h1, if_neg h2]

theorem write_body_D {i entries_per_row : Nat} {s : WriteState} {c : ℚ × (Nat × ℚ)}
    (h1 : c.2.1 = i) :
    write_body i entries_per_row s c =
      ⟨s.written_L, s.written_U, StdMap.assign s.row_i c.2.1 c.2.2⟩ := by
  unfold write_body
  simp only
  rw [if_neg (by omega), if_pos h1]

theorem write_body_U_acc {i entries_per_row : Nat} {s : WriteState} {c : ℚ × (Nat × ℚ)}
    (h1 : i < c.2.1) (h2 : s.written_U < entries_per_row) :
    write_body i entries_per_row s c =
      ⟨s.written_L, s.written_U + 1, StdMap.assign s.row_i c.2.1 c.2.2⟩ := by
  unfold write_body
  simp only
  rw [if_neg (by omega), if_neg (by omega), if_pos h2]

theorem write_body_U_rej {i entries_per_row : Nat} {s : WriteState} {c : ℚ × (Nat × ℚ)}
    (h1 : i < c.2.1) (h2 : ¬ s.written_U < entries_per_row) :
    write_body i entries_per_row s c = s := by
  unfold write_body
  simp only
  rw [if_neg (by omega), if_neg (by omega), if_neg h2]

theorem countP_cons_L (i : Nat) (c : ℚ × (Nat × ℚ)) (cs : List (ℚ × (Nat × ℚ))) :
    (c :: cs).countP (fun c => decide (cand_col c < i)) =
      cs.countP (fun c => decide (cand_col c < i)) + (if c.2.1 < i then 1 else 0) := by
  rw [List.countP_cons]; simp [cand_col]

theorem countP_cons_U (i : Nat) (c : ℚ × (Nat × ℚ)) (cs : List (ℚ × (Nat × ℚ))) :
    (c :: cs).countP (fun c => decide (i < cand_col c)) =
      cs.countP (fun c => decide (i < cand_col c)) + (if i < c.2.1 then 1 else 0) := by
  rw [List.countP_cons]; simp [cand_col]

theorem countP_cons_D (i : Nat) (c : ℚ × (Nat × ℚ)) (cs : List (ℚ × (Nat × ℚ))) :
    (c :: cs).countP (fun c => decide (cand_col c = i)) =
      cs.countP (fun c => decide (cand_col c = i)) + (if c.2.1 = i then 1 else 0) := by
  rw [List.countP_cons]; simp [cand_col]

theorem write_fold_written (i entries_per_row : Nat) (cs : List (ℚ × (Nat × ℚ)))
    (s : WriteState) (hL : s.written_L ≤ entries_per_row) (hU : s.written_U ≤ entries_per_row) :
    (cs.foldl (write_body i entries_per_row) s).written_L =
        min entries_per_row (s.written_L + cs.countP (fun c => decide (cand_col c < i))) ∧
      (cs.foldl (write_body i entries_per_row) s).written_U =
        min entries_per_row (s.written_U + cs.countP (fun c => decide (i < cand_col c))) := by
  induction cs generalizing s with
  | nil => simp [Nat.min_eq_right hL, Nat.min_eq_right hU]
  | cons c cs ih =>
    rw [countP_cons_L, countP_cons_U, List.foldl_cons]
    by_cases h1 : c.2.1 < i
    · rw [if_pos h1, if_neg (show ¬ i < c.2.1 by omega)]
      by_cases h2 : s.written_L < entries_per_row
      · rw [write_body_L_acc h1 h2]
        have := ih ⟨s.written_L + 1, s.written_U, StdMap.assign s.row_i c.2.1 c.2.2⟩
          (by simp only; omega) hU
        dsimp only at this
        rw [this.1, this.2]
        constructor
        · congr 1; omega
        · rfl
      · rw [write_body_L_rej h1 h2]
        have := ih s hL hU
        rw [this.1, this.2]
        constructor
        · rw [Nat.min_eq_left (by omega), Nat.min_eq_left (by omega)]
        · rfl
    · rw [if_neg h1]
      by_cases h3 : c.2.1 = i
      · rw [write_body_D h3, if_neg (show ¬ i < c.2.1 by omega)]
        have := ih ⟨s.written_L, s.written_U, StdMap.assign s.row_i c.2.1 c.2.2⟩ hL hU
        dsimp only at this
        rw [this.1, this.2]
        exact ⟨rfl, rfl⟩
      · have h4 : i < c.2.1 := by omega
        rw [if_pos h4]
        by_cases h2 : s.written_U < entries_per_row
        · rw [write_body_U_acc h4 h2]
          have := ih ⟨s.written_L, s.written_U + 1, StdMap.assign s.row_i c.2.1 c.2.2⟩ hL
            (by simp only; omega)
          dsimp only at this
          rw [this.1, this.2]
          constructor
          · rfl
          · congr 1; omega
        · rw [write_body_U_rej h4 h2]
          have := ih s hL hU
          rw [this.1, this.2]
          constructor
          · rfl
          · rw [Nat.min_eq_left (by omega), Nat.min_eq_left (by omega)]

theorem assign_fresh_counts (i : Nat) {m : SparseVector} {k : Nat} (h : StdMap.find m k = none)
    (v : ℚ) :
    count_L i (StdMap.assign m k v) = count_L i m + (if k < i then 1 else 0) ∧
      count_U i (StdMap.assign m k v) = count_U i m + (if i < k then 1 else 0) ∧
      (StdMap.assign m k v).length = m.length + 1 := by
  have hp := StdMap.assign_perm h v
  refine ⟨?_, ?_, ?_⟩
  · unfold count_L
    rw [hp.countP_eq, List.countP_cons]
    simp
  · unfold count_U
    rw [hp.countP_eq, List.countP_cons]
    simp
  · rw [hp.length_eq, List.length_cons]

theorem write_body_exact {i entries_per_row : Nat} {done_ : List (ℚ × (Nat × ℚ))}
    {s : WriteState} (c : ℚ × (Nat × ℚ)) (hc : cand_col c ∉ done_.map cand_col)
    (h : WriteExact i done_ s) :
    WriteExact i (done_ ++ [c]) (write_body i entries_per_row s c) := by
  obtain ⟨h1, h2, h3, h4⟩ := h
  have hfresh : StdMap.find s.row_i c.2.1 = none := by
    rw [StdMap.find_eq_none_iff]
    intro hk
    obtain ⟨x, hx, hxk⟩ := List.mem_map.1 hk
    obtain ⟨c', hc', hxc⟩ := h4 x hx
    apply hc
    refine List.mem_map.2 ⟨c', hc', ?_⟩
    unfold cand_col
    rw [← hxc]
    exact hxk
  obtain ⟨a1, a2, a3⟩ := assign_fresh_counts i hfresh c.2.2
  have hD : (done_ ++ [c]).countP (fun c => decide (cand_col c = i)) =
      done_.countP (fun c => decide (cand_col c = i)) + (if c.2.1 = i then 1 else 0) := by
    rw [List.countP_append, countP_cons_D]
    simp
  have hmem_acc : ∀ x, x ∈ StdMap.assign s.row_i c.2.1 c.2.2 → ∃ c', c' ∈ done_ ++ [c] ∧ x = c'.2 := by
    intro x hx
    rcases StdMap.mem_assign hx with hx | hx
    · exact ⟨c, by simp, hx⟩
    · obtain ⟨c', hc', hxc⟩ := h4 x hx
      exact ⟨c', by simp [hc'], hxc⟩
  have hmem_rej : ∀ x, x ∈ s.row_i → ∃ c', c' ∈ done_ ++ [c] ∧ x = c'.2 := by
    intro x hx
    obtain ⟨c', hc', hxc⟩ := h4 x hx
    exact ⟨c', by simp [hc'], hxc⟩
  by_cases hL : c.2.1 < i
  · have hU : ¬ i < c.2.1 := by omega
    have hDn : ¬ c.2.1 = i := by omega
    rw [if_pos hL] at a1
    rw [if_neg hU] at a2
    rw [if_neg hDn] at hD
    by_cases hb : s.written_L < entries_per_row
    · rw [write_body_L_acc hL hb]
      refine ⟨?_, ?_, ?_, hmem_acc⟩ <;> dsimp only <;> omega
    · rw [write_body_L_rej hL hb]
      refine ⟨?_, ?_, ?_, hmem_rej⟩ <;> omega
  · by_cases hDi : c.2.1 = i
    · have hU : ¬ i < c.2.1 := by omega
      rw [if_neg hL] at a1
      rw [if_neg hU] at a2
      rw [if_pos hDi] at hD
      rw [write_body_D hDi]
      refine ⟨?_, ?_, ?_, hmem_acc⟩ <;> dsimp only <;> omega
    · have hU : i < c.2.1 := by omega
      rw [if_neg hL] at a1
      rw [if_pos hU] at a2
      rw [if_neg hDi] at hD
      by_cases hb : s.written_U < entries_per_row
      · rw [write_body_U_acc hU hb]
        refine ⟨?_, ?_, ?_, hmem_acc⟩ <;> dsimp only <;> omega
      · rw [write_body_U_rej hU hb]
        refine ⟨?_, ?_, ?_, hmem_rej⟩ <;> omega

theorem write_fold_exact (i entries_per_row : Nat) (cs : List (ℚ × (Nat × ℚ))) :
    ∀ (done_ : List (ℚ × (Nat × ℚ))) (s : WriteState),
      ((done_ ++ cs).map cand_col).Nodup → WriteExact i done_ s →
      WriteExact i (done_ ++ cs) (cs.foldl (write_body i entries_per_row) s) := by
  induction cs with
  | nil =>
    intro done_ s _ h
    simpa using h
  | cons c cs ih =>
    intro done_ s hnd h
    have hc : cand_col c ∉ done_.map cand_col := by
      rw [List.map_append, List.nodup_append] at hnd
      intro hmem
      exact hnd.2.2 hmem (by simp)
    have := ih (done_ ++ [c]) (write_body i entries_per_row s c)
      (by simpa using hnd) (write_body_exact c hc h)
    simpa using this

theorem write_exact_nil (i : Nat) : WriteExact i [] ⟨0, 0, []⟩ := by
  simp [WriteExact, count_L, count_U]

theorem write_body_ordered {i entries_per_row : Nat} {s : WriteState} (c : ℚ × (Nat × ℚ))
    (h : StdMap.Ordered s.row_i) : StdMap.Ordered (write_body i entries_per_row s c).row_i := by
  unfold write_body
  simp only
  split
  · split
    · exact h.assign _ _
    · exact h
  · split
    · exact h.assign _ _
    · split
      · exact h.assign _ _
      · exact h

theorem write_fold_ordered {i entries_per_row : Nat} (cs : List (ℚ × (Nat × ℚ)))
    (s : WriteState) (h : StdMap.Ordered s.row_i) :
    StdMap.Ordered (cs.foldl (write_body i entries_per_row) s).row_i := by
  induction cs generalizing s with
  | nil => exact h
  | cons c cs ih => exact ih _ (write_body_ordered c h)

theorem write_pass_ordered (i entries_per_row : Nat) (temp_map : TemporarySortMap) :
    StdMap.Ordered (write_pass i entries_per_row temp_map []) :=
  write_fold_ordered _ _ StdMap.ordered_nil

theorem nodup_cols_split {l1 l2 : List (ℚ × (Nat × ℚ))} {c : ℚ × (Nat × ℚ)}
    (hnd : ((l1 ++ c :: l2).map cand_col).Nodup) :
    (l1.map cand_col).Nodup ∧ (∀ c' ∈ l1, cand_col c' ≠ cand_col c) ∧
      (∀ c' ∈ l2, cand_col c' ≠ cand_col c) ∧
      (∀ c1 ∈ l1, ∀ c2 ∈ l2, cand_col c1 ≠ cand_col c2) := by
  rw [List.map_append, List.map_cons, List.nodup_append, List.nodup_cons] at hnd
  obtain ⟨h1, ⟨h2, _⟩, h4⟩ := hnd
  refine ⟨h1, ?_, ?_, ?_⟩
  · intro c' hc' heq
    exact h4 (List.mem_map_of_mem _ hc') (by rw [heq]; exact List.mem_cons_self _ _)
  · intro c' hc' heq
    exact h2 (heq ▸ List.mem_map_of_mem _ hc')
  · intro c1 hc1 c2 hc2 heq
    exact h4 (List.mem_map_of_mem _ hc1)
      (List.mem_cons_of_mem _ (by rw [heq]; exact List.mem_map_of_mem _ hc2))

theorem write_split_accept {i entries_per_row : Nat} {l1 l2 : List (ℚ × (Nat × ℚ))}
    {c : ℚ × (Nat × ℚ)} (hnd : ((l1 ++ c :: l2).map cand_col).Nodup) (s0 : WriteState)
    (hacc : (cand_col c < i ∧
        (l1.foldl (write_body i entries_per_row) s0).written_L < entries_per_row) ∨
      cand_col c = i ∨
      (i < cand_col c ∧
        (l1.foldl (write_body i entries_per_row) s0).written_U < entries_per_row)) :
    c.2 ∈ ((l1 ++ c :: l2).foldl (write_body i entries_per_row) s0).row_i := by
  rw [List.foldl_append, List.foldl_cons]
  apply write_fold_mem_mono _ _ (write_body_accept _ c hacc)
  intro c' hc'
  exact (nodup_cols_split hnd).2.2.1 c' hc'

theorem write_all_written {i entries_per_row : Nat} (cs : List (ℚ × (Nat × ℚ)))
    (hnd : (cs.map cand_col).Nodup)
    (hL : cs.countP (fun c => decide (cand_col c < i)) ≤ entries_per_row)
    (hU : cs.countP (fun c => decide (i < cand_col c)) ≤ entries_per_row)
    {c : ℚ × (Nat × ℚ)} (hc : c ∈ cs) :
    c.2 ∈ (cs.foldl (write_body i entries_per_row) ⟨0, 0, []⟩).row_i := by
  obtain ⟨l1, l2, hsplit⟩ := List.append_of_mem hc
  subst hsplit
  have hw := write_fold_written i entries_per_row l1 ⟨0, 0, []⟩ (Nat.zero_le _) (Nat.zero_le _)
  simp only [Nat.zero_add] at hw
  rw [List.countP_append, countP_cons_L] at hL
  rw [List.countP_append, countP_cons_U] at hU
  apply write_split_accept hnd
  unfold cand_col
  by_cases h1 : c.2.1 < i
  · left
    refine ⟨h1, ?_⟩
    rw [hw.1, if_pos h1] at *
    exact lt_of_le_of_lt (Nat.min_le_right _ _) (by omega)
  · by_cases h2 : c.2.1 = i
    · exact Or.inr (Or.inl h2)
    · have h3 : i < c.2.1 := by omega
      right; right
      refine ⟨h3, ?_⟩
      rw [hw.2]
      rw [if_pos h3] at hU
      exact lt_of_le_of_lt (Nat.min_le_right _ _) (by omega)

/-! ## Finalisation of a well-formed working row -/

theorem sort_pass_cols_nodup {i : Nat} {tau_i : ℚ} {w : SparseVector} {tm : TemporarySortMap}
    (hw : StdMap.Ordered w) (hs : sort_pass i tau_i w [] = .ok tm) :
    (tm.map cand_col).Nodup := by
  have hp := sort_pass_perm w [] tm hs
  simp only [List.map_nil, List.nil_append] at hp
  have h1 : ((w.filter (survives i tau_i)).map Prod.fst).Nodup :=
    List.Nodup.sublist ((List.filter_sublist _).map Prod.fst) hw.nodup
  have h2 : tm.map cand_col = (tm.map Prod.snd).map Prod.fst := by
    rw [List.map_map]; rfl
  rw [h2]
  exact (hp.map Prod.fst).nodup_iff.2 h1

theorem sort_pass_countP {i : Nat} {tau_i : ℚ} {w : SparseVector} {tm : TemporarySortMap}
    (hs : sort_pass i tau_i w [] = .ok tm) (p : Nat → Bool) :
    tm.reverse.countP (fun c => p (cand_col c)) =
      w.countP (fun e => p e.1 && survives i tau_i e) := by
  have hp := sort_pass_perm w [] tm hs
  simp only [List.map_nil, List.nil_append] at hp
  rw [(List.reverse_perm tm).countP_eq]
  have h1 : tm.countP (fun c => p (cand_col c)) = (tm.map Prod.snd).countP (fun e => p e.1) := by
    rw [List.countP_map]; rfl
  rw [h1, hp.countP_eq, List.countP_filter]

theorem sort_pass_mem_of_survives {i : Nat} {tau_i : ℚ} {w : SparseVector}
    {tm : TemporarySortMap} (hs : sort_pass i tau_i w [] = .ok tm) {e : Nat × ℚ}
    (he : e ∈ w) (hsv : survives i tau_i e = true) : ∃ key, (key, e) ∈ tm := by
  have hp := sort_pass_perm w [] tm hs
  simp only [List.map_nil, List.nil_append] at hp
  have : e ∈ tm.map Prod.snd := hp.mem_iff.2 (List.mem_filter.2 ⟨he, hsv⟩)
  obtain ⟨c, hc, hce⟩ := List.mem_map.1 this
  exact ⟨c.1, by rw [← hce]; exact hc⟩

/-- The number of entries of `w` with column in the class `p` that survive the dropping rule. -/
theorem finalize_counts {i entries_per_row : Nat} {tau_i : ℚ} {w row : SparseVector}
    (hw : StdMap.Ordered w) (h : finalize_row i tau_i entries_per_row w [] = .ok row) :
    count_L i row =
        min entries_per_row (w.countP (fun e => decide (e.1 < i) && survives i tau_i e)) ∧
      count_U i row =
        min entries_per_row (w.countP (fun e => decide (i < e.1) && survives i tau_i e)) ∧
      row.length = count_L i row + count_U i row +
        w.countP (fun e => decide (e.1 = i) && survives i tau_i e) := by
  unfold finalize_row at h
  split at h
  · simp at h
  · rename_i tm hs
    simp only [Except.ok.injEq] at h
    subst h
    have hnd : ((([] : List (ℚ × (Nat × ℚ))) ++ tm.reverse).map cand_col).Nodup := by
      rw [List.nil_append, List.map_reverse, List.nodup_reverse]
      exact sort_pass_cols_nodup hw hs
    have hex := write_fold_exact i entries_per_row tm.reverse [] ⟨0, 0, []⟩ hnd (write_exact_nil i)
    have hwr := write_fold_written i entries_per_row tm.reverse ⟨0, 0, []⟩
      (Nat.zero_le _) (Nat.zero_le _)
    simp only [Nat.zero_add, List.nil_append] at hwr hex
    obtain ⟨e1, e2, e3, _⟩ := hex
    have cL := sort_pass_countP hs (fun k => decide (k < i))
    have cU := sort_pass_countP hs (fun k => decide (i < k))
    have cD := sort_pass_countP hs (fun k => decide (k = i))
    unfold write_pass
    rw [e1, e2, e3, hwr.1, hwr.2, cL, cU, cD]
    exact ⟨rfl, rfl, rfl⟩

theorem finalize_diagonal {i entries_per_row : Nat} {tau_i : ℚ} {w row : SparseVector} {v : ℚ}
    (hw : StdMap.Ordered w) (hv : StdMap.find w i = some v)
    (h : finalize_row i tau_i entries_per_row w [] = .ok row) : StdMap.find row i = some v := by
  unfold finalize_row at h
  split at h
  · simp at h
  · rename_i tm hs
    simp only [Except.ok.injEq] at h
    subst h
    have hsv : survives i tau_i (i, v) = true := by simp [survives]
    obtain ⟨key, hkey⟩ := sort_pass_mem_of_survives hs (StdMap.mem_of_find hv) hsv
    obtain ⟨l1, l2, hsplit⟩ := List.append_of_mem (List.mem_reverse.2 hkey)
    have hnd : ((l1 ++ (key, (i, v)) :: l2).map cand_col).Nodup := by
      rw [← hsplit, List.map_reverse, List.nodup_reverse]
      exact sort_pass_cols_nodup hw hs
    have hmem := @write_split_accept i entries_per_row l1 l2 _ hnd ⟨0, 0, []⟩
      (Or.inr (Or.inl rfl))
    rw [← hsplit] at hmem
    exact StdMap.find_of_mem (write_pass_ordered i entries_per_row tm).nodup hmem

/-! ## Ranking by sort key -/

theorem write_split_reject_L {i entries_per_row : Nat} {l1 l2 : List (ℚ × (Nat × ℚ))}
    {c : ℚ × (Nat × ℚ)} (hnd : ((l1 ++ c :: l2).map cand_col).Nodup) (hcL : cand_col c < i)
    (hnot : cand_col c ∉
      StdMap.keys ((l1 ++ c :: l2).foldl (write_body i entries_per_row) ⟨0, 0, []⟩).row_i) :
    ∀ c2 ∈ l2, cand_col c2 < i → cand_col c2 ∉
      StdMap.keys ((l1 ++ c :: l2).foldl (write_body i entries_per_row) ⟨0, 0, []⟩).row_i := by
  obtain ⟨hnd1, _, _, hdisj⟩ := nodup_cols_split hnd
  have hsat : ¬ (l1.foldl (write_body i entries_per_row) ⟨0, 0, []⟩).written_L <
      entries_per_row := by
    intro hlt
    apply hnot
    exact StdMap.mem_keys_of_mem (write_split_accept hnd ⟨0, 0, []⟩ (Or.inl ⟨hcL, hlt⟩))
  intro c2 hc2 hc2L hmem
  rw [List.foldl_append, List.foldl_cons, write_body_L_rej hcL hsat] at hmem
  obtain ⟨x, hx, hxk⟩ := List.mem_map.1 hmem
  have hx1 := write_fold_saturated_L l2 _ (by omega) hx (by rw [hxk]; exact hc2L)
  have hex := write_fold_exact i entries_per_row l1 [] ⟨0, 0, []⟩
    (by simpa using hnd1) (write_exact_nil i)
  obtain ⟨c1, hc1, hxc⟩ := hex.2.2.2 x hx1
  apply hdisj c1 (by simpa using hc1) c2 hc2
  unfold cand_col
  rw [← hxc]
  exact hxk

theorem write_split_reject_U {i entries_per_row : Nat} {l1 l2 : List (ℚ × (Nat × ℚ))}
    {c : ℚ × (Nat × ℚ)} (hnd : ((l1 ++ c :: l2).map cand_col).Nodup) (hcU : i < cand_col c)
    (hnot : cand_col c ∉
      StdMap.keys ((l1 ++ c :: l2).foldl (write_body i entries_per_row) ⟨0, 0, []⟩).row_i) :
    ∀ c2 ∈ l2, i < cand_col c2 → cand_col c2 ∉
      StdMap.keys ((l1 ++ c :: l2).foldl (write_body i entries_per_row) ⟨0, 0, []⟩).row_i := by
  obtain ⟨hnd1, _, _, hdisj⟩ := nodup_cols_split hnd
  have hsat : ¬ (l1.foldl (write_body i entries_per_row) ⟨0, 0, []⟩).written_U <
      entries_per_row := by
    intro hlt
    apply hnot
    exact StdMap.mem_keys_of_mem (write_split_accept hnd ⟨0, 0, []⟩ (Or.inr (Or.inr ⟨hcU, hlt⟩)))
  intro c2 hc2 hc2U hmem
  rw [List.foldl_append, List.foldl_cons, write_body_U_rej hcU hsat] at hmem
  obtain ⟨x, hx, hxk⟩ := List.mem_map.1 hmem
  have hx1 := write_fold_saturated_U l2 _ (by omega) hx (by rw [hxk]; exact hc2U)
  have hex := write_fold_exact i entries_per_row l1 [] ⟨0, 0, []⟩
    (by simpa using hnd1) (write_exact_nil i)
  obtain ⟨c1, hc1, hxc⟩ := hex.2.2.2 x hx1
  apply hdisj c1 (by simpa using hc1) c2 hc2
  unfold cand_col
  rw [← hxc]
  exact hxk

theorem ordered_reverse_split {tm l1 l2 : TemporarySortMap} {c : ℚ × (Nat × ℚ)}
    (ho : StdMap.Ordered tm) (hsplit : tm.reverse = l1 ++ c :: l2) :
    ∀ a ∈ l1, c.1 < a.1 := by
  have h1 : tm = l2.reverse ++ c :: l1.reverse := by
    have := congrArg List.reverse hsplit
    simpa using this
  intro a ha
  unfold StdMap.Ordered StdMap.keys at ho
  rw [h1, List.map_append, List.map_cons, List.pairwise_append, List.pairwise_cons] at ho
  exact ho.2.1.1 a.1 (List.mem_map_of_mem _ (List.mem_reverse.2 ha))

/-- Selection by sort key: of two candidates of the same part, a written one has the larger
key than one left out. -/
theorem write_pass_by_key {i entries_per_row : Nat} {tm : TemporarySortMap}
    (ho : StdMap.Ordered tm) (hnd : (tm.map cand_col).Nodup) {c c' : ℚ × (Nat × ℚ)}
    (hc : c ∈ tm) (hc' : c' ∈ tm)
    (hpart : (cand_col c < i ∧ cand_col c' < i) ∨ (i < cand_col c ∧ i < cand_col c'))
    (hin : cand_col c ∈ StdMap.keys (write_pass i entries_per_row tm []))
    (hout : cand_col c' ∉ StdMap.keys (write_pass i entries_per_row tm [])) : c'.1 < c.1 := by
  obtain ⟨l1, l2, hsplit⟩ := List.append_of_mem (List.mem_reverse.2 hc')
  have hnd' : ((l1 ++ c' :: l2).map cand_col).Nodup := by
    rw [← hsplit, List.map_reverse, List.nodup_reverse]
    exact hnd
  unfold write_pass at hin hout
  rw [hsplit] at hin hout
  have hmem : c ∈ l1 ++ c' :: l2 := hsplit ▸ List.mem_reverse.2 hc
  rcases List.mem_append.1 hmem with h | h
  · exact ordered_reverse_split ho hsplit c h
  · rcases List.mem_cons.1 h with h | h
    · rw [h] at hin
      exact absurd hin hout
    · rcases hpart with ⟨p1, p2⟩ | ⟨p1, p2⟩
      · exact absurd hin (write_split_reject_L hnd' p2 hout c h p1)
      · exact absurd hin (write_split_reject_U hnd' p2 hout c h p1)

theorem sort_pass_key_pow {i : Nat} {tau_i : ℚ} :
    ∀ (w : SparseVector) (tm0 tm : TemporarySortMap),
      sort_pass i tau_i w tm0 = .ok tm →
      ∀ c, c ∈ tm → c ∈ tm0 ∨ ∃ m : Nat, c.1 = fabs c.2.2 * (1000001 / 1000000) ^ m := by
  intro w
  induction w with
  | nil =>
    intro tm0 tm h c hc
    simp only [sort_pass, Except.ok.injEq] at h
    exact Or.inl (h ▸ hc)
  | cons hd tl ih =>
    intro tm0 tm h c hc
    obtain ⟨k, v⟩ := hd
    unfold sort_pass at h
    split at h
    · simp only at h
      split at h
      · simp at h
      · split at h
        · simp at h
        · rename_i key hu
          rcases ih _ _ h c hc with h1 | h1
          · rcases StdMap.mem_assign h1 with h2 | h2
            · right
              obtain ⟨m, _, hm⟩ := unique_key_pow hu
              exact ⟨m, by rw [h2]; exact hm⟩
            · exact Or.inl h2
          · exact Or.inr h1
    · exact ih _ _ h c hc

theorem sort_pass_key_exact {i : Nat} {tau_i : ℚ} :
    ∀ (w : SparseVector) (tm0 tm : TemporarySortMap),
      sort_pass i tau_i w tm0 = .ok tm →
      (w.filter (survives i tau_i)).Pairwise (fun e e' => fabs e.2 ≠ fabs e'.2) →
      (∀ e ∈ w, survives i tau_i e = true → fabs e.2 ∉ StdMap.keys tm0) →
      (∀ c ∈ tm0, c.1 = fabs c.2.2) → ∀ c ∈ tm, c.1 = fabs c.2.2 := by
  intro w
  induction w with
  | nil =>
    intro tm0 tm h _ _ h0
    simp only [sort_pass, Except.ok.injEq] at h
    exact h ▸ h0
  | cons hd tl ih =>
    intro tm0 tm h hpw hfresh h0
    obtain ⟨k, v⟩ := hd
    unfold sort_pass at h
    split at h
    · rename_i hc
      have hs : survives i tau_i (k, v) = true := by simpa [survives] using hc
      rw [List.filter_cons_of_pos hs, List.pairwise_cons] at hpw
      simp only at h
      split at h
      · simp at h
      · split at h
        · simp at h
        · rename_i key hu
          have habs : StdMap.find tm0 (fabs v) = none :=
            (StdMap.find_eq_none_iff _ _).2 (hfresh (k, v) (List.mem_cons_self _ _) hs)
          rw [unique_key_of_absent _ _ _ habs] at hu
          simp only [Option.some.injEq] at hu
          subst hu
          apply ih _ _ h hpw.2
          · intro e he hes hmem
            rcases (StdMap.mem_keys_assign _ _ _ _).1 hmem with h1 | h1
            · exact hpw.1 e (List.mem_filter.2 ⟨he, hes⟩) h1.symm
            · exact hfresh e (List.mem_cons_of_mem _ he) hes h1
          · intro c hc'
            rcases StdMap.mem_assign hc' with h1 | h1
            · rw [h1]
            · exact h0 c h1
    · rename_i hc
      have hs : ¬ (survives i tau_i (k, v) = true) := by simpa [survives] using hc
      rw [List.filter_cons_of_neg hs] at hpw
      exact ih _ _ h hpw (fun e he hes => hfresh e (List.mem_cons_of_mem _ he) hes) h0

/-! ## The elimination loop keeps the working row well-formed -/

theorem index_ordered {m : SparseVector} (h : StdMap.Ordered m) (k : Nat) (d : ℚ) :
    StdMap.Ordered (StdMap.index m k d).2 := by
  unfold StdMap.index
  split
  · exact h
  · exact h.assign _ _

theorem index_find (m : SparseVector) (k : Nat) (d : ℚ) (j : Nat) (hj : j ≠ k) :
    StdMap.find (StdMap.index m k d).2 j = StdMap.find m j := by
  unfold StdMap.index
  split
  · rfl
  · simp only
    rw [StdMap.find_assign, if_neg hj]

theorem update_w_ordered (k : Nat) (w_k_entry : ℚ) (row_k : SparseVector) :
    ∀ w : SparseVector, StdMap.Ordered w → StdMap.Ordered (update_w k w_k_entry row_k w) := by
  unfold update_w
  induction row_k with
  | nil => intro w h; exact h
  | cons u tl ih =>
    intro w h
    rw [List.foldl_cons]
    apply ih
    split
    · exact (index_ordered h _ _).assign _ _
    · exact h

theorem update_w_find_le (k : Nat) (w_k_entry : ℚ) (row_k : SparseVector) :
    ∀ (w : SparseVector) (j : Nat), j ≤ k →
      StdMap.find (update_w k w_k_entry row_k w) j = StdMap.find w j := by
  unfold update_w
  induction row_k with
  | nil => intro w j _; rfl
  | cons u tl ih =>
    intro w j hj
    rw [List.foldl_cons, ih _ j hj]
    split
    · rename_i hu
      have hne : j ≠ u.1 := by omega
      simp only
      rw [StdMap.find_assign, if_neg hne, index_find _ _ _ _ hne]
    · rfl

theorem elim_step_w_ordered (tau_i : ℚ) (k : Nat) (w_k a_kk : ℚ) (row_k : SparseVector)
    {w : SparseVector} (h : StdMap.Ordered w) :
    StdMap.Ordered (elim_step_w tau_i k w_k a_kk row_k w) := by
  unfold elim_step_w
  split
  · exact update_w_ordered _ _ _ _ (h.assign _ _)
  · exact h.assign _ _

theorem elim_step_w_find_le (tau_i : ℚ) (k : Nat) (w_k a_kk : ℚ) (row_k w : SparseVector)
    (j : Nat) (hj : j ≤ k) :
    StdMap.find (elim_step_w tau_i k w_k a_kk row_k w) j =
      if j = k then some (w_k / a_kk) else StdMap.find w j := by
  unfold elim_step_w
  split
  · rw [update_w_find_le _ _ _ _ _ hj, StdMap.find_assign]
  · rw [StdMap.find_assign]

theorem elim_body_nonzero {tau_i : ℚ} {k : Nat} {w_k : ℚ} {w : SparseVector} {output : Output}
    (ha : SparseVector.val (row_at output k) k ≠ 0) :
    elim_body tau_i k w_k w output =
      .ok (elim_step_w tau_i k w_k (SparseVector.val (row_at output k) k) (row_at output k) w,
        output) := by
  unfold elim_body
  simp only [index_fst]
  have hval : (StdMap.find (row_at output k) k).getD 0 = SparseVector.val (row_at output k) k := rfl
  have hidx : (StdMap.index (row_at output k) k (0 : ℚ)).2 = row_at output k :=
    index_snd_of_ne _ _ _ (by rw [index_fst]; exact ha)
  rw [hval, if_neg ha, hidx, set_row_at_self]
  unfold elim_step_w
  split <;> rfl

theorem eliminate_step {i : Nat} {tau_i : ℚ} {fuel lo : Nat} {w : SparseVector}
    {output : Output} {k : Nat} {w_k : ℚ}
    (hlb : StdMap.lower_bound w lo = some (k, w_k)) (hk : k < i) :
    eliminate i tau_i (fuel + 1) lo w output =
      match elim_body tau_i k w_k w output with
      | .error e => .error e
      | .ok (w, output) => eliminate i tau_i fuel (k + 1) w output := by
  rw [eliminate]
  simp only [hlb, ge_iff_le, if_neg (not_le.2 hk)]

theorem eliminate_stop {i : Nat} {tau_i : ℚ} {fuel lo : Nat} {w : SparseVector}
    {output : Output}
    (h : StdMap.lower_bound w lo = none ∨ ∃ k w_k, StdMap.lower_bound w lo = some (k, w_k) ∧ i ≤ k) :
    eliminate i tau_i fuel lo w output = .ok (w, output) := by
  rcases h with h | ⟨k, w_k, h, hk⟩
  · cases fuel <;> simp [eliminate, h]
  · cases fuel <;> simp [eliminate, h, hk]

theorem eliminate_ordered {i : Nat} {tau_i : ℚ} :
    ∀ (fuel lo : Nat) (w w' : SparseVector) (output out' : Output),
      eliminate i tau_i fuel lo w output = .ok (w', out') → StdMap.Ordered w →
      StdMap.Ordered w' := by
  intro fuel
  induction fuel with
  | zero =>
    intro lo w w' output out' h hw
    unfold eliminate at h
    split at h
    · simp at h; exact h.1 ▸ hw
    · split at h
      · simp at h; exact h.1 ▸ hw
      · simp at h
  | succ fuel ih =>
    intro lo w w' output out' h hw
    unfold eliminate at h
    split at h
    · simp at h; exact h.1 ▸ hw
    · split at h
      · simp at h; exact h.1 ▸ hw
      · simp only at h
        split at h
        · simp at h
        · rename_i w1 out1 hb
          obtain ⟨_, _, hw1⟩ := elim_body_ok hb
          exact ih _ _ _ _ _ h (hw1 ▸ elim_step_w_ordered _ _ _ _ _ hw)

theorem foldl_compressed_ordered (A : compressed_matrix) (l : List Nat)
    (acc : ℚ × SparseVector) (h : StdMap.Ordered acc.2) :
    StdMap.Ordered (l.foldl (fun (acc : ℚ × SparseVector) buf_index_i =>
        (acc.1 + A.elements.getD buf_index_i 0 * A.elements.getD buf_index_i 0,
          StdMap.assign acc.2 (A.col_buffer.getD buf_index_i 0) (A.elements.getD buf_index_i 0)))
      acc).2 := by
  induction l generalizing acc with
  | nil => exact h
  | cons hd tl ih =>
    rw [List.foldl_cons]
    exact ih _ (h.assign _ _)

theorem setup_w_ordered (sqrt : ℚ → ℚ) {A : SparseMatrix} (hA : A.Valid) (i : Nat) :
    StdMap.Ordered (setup_w sqrt A i []).2 := by
  cases A with
  | compressed A =>
    simp only [setup_w, setup_w_compressed]
    exact foldl_compressed_ordered A _ _ StdMap.ordered_nil
  | stl A =>
    simp only [setup_w, setup_w_stl]
    rw [List.getD_eq_getElem?_getD]
    cases hg : A[i]? with
    | none => exact StdMap.ordered_nil
    | some r => exact hA r (List.getElem?_mem hg)

/-! ## The singular-factor error -/

theorem sort_pass_singular_iff {i : Nat} {tau_i : ℚ} (htau : 0 ≤ tau_i) :
    ∀ (w : SparseVector) (tm0 : TemporarySortMap),
      sort_pass i tau_i w tm0 = .error .singular_factor ↔ (i, (0 : ℚ)) ∈ w := by
  intro w
  induction w with
  | nil => intro tm0; simp [sort_pass]
  | cons hd tl ih =>
    intro tm0
    obtain ⟨k, v⟩ := hd
    unfold sort_pass
    split
    · rename_i hc
      simp only
      split
      · rename_i hz
        have hv : v = 0 := (fabs_eq_zero_iff v).1 hz
        have hk : k = i := by
          rcases hc with hc | hc
          · rw [hz] at hc
            exact absurd hc (not_lt.2 htau)
          · exact hc
        simp [hv, hk]
      · rename_i hz
        have hpos : 0 < fabs v := lt_of_le_of_ne (fabs_nonneg v) (Ne.symm hz)
        obtain ⟨key, hkey⟩ := unique_key_length tm0 (fabs v) hpos
        rw [hkey]
        simp only
        rw [ih]
        have hv : v ≠ 0 := fun h => hz ((fabs_eq_zero_iff v).2 h)
        constructor
        · intro h; exact List.mem_cons_of_mem _ h
        · intro h
          rcases List.mem_cons.1 h with h | h
          · simp only [Prod.mk.injEq] at h
            exact absurd h.2.symm hv
          · exact h
    · rename_i hc
      rw [ih]
      have hk : k ≠ i := fun h => hc (Or.inr h)
      constructor
      · intro h; exact List.mem_cons_of_mem _ h
      · intro h
        rcases List.mem_cons.1 h with h | h
        · simp only [Prod.mk.injEq] at h
          exact absurd h.1.symm hk
        · exact h

theorem finalize_row_singular_iff {i entries_per_row : Nat} {tau_i : ℚ} (htau : 0 ≤ tau_i)
    {w : SparseVector} (hw : StdMap.Ordered w) (row_i : SparseVector) :
    finalize_row i tau_i entries_per_row w row_i = .error .singular_factor ↔
      StdMap.find w i = some 0 := by
  have h1 : finalize_row i tau_i entries_per_row w row_i = .error .singular_factor ↔
      sort_pass i tau_i w [] = .error .singular_factor := by
    unfold finalize_row
    split
    · rename_i e he
      rw [he]
      simp
    · rename_i tm hs
      rw [hs]
      simp
  rw [h1, sort_pass_singular_iff htau]
  exact ⟨fun h => StdMap.find_of_mem hw.nodup h, fun h => StdMap.mem_of_find h⟩

theorem process_row_eq (sqrt : ℚ → ℚ) (A : SparseMatrix) (tag : ilut_tag) (output : Output)
    (i : Nat) :
    process_row sqrt A tag output i =
      match eliminate i (tau sqrt A tag i) i 0 (setup_w sqrt A i []).2 output with
      | .error e => .error e
      | .ok (w, output) =>
        match finalize_row i (tau sqrt A tag i) tag.get_entries_per_row w (row_at output i) with
        | .error e => .error (e, output)
        | .ok row_i => .ok (output.set i row_i) := rfl

theorem row_loop_error {sqrt : ℚ → ℚ} {A : SparseMatrix} {tag : ilut_tag} {output : Output}
    {i : Nat} {e : IlutError × Output} (h : process_row sqrt A tag output i = .error e)
    (rest : List Nat) : row_loop sqrt A tag (i :: rest) output = .error e := by
  simp only [row_loop, h]

/-- Row 0 of `ones_matrix` under a threshold below 1 and a budget of at least one entry. -/
theorem ones_row_0 (t : ℚ) (ht : t < 1) (entries_per_row : Nat) (he : 1 ≤ entries_per_row) :
    eliminate 0 t 0 0 [(0, 1), (1, 1)] (empty_output 2) =
        .ok ([(0, 1), (1, 1)], empty_output 2) ∧
      finalize_row 0 t entries_per_row [(0, 1), (1, 1)] [] = .ok [(0, 1), (1, 1)] := by
  have hf : fabs 1 = 1 := by norm_num [fabs]
  have h2 : 0 < entries_per_row := he
  constructor
  · simp [eliminate, StdMap.lower_bound]
  · norm_num [finalize_row, sort_pass, unique_key, StdMap.find, StdMap.assign, write_pass,
      write_body, ht, h2, hf]

/-- Row 1 of `ones_matrix` after row 0 was stored in full, under a threshold in `[0, 1)`. -/
theorem ones_row_1 (t : ℚ) (ht : t < 1) (entries_per_row : Nat) :
    eliminate 1 t 1 0 [(0, 1), (1, 1)] [[(0, 1), (1, 1)], []] =
        .ok ([(0, 1), (1, 0)], [[(0, 1), (1, 1)], []]) ∧
      finalize_row 1 t entries_per_row [(0, 1), (1, 0)] [] = .error .singular_factor := by
  have hf : fabs 1 = 1 := by norm_num [fabs]
  have hf0 : fabs 0 = 0 := by norm_num [fabs]
  constructor
  · norm_num [eliminate, StdMap.lower_bound, elim_body, StdMap.index, StdMap.find, row_at,
      StdMap.assign, update_w, ht, hf]
  · norm_num [finalize_row, sort_pass, unique_key, StdMap.find, StdMap.assign, ht, hf, hf0]

theorem ones_tau (sqrt : ℚ → ℚ) (tag : ilut_tag) (i : Nat) (hi : i < 2) :
    tau sqrt ones_matrix tag i = tag.get_drop_tolerance * sqrt 2 := by
  rw [tau_eq]
  congr 1
  interval_cases i <;>
    norm_num [euclidean_norm, SparseMatrix.row_entries, ones_matrix]

theorem ones_precondition (sqrt : ℚ → ℚ) (tag : ilut_tag)
    (ht : tag.get_drop_tolerance * sqrt 2 < 1) (he : 1 ≤ tag.get_entries_per_row) :
    precondition sqrt ones_matrix (empty_output 2) tag =
      .error (.singular_factor, [[(0, 1), (1, 1)], []]) := by
  have r0 := ones_row_0 _ ht _ he
  have r1 := ones_row_1 _ ht tag.get_entries_per_row
  have s0 : (setup_w sqrt ones_matrix 0 []).2 = [(0, 1), (1, 1)] := rfl
  have s1 : (setup_w sqrt ones_matrix 1 []).2 = [(0, 1), (1, 1)] := rfl
  have p0 : process_row sqrt ones_matrix tag (empty_output 2) 0 = .ok [[(0, 1), (1, 1)], []] := by
    rw [process_row_eq, ones_tau sqrt tag 0 (by omega), s0, r0.1]
    simp only
    rw [row_at_empty_output, r0.2]
    rfl
  have p1 : process_row sqrt ones_matrix tag [[(0, 1), (1, 1)], []] 1 =
      .error (.singular_factor, [[(0, 1), (1, 1)], []]) := by
    rw [process_row_eq, ones_tau sqrt tag 1 (by omega), s1, r1.1]
    simp only
    have : row_at [[(0, 1), (1, 1)], []] 1 = [] := rfl
    rw [this, r1.2]
  have hsz : ones_matrix.size1 = (empty_output 2).length := rfl
  unfold precondition
  rw [if_neg (by simp [hsz])]
  have hr : List.range ones_matrix.size1 = [0, 1] := rfl
  rw [hr]
  simp only [row_loop, p0, p1]

theorem rat_sqrt_nonneg (x : ℚ) : 0 ≤ rat_sqrt x := by
  unfold rat_sqrt
  exact div_nonneg (Nat.cast_nonneg _) (Nat.cast_nonneg _)

/-! ## Values of the working row through an elimination step -/

theorem val_assign (m : SparseVector) (k : Nat) (v : ℚ) (j : Nat) :
    SparseVector.val (StdMap.assign m k v) j = if j = k then v else SparseVector.val m j := by
  unfold SparseVector.val
  rw [StdMap.find_assign]
  split <;> rfl

theorem val_index_snd (m : SparseVector) (k j : Nat) :
    SparseVector.val (StdMap.index m k 0).2 j = SparseVector.val m j := by
  unfold StdMap.index
  cases hf : StdMap.find m k with
  | some v => rfl
  | none =>
    simp only
    rw [val_assign]
    split
    · rename_i hj
      unfold SparseVector.val
      rw [hj, hf]
      rfl
    · rfl

theorem val_eq_zero_of_not_mem {m : SparseVector} {j : Nat} (h : j ∉ StdMap.keys m) :
    SparseVector.val m j = 0 := by
  unfold SparseVector.val
  rw [(StdMap.find_eq_none_iff m j).2 h]
  rfl

theorem val_cons (k : Nat) (v : ℚ) (tl : SparseVector) (j : Nat) :
    SparseVector.val ((k, v) :: tl) j = if j = k then v else SparseVector.val tl j := by
  unfold SparseVector.val
  simp only [StdMap.find]
  split <;> rfl

theorem update_w_val (k : Nat) (m : ℚ) (row_k : SparseVector) :
    (StdMap.keys row_k).Nodup → ∀ (w : SparseVector) (j : Nat),
      SparseVector.val (update_w k m row_k w) j =
        SparseVector.val w j - m * (if k < j then SparseVector.val row_k j else 0) := by
  unfold update_w
  induction row_k with
  | nil =>
    intro _ w j
    simp [SparseVector.val, StdMap.find]
  | cons u tl ih =>
    intro hnd w j
    obtain ⟨c, x⟩ := u
    simp only [StdMap.keys, List.map_cons, List.nodup_cons] at hnd
    rw [List.foldl_cons, ih hnd.2, val_cons]
    by_cases hj : j = c
    · subst hj
      rw [if_pos rfl, val_eq_zero_of_not_mem hnd.1]
      by_cases hk : k < j
      · simp only [gt_iff_lt, hk, if_true]
        rw [val_assign, if_pos rfl, index_fst]
        simp only [SparseVector.val]
        ring
      · simp only [gt_iff_lt, hk, if_false]
    · rw [if_neg hj]
      congr 1
      by_cases hk : k < c
      · simp only [gt_iff_lt, hk, if_true]
        rw [val_assign, if_neg hj, val_index_snd]
      · simp only [gt_iff_lt, hk, if_false]

theorem elim_step_w_val {k : Nat} {w_k a_kk : ℚ} {row_k w : SparseVector}
    (hnd : (StdMap.keys row_k).Nodup) (j : Nat) :
    SparseVector.val (elim_step_w 0 k w_k a_kk row_k w) j =
      (if j = k then w_k / a_kk else SparseVector.val w j) -
        (w_k / a_kk) * (if k < j then SparseVector.val row_k j else 0) := by
  unfold elim_step_w
  split
  · rw [update_w_val _ _ _ hnd, val_assign]
  · rename_i hc
    have hz : w_k / a_kk = 0 := by
      have : ¬ 0 < fabs (w_k / a_kk) := hc
      have h0 := le_antisymm (not_lt.1 this) (fabs_nonneg _)
      exact (fabs_eq_zero_iff _).1 h0
    rw [val_assign, hz]
    simp

theorem lower_bound_none {w : SparseVector} {lo : Nat} (h : StdMap.lower_bound w lo = none) :
    ∀ k, lo ≤ k → k ∉ StdMap.keys w := by
  induction w with
  | nil => intro k _; simp [StdMap.keys]
  | cons hd tl ih =>
    obtain ⟨c, x⟩ := hd
    unfold StdMap.lower_bound at h
    split at h
    · simp at h
    · rename_i hc
      intro k hk hmem
      simp only [StdMap.keys, List.map_cons, List.mem_cons] at hmem
      rcases hmem with hmem | hmem
      · omega
      · exact ih h k hk hmem

theorem lower_bound_some {w : SparseVector} (hw : StdMap.Ordered w) {lo k : Nat} {v : ℚ}
    (h : StdMap.lower_bound w lo = some (k, v)) :
    lo ≤ k ∧ StdMap.find w k = some v ∧ ∀ k', lo ≤ k' → k' < k → k' ∉ StdMap.keys w := by
  induction w with
  | nil => simp [StdMap.lower_bound] at h
  | cons hd tl ih =>
    obtain ⟨c, x⟩ := hd
    have hcons := StdMap.ordered_cons.1 hw
    unfold StdMap.lower_bound at h
    split at h
    · rename_i hc
      simp only [Option.some.injEq, Prod.mk.injEq] at h
      obtain ⟨h1, h2⟩ := h
      subst h1 h2
      refine ⟨hc, by simp [StdMap.find], ?_⟩
      intro k' h1 h2 hmem
      simp only [StdMap.keys, List.map_cons, List.mem_cons] at hmem
      rcases hmem with hmem | hmem
      · omega
      · have := hcons.1 k' hmem
        omega
    · rename_i hc
      obtain ⟨h1, h2, h3⟩ := ih hcons.2 h
      refine ⟨h1, ?_, ?_⟩
      · have hne : k ≠ c := by omega
        simp only [StdMap.find, hne, if_false]
        exact h2
      · intro k' hk1 hk2 hmem
        simp only [StdMap.keys, List.map_cons, List.mem_cons] at hmem
        rcases hmem with hmem | hmem
        · omega
        · exact h3 k' hk1 hk2 hmem

/-! ## The elimination loop accounts for the row of the input -/

theorem residual_succ_of_zero (out : Output) (m : Nat) (w : SparseVector) (j : Nat)
    (hz : SparseVector.val w m = 0) :
    elim_residual out (m + 1) w j = elim_residual out m w j := by
  unfold elim_residual
  rw [Finset.sum_range_succ, hz, zero_mul, add_zero]
  congr 1
  by_cases h1 : m + 1 ≤ j
  · rw [if_pos h1, if_pos (by omega)]
  · rw [if_neg h1]
    by_cases h2 : m ≤ j
    · have : j = m := by omega
      rw [if_pos h2, this, hz]
    · rw [if_neg h2]

theorem residual_skip (out : Output) (w : SparseVector) (j lo : Nat) :
    ∀ d : Nat, (∀ k', lo ≤ k' → k' < lo + d → SparseVector.val w k' = 0) →
      elim_residual out (lo + d) w j = elim_residual out lo w j := by
  intro d
  induction d with
  | zero => intro _; rfl
  | succ d ih =>
    intro hz
    have h1 : lo + (d + 1) = (lo + d) + 1 := by omega
    rw [h1, residual_succ_of_zero out (lo + d) w j (hz _ (by omega) (by omega))]
    exact ih (fun k' a b => hz k' a (by omega))

theorem residual_skip_to (out : Output) (w : SparseVector) (j : Nat) {lo hi : Nat}
    (hle : lo ≤ hi) (hz : ∀ k', lo ≤ k' → k' < hi → SparseVector.val w k' = 0) :
    elim_residual out hi w j = elim_residual out lo w j := by
  have := residual_skip out w j lo (hi - lo) (fun k' a b => hz k' a (by omega))
  rwa [Nat.add_sub_cancel' hle] at this

theorem residual_step (out : Output) (k : Nat) (w : SparseVector) (j : Nat)
    (hnd : (StdMap.keys (row_at out k)).Nodup)
    (ha : SparseVector.val (row_at out k) k ≠ 0) :
    elim_residual out (k + 1)
        (elim_step_w 0 k (SparseVector.val w k) (SparseVector.val (row_at out k) k)
          (row_at out k) w) j =
      elim_residual out k w j := by
  unfold elim_residual
  rw [Finset.sum_range_succ]
  have hsum : ∑ x in Finset.range k,
      SparseVector.val (elim_step_w 0 k (SparseVector.val w k)
        (SparseVector.val (row_at out k) k) (row_at out k) w) x * U_entry out x j =
      ∑ x in Finset.range k, SparseVector.val w x * U_entry out x j := by
    apply Finset.sum_congr rfl
    intro x hx
    have hxk : x < k := Finset.mem_range.1 hx
    rw [elim_step_w_val hnd, if_neg (by omega), if_neg (by omega)]
    ring
  rw [hsum, elim_step_w_val hnd, elim_step_w_val hnd, if_pos rfl, if_neg (lt_irrefl k)]
  unfold U_entry
  by_cases h1 : k + 1 ≤ j
  · rw [if_pos h1, if_pos (show k ≤ j by omega), if_pos (show k ≤ j by omega),
      if_neg (show ¬ j = k by omega), if_pos (show k < j by omega)]
    ring
  · rw [if_neg h1]
    by_cases h2 : k ≤ j
    · have hjk : j = k := by omega
      subst hjk
      rw [if_pos h2, if_pos h2]
      field_simp
    · rw [if_neg h2, if_neg h2]
      ring

theorem eliminate_residual {i : Nat} (out : Output)
    (hrows : ∀ k, k < i → (StdMap.keys (row_at out k)).Nodup) :
    ∀ (fuel lo : Nat) (w w' : SparseVector) (out' : Output),
      eliminate i 0 fuel lo w out = .ok (w', out') → StdMap.Ordered w → lo ≤ i →
      ∀ j, elim_residual out i w' j = elim_residual out lo w j := by
  intro fuel
  induction fuel with
  | zero =>
    intro lo w w' out' h hw hlo j
    unfold eliminate at h
    split at h
    · rename_i hlb
      simp only [Except.ok.injEq, Prod.mk.injEq] at h
      rw [← h.1]
      exact residual_skip_to out w j hlo
        (fun k' a _ => val_eq_zero_of_not_mem (lower_bound_none hlb k' a))
    · rename_i k w_k hlb
      split at h
      · rename_i hk
        simp only [Except.ok.injEq, Prod.mk.injEq] at h
        rw [← h.1]
        exact residual_skip_to out w j hlo
          (fun k' a b => val_eq_zero_of_not_mem ((lower_bound_some hw hlb).2.2 k' a (by omega)))
      · simp at h
  | succ fuel ih =>
    intro lo w w' out' h hw hlo j
    unfold eliminate at h
    split at h
    · rename_i hlb
      simp only [Except.ok.injEq, Prod.mk.injEq] at h
      rw [← h.1]
      exact residual_skip_to out w j hlo
        (fun k' a _ => val_eq_zero_of_not_mem (lower_bound_none hlb k' a))
    · rename_i k w_k hlb
      split at h
      · rename_i hk
        simp only [Except.ok.injEq, Prod.mk.injEq] at h
        rw [← h.1]
        exact residual_skip_to out w j hlo
          (fun k' a b => val_eq_zero_of_not_mem ((lower_bound_some hw hlb).2.2 k' a (by omega)))
      · rename_i hk
        have hki : k < i := by omega
        simp only at h
        split at h
        · simp at h
        · rename_i w1 out1 hb
          obtain ⟨ho, ha, hw1⟩ := elim_body_ok hb
          subst ho
          obtain ⟨hlok, hfind, hgap⟩ := lower_bound_some hw hlb
          have hval : SparseVector.val w k = w_k := by
            unfold SparseVector.val
            rw [hfind]
            rfl
          rw [← hval] at hw1
          have hord1 : StdMap.Ordered w1 := hw1 ▸ elim_step_w_ordered _ _ _ _ _ hw
          rw [ih (k + 1) w1 w' out' h hord1 (by omega) j, hw1,
            residual_step out1 k w j (hrows k hki) ha]
          exact residual_skip_to out1 w j hlok
            (fun k' a b => val_eq_zero_of_not_mem (hgap k' a b))

/-! ## Column bounds -/

theorem keysBelow_assign {n : Nat} {m : SparseVector} (h : KeysBelow n m) {k : Nat} (hk : k < n)
    (v : ℚ) : KeysBelow n (StdMap.assign m k v) := by
  intro j hj
  rcases (StdMap.mem_keys_assign m k v j).1 hj with h1 | h1
  · omega
  · exact h j h1

theorem keysBelow_index {n : Nat} {m : SparseVector} (h : KeysBelow n m) {k : Nat} (hk : k < n)
    (d : ℚ) : KeysBelow n (StdMap.index m k d).2 := by
  unfold StdMap.index
  split
  · exact h
  · exact keysBelow_assign h hk d

theorem keysBelow_update_w {n : Nat} (k : Nat) (m : ℚ) (row_k : SparseVector) :
    KeysBelow n row_k → ∀ w : SparseVector, KeysBelow n w → KeysBelow n (update_w k m row_k w) := by
  unfold update_w
  induction row_k with
  | nil => intro _ w h; exact h
  | cons u tl ih =>
    intro hr w hw
    rw [List.foldl_cons]
    have hu : u.1 < n := hr u.1 (by simp [StdMap.keys])
    have htl : KeysBelow n tl := fun j hj => hr j (by
      simp only [StdMap.keys, List.map_cons, List.mem_cons]
      exact Or.inr hj)
    apply ih htl
    split
    · exact keysBelow_assign (keysBelow_index hw hu 0) hu _
    · exact hw

theorem keysBelow_elim_step_w {n : Nat} (tau_i : ℚ) {k : Nat} (hk : k < n) (w_k a_kk : ℚ)
    {row_k w : SparseVector} (hr : KeysBelow n row_k) (hw : KeysBelow n w) :
    KeysBelow n (elim_step_w tau_i k w_k a_kk row_k w) := by
  unfold elim_step_w
  split
  · exact keysBelow_update_w _ _ _ hr _ (keysBelow_assign hw hk _)
  · exact keysBelow_assign hw hk _

theorem eliminate_keysBelow {i n : Nat} {tau_i : ℚ} (hin : i ≤ n) (out : Output)
    (hrows : ∀ k, k < i → KeysBelow n (row_at out k)) :
    ∀ (fuel lo : Nat) (w w' : SparseVector) (out' : Output),
      eliminate i tau_i fuel lo w out = .ok (w', out') → KeysBelow n w → KeysBelow n w' := by
  intro fuel
  induction fuel with
  | zero =>
    intro lo w w' out' h hw
    unfold eliminate at h
    split at h
    · simp at h; exact h.1 ▸ hw
    · split at h
      · simp at h; exact h.1 ▸ hw
      · simp at h
  | succ fuel ih =>
    intro lo w w' out' h hw
    unfold eliminate at h
    split at h
    · simp at h; exact h.1 ▸ hw
    · split at h
      · simp at h; exact h.1 ▸ hw
      · rename_i k w_k hlb hk
        have hki : k < i := by omega
        simp only at h
        split at h
        · simp at h
        · rename_i w1 out1 hb
          obtain ⟨ho, _, hw1⟩ := elim_body_ok hb
          subst ho
          exact ih _ _ _ _ h
            (hw1 ▸ keysBelow_elim_step_w _ (by omega) _ _ (hrows k hki) hw)

/-! ## The working row set up from the input -/

theorem foldl_compressed_snd (A : compressed_matrix) (l : List Nat) (acc : ℚ × SparseVector) :
    (l.foldl (fun (acc : ℚ × SparseVector) buf_index_i =>
        (acc.1 + A.elements.getD buf_index_i 0 * A.elements.getD buf_index_i 0,
          StdMap.assign acc.2 (A.col_buffer.getD buf_index_i 0) (A.elements.getD buf_index_i 0)))
      acc).2 =
      (l.map (fun idx => (A.col_buffer.getD idx 0, A.elements.getD idx 0))).foldl
        (fun w e => StdMap.assign w e.1 e.2) acc.2 := by
  induction l generalizing acc with
  | nil => rfl
  | cons hd tl ih => simp only [List.foldl_cons, List.map_cons, ih]

theorem foldl_assign_find (entries : List (Nat × ℚ)) :
    (StdMap.keys entries).Nodup → ∀ (w0 : SparseVector) (j : Nat),
      StdMap.find (entries.foldl (fun w e => StdMap.assign w e.1 e.2) w0) j =
        match StdMap.find entries j with
        | some v => some v
        | none => StdMap.find w0 j := by
  induction entries with
  | nil => intro _ w0 j; rfl
  | cons hd tl ih =>
    intro hnd w0 j
    obtain ⟨c, x⟩ := hd
    simp only [StdMap.keys, List.map_cons, List.nodup_cons] at hnd
    rw [List.foldl_cons, ih hnd.2]
    by_cases hj : j = c
    · subst hj
      rw [(StdMap.find_eq_none_iff tl j).2 hnd.1]
      simp [StdMap.find, StdMap.find_assign]
    · simp only [StdMap.find, hj, if_false]
      cases StdMap.find tl j with
      | some v => rfl
      | none =>
        simp only
        rw [StdMap.find_assign, if_neg hj]

theorem setup_w_find (sqrt : ℚ → ℚ) (A : SparseMatrix) (i : Nat)
    (hnd : (StdMap.keys (A.row_entries i)).Nodup) (j : Nat) :
    StdMap.find (setup_w sqrt A i []).2 j = StdMap.find (A.row_entries i) j := by
  cases A with
  | compressed A =>
    simp only [setup_w, setup_w_compressed, SparseMatrix.row_entries] at hnd ⊢
    rw [foldl_compressed_snd, foldl_assign_find _ hnd]
    cases StdMap.find _ j <;> rfl
  | stl A => rfl

theorem setup_w_val (sqrt : ℚ → ℚ) (A : SparseMatrix) (i : Nat)
    (hnd : (StdMap.keys (A.row_entries i)).Nodup) (j : Nat) :
    SparseVector.val (setup_w sqrt A i []).2 j = A.entry i j := by
  unfold SparseVector.val SparseMatrix.entry SparseVector.val
  rw [setup_w_find sqrt A i hnd]

theorem setup_w_keysBelow (sqrt : ℚ → ℚ) (A : SparseMatrix) (i n : Nat)
    (hnd : (StdMap.keys (A.row_entries i)).Nodup)
    (hb : ∀ k ∈ StdMap.keys (A.row_entries i), k < n) :
    KeysBelow n (setup_w sqrt A i []).2 := by
  intro k hk
  apply hb
  by_contra hc
  have h1 := (StdMap.find_eq_none_iff _ _).2 hc
  rw [← setup_w_find sqrt A i hnd] at h1
  exact (StdMap.find_eq_none_iff _ _).1 h1 hk

/-! ## Finalisation without drops -/

theorem nodup_countP_lt (l : List Nat) (hnd : l.Nodup) (p : Nat → Bool) (b : Nat)
    (hb : ∀ x ∈ l, p x = true → x < b) : l.countP p ≤ b := by
  rw [List.countP_eq_length_filter]
  have hnd' : (l.filter p).Nodup := hnd.filter _
  rw [← List.toFinset_card_of_nodup hnd']
  have hsub : (l.filter p).toFinset ⊆ Finset.range b := by
    intro x hx
    rw [List.mem_toFinset, List.mem_filter] at hx
    exact Finset.mem_range.2 (hb x hx.1 hx.2)
  simpa using Finset.card_le_card hsub

theorem countP_keys (w : SparseVector) (p : Nat → Bool) :
    w.countP (fun e => p e.1) = (StdMap.keys w).countP p := by
  unfold StdMap.keys
  rw [List.countP_map]
  rfl

theorem finalize_no_drop {i n : Nat} {w row : SparseVector} (hw : StdMap.Ordered w)
    (hb : KeysBelow n w) (hin : i ≤ n) (h : finalize_row i 0 n w [] = .ok row) :
    StdMap.Ordered row ∧ KeysBelow n row ∧ ∀ j, SparseVector.val row j = SparseVector.val w j := by
  unfold finalize_row at h
  split at h
  · simp at h
  · rename_i tm hs
    simp only [Except.ok.injEq] at h
    have hnd := sort_pass_cols_nodup hw hs
    have hndr : (tm.reverse.map cand_col).Nodup := by
      rw [List.map_reverse, List.nodup_reverse]; exact hnd
    have cL := sort_pass_countP hs (fun k => decide (k < i))
    have cU := sort_pass_countP hs (fun k => decide (i < k))
    have bL : tm.reverse.countP (fun c => decide (cand_col c < i)) ≤ n := by
      rw [cL]
      refine le_trans (List.countP_mono_left (q := fun e => decide (e.1 < i)) ?_) ?_
      · intro e _ he
        simp only [Bool.and_eq_true, decide_eq_true_eq] at he ⊢
        exact he.1
      · rw [countP_keys w (fun k => decide (k < i))]
        exact le_trans (nodup_countP_lt _ hw.nodup _ i (fun x _ hx => by simpa using hx)) hin
    have bU : tm.reverse.countP (fun c => decide (i < cand_col c)) ≤ n := by
      rw [cU]
      refine le_trans (List.countP_mono_left (q := fun e => decide (i < e.1)) ?_) ?_
      · intro e _ he
        simp only [Bool.and_eq_true, decide_eq_true_eq] at he ⊢
        exact he.1
      · rw [countP_keys w (fun k => decide (i < k))]
        exact nodup_countP_lt _ hw.nodup _ n (fun x hx _ => hb x hx)
    have hord : StdMap.Ordered row := h ▸ write_pass_ordered i n tm
    have hmem_row : ∀ x, x ∈ row → x ∈ w ∧ survives i 0 x = true := by
      intro x hx
      rw [← h] at hx
      obtain ⟨c, hc, hxc⟩ := write_pass_mem hx
      rcases sort_pass_mem w [] tm hs c hc with h0 | ⟨h1, h2, _⟩
      · simp at h0
      · rw [hxc]; exact ⟨h1, h2⟩
    have hwritten : ∀ e, e ∈ w → survives i 0 e = true → e ∈ row := by
      intro e he hsv
      obtain ⟨key, hk⟩ := sort_pass_mem_of_survives hs he hsv
      have := write_all_written tm.reverse hndr bL bU (List.mem_reverse.2 hk)
      rw [← h]
      exact this
    refine ⟨hord, ?_, ?_⟩
    · intro k hk
      obtain ⟨x, hx, hxk⟩ := List.mem_map.1 hk
      exact hb k (hxk ▸ StdMap.mem_keys_of_mem (hmem_row x hx).1)
    · intro j
      unfold SparseVector.val
      cases hf : StdMap.find w j with
      | none =>
        have : StdMap.find row j = none := by
          rw [StdMap.find_eq_none_iff]
          intro hk
          obtain ⟨x, hx, hxk⟩ := List.mem_map.1 hk
          have := StdMap.mem_keys_of_mem (hmem_row x hx).1
          rw [hxk] at this
          exact (StdMap.find_eq_none_iff w j).1 hf this
        rw [this]
      | some v =>
        have hmem := StdMap.mem_of_find hf
        by_cases hsv : survives i 0 (j, v) = true
        · rw [StdMap.find_of_mem hord.nodup (hwritten _ hmem hsv)]
        · have hv : v = 0 := by
            simp only [survives, Bool.or_eq_true, decide_eq_true_eq, not_or, not_lt] at hsv
            exact (fabs_eq_zero_iff v).1 (le_antisymm hsv.1 (fabs_nonneg v))
          have : StdMap.find row j = none := by
            rw [StdMap.find_eq_none_iff]
            intro hk
            obtain ⟨x, hx, hxk⟩ := List.mem_map.1 hk
            obtain ⟨hxw, hxs⟩ := hmem_row x hx
            have hx2 : StdMap.find w x.1 = some x.2 := StdMap.find_of_mem hw.nodup hxw
            rw [hxk, hf] at hx2
            simp only [Option.some.injEq] at hx2
            apply hsv
            have : x = (j, v) := Prod.ext hxk hx2.symm
            rw [← this]
            exact hxs
          rw [this, hv]
          rfl

/-! ## Exactness of the factorisation without drops -/

theorem residual_congr_out {out1 out2 : Output} {lo : Nat}
    (h : ∀ k, k < lo → row_at out1 k = row_at out2 k) (w : SparseVector) (j : Nat) :
    elim_residual out1 lo w j = elim_residual out2 lo w j := by
  unfold elim_residual
  congr 1
  apply Finset.sum_congr rfl
  intro k hk
  unfold U_entry
  rw [h k (Finset.mem_range.1 hk)]

theorem residual_congr_w (out : Output) (lo : Nat) {w1 w2 : SparseVector}
    (h : ∀ j, SparseVector.val w1 j = SparseVector.val w2 j) (j : Nat) :
    elim_residual out lo w1 j = elim_residual out lo w2 j := by
  unfold elim_residual
  rw [h j]
  congr 1
  apply Finset.sum_congr rfl
  intro k _
  rw [h k]

theorem residual_zero (out : Output) (w : SparseVector) (j : Nat) :
    elim_residual out 0 w j = SparseVector.val w j := by
  simp [elim_residual]

theorem product_eq_residual (out : Output) {i n : Nat} (hi : i < n) (j : Nat) :
    ∑ k in Finset.range n, L_entry out i k * U_entry out k j =
      elim_residual out i (row_at out i) j := by
  have hsub : Finset.range (i + 1) ⊆ Finset.range n := by
    intro x hx
    rw [Finset.mem_range] at hx ⊢
    omega
  rw [← Finset.sum_subset hsub]
  · rw [Finset.sum_range_succ]
    unfold elim_residual
    congr 1
    · apply Finset.sum_congr rfl
      intro k hk
      have hk' : k < i := Finset.mem_range.1 hk
      unfold L_entry
      rw [if_pos hk']
    · unfold L_entry U_entry
      rw [if_neg (lt_irrefl i), if_pos rfl, one_mul]
  · intro k _ hk
    have hk' : ¬ k < i + 1 := fun h => hk (Finset.mem_range.2 h)
    unfold L_entry
    rw [if_neg (by omega), if_neg (by omega), zero_mul]

theorem tau_zero (sqrt : ℚ → ℚ) (A : SparseMatrix) (tag : ilut_tag)
    (htol : tag.get_drop_tolerance = 0) (i : Nat) : tau sqrt A tag i = 0 := by
  unfold tau
  rw [htol, zero_mul]

theorem exact_rows {sqrt : ℚ → ℚ} {A : SparseMatrix} {tag : ilut_tag} {n : Nat} {out : Output}
    (hA : A.Valid) (hsq : A.Square n) (htol : tag.get_drop_tolerance = 0)
    (hepr : tag.get_entries_per_row = n)
    (hrows : ∀ r, r < n → RowDone sqrt A tag n r out) :
    ∀ i, i < n → StdMap.Ordered (row_at out i) ∧ KeysBelow n (row_at out i) ∧
      ∀ j, elim_residual out i (row_at out i) j = A.entry i j := by
  intro i
  induction i using Nat.strong_induction_on with
  | _ i ih =>
    intro hi
    obtain ⟨out_i, w, tm, _, hsame, helim, hsort, hrow⟩ := hrows i hi
    rw [tau_zero sqrt A tag htol i] at helim hsort
    rw [hepr] at hrow
    obtain ⟨hnd, hkb⟩ := hsq.2 i hi
    have hfin : finalize_row i 0 n w [] = .ok (row_at out i) := by
      unfold finalize_row
      rw [hsort, hrow]
    have hw0 : StdMap.Ordered (setup_w sqrt A i []).2 := setup_w_ordered sqrt hA i
    have hw : StdMap.Ordered w := eliminate_ordered _ _ _ _ _ _ helim hw0
    have hkw : KeysBelow n w :=
      eliminate_keysBelow (le_of_lt hi) out_i
        (fun k hk => by rw [hsame k hk]; exact (ih k hk (by omega)).2.1)
        _ _ _ _ _ helim (setup_w_keysBelow sqrt A i n hnd hkb)
    obtain ⟨hord, hkrow, hval⟩ := finalize_no_drop hw hkw (le_of_lt hi) hfin
    refine ⟨hord, hkrow, ?_⟩
    intro j
    have hres := eliminate_residual out_i
      (fun k hk => by rw [hsame k hk]; exact (ih k hk (by omega)).1.nodup)
      i 0 _ w out_i helim hw0 (Nat.zero_le _) j
    rw [residual_zero, setup_w_val sqrt A i hnd] at hres
    rw [residual_congr_w out i hval, ← residual_congr_out hsame]
    exact hres

theorem tridiag_stl_square : tridiag_stl.Square 3 := by
  refine ⟨rfl, ?_⟩
  intro i hi
  interval_cases i <;> exact ⟨by decide, by decide⟩

/-! ## The fuel of the model never runs out -/

theorem elim_body_error {tau_i : ℚ} {k : Nat} {w_k : ℚ} {w : SparseVector} {output : Output}
    {e : IlutError × Output} (h : elim_body tau_i k w_k w output = .error e) :
    e.1 = .zero_diagonal := by
  by_cases ha : SparseVector.val (row_at output k) k = 0
  · rw [elim_body_zero ha] at h
    simp only [Except.error.injEq] at h
    rw [← h]
  · rw [elim_body_nonzero ha] at h
    simp at h

theorem eliminate_fuel {i : Nat} {tau_i : ℚ} :
    ∀ (fuel lo : Nat) (w : SparseVector) (output : Output), StdMap.Ordered w → i ≤ lo + fuel →
      ∀ o, eliminate i tau_i fuel lo w output ≠ .error (.out_of_fuel, o) := by
  intro fuel
  induction fuel with
  | zero =>
    intro lo w output hw hf o h
    unfold eliminate at h
    split at h
    · simp at h
    · rename_i k w_k hlb
      split at h
      · simp at h
      · rename_i hk
        have := (lower_bound_some hw hlb).1
        omega
  | succ fuel ih =>
    intro lo w output hw hf o h
    unfold eliminate at h
    split at h
    · simp at h
    · rename_i k w_k hlb
      split at h
      · simp at h
      · simp only at h
        split at h
        · rename_i e hb
          have := elim_body_error hb
          simp only [Except.error.injEq] at h
          rw [h] at this
          simp at this
        · rename_i w1 out1 hb
          obtain ⟨_, _, hw1⟩ := elim_body_ok hb
          have hlo := (lower_bound_some hw hlb).1
          exact ih (k + 1) w1 out1 (hw1 ▸ elim_step_w_ordered _ _ _ _ _ hw) (by omega) o h

theorem process_row_fuel (sqrt : ℚ → ℚ) {A : SparseMatrix} (hA : A.Valid) (tag : ilut_tag)
    (output : Output) (i : Nat) (o : Output) :
    process_row sqrt A tag output i ≠ .error (.out_of_fuel, o) := by
  rw [process_row_eq]
  intro h
  split at h
  · rename_i e he
    simp only [Except.error.injEq] at h
    rw [h] at he
    exact eliminate_fuel i 0 _ output (setup_w_ordered sqrt hA i) (by omega) o he
  · rename_i w out1 he
    split at h
    · rename_i e hf
      simp only [Except.error.injEq, Prod.mk.injEq] at h
      rw [h.1] at hf
      unfold finalize_row at hf
      split at hf
      · rename_i e' hs
        simp only [Except.error.injEq] at hf
        rw [hf] at hs
        exact sort_pass_fuel _ _ hs
      · simp at hf
    · simp at h

theorem row_loop_fuel (sqrt : ℚ → ℚ) {A : SparseMatrix} (hA : A.Valid) (tag : ilut_tag)
    (rows : List Nat) (output : Output) (o : Output) :
    row_loop sqrt A tag rows output ≠ .error (.out_of_fuel, o) := by
  induction rows generalizing output with
  | nil => simp [row_loop]
  | cons i rows ih =>
    intro h
    simp only [row_loop] at h
    split at h
    · rename_i e hp
      simp only [Except.error.injEq] at h
      rw [h] at hp
      exact process_row_fuel sqrt hA tag output i o hp
    · exact ih _ h

/-- For an input in valid storage, `precondition` never stops for lack of fuel: its outcome is
a factor or one of the three failures of the code. -/
theorem precondition_fuel (sqrt : ℚ → ℚ) {A : SparseMatrix} (hA : A.Valid) (tag : ilut_tag)
    (output : Output) (o : Output) :
    precondition sqrt A output tag ≠ .error (.out_of_fuel, o) := by
  unfold precondition
  split
  · simp
  · exact row_loop_fuel sqrt hA tag _ output o

/-! ## Size of a finalized row -/

theorem length_three_way (i : Nat) (row : SparseVector) :
    row.length = count_L i row + count_U i row + row.countP (fun e => decide (e.1 = i)) := by
  unfold count_L count_U
  induction row with
  | nil => rfl
  | cons hd tl ih =>
    simp only [List.length_cons, List.countP_cons, ih]
    rcases Nat.lt_trichotomy hd.1 i with h | h | h
    · simp [h, Nat.ne_of_lt h, Nat.lt_asymm h]
      omega
    · simp [h]
      omega
    · simp [h, Nat.ne_of_gt h, Nat.lt_asymm h]
      omega

theorem countP_key_le_one {row : SparseVector} (h : (StdMap.keys row).Nodup) (i : Nat) :
    row.countP (fun e => decide (e.1 = i)) ≤ 1 := by
  have h1 := countP_keys row (fun k => decide (k = i))
  simp only at h1
  have h2 : (StdMap.keys row).countP (fun k => decide (k = i)) = (StdMap.keys row).count i := by
    unfold List.count
    apply List.countP_congr
    intro x _
    simp
  rw [h1, h2]
  exact List.nodup_iff_count_le_one.1 h i

theorem write_pass_length (i entries_per_row : Nat) (temp_map : TemporarySortMap) :
    (write_pass i entries_per_row temp_map []).length ≤ 2 * entries_per_row + 1 := by
  have hb := write_pass_budget i entries_per_row temp_map
  have hd := countP_key_le_one (write_pass_ordered i entries_per_row temp_map).nodup i
  rw [length_three_way i]
  omega

/-! ## Two representations of one row -/

theorem perm_of_find_eq {l1 l2 : SparseVector} (h1 : (StdMap.keys l1).Nodup)
    (h2 : (StdMap.keys l2).Nodup) (h : ∀ j, StdMap.find l1 j = StdMap.find l2 j) :
    List.Perm l1 l2 := by
  rw [List.perm_ext_iff_of_nodup (List.Nodup.of_map Prod.fst h1) (List.Nodup.of_map Prod.fst h2)]
  intro a
  obtain ⟨k, v⟩ := a
  constructor
  · intro ha
    have := StdMap.find_of_mem h1 ha
    rw [h k] at this
    exact StdMap.mem_of_find this
  · intro ha
    have := StdMap.find_of_mem h2 ha
    rw [← h k] at this
    exact StdMap.mem_of_find this

theorem ordered_ext {m1 m2 : SparseVector} (h1 : StdMap.Ordered m1) (h2 : StdMap.Ordered m2)
    (h : ∀ j, StdMap.find m1 j = StdMap.find m2 j) : m1 = m2 := by
  haveI : IsAntisymm (Nat × ℚ) (fun a b => a.1 < b.1) :=
    ⟨fun a b hab hba => absurd hab (lt_asymm hba)⟩
  have hp := perm_of_find_eq h1.nodup h2.nodup h
  have s1 : List.Sorted (fun a b : Nat × ℚ => a.1 < b.1) m1 := by
    unfold StdMap.Ordered StdMap.keys at h1
    exact List.pairwise_map.1 h1
  have s2 : List.Sorted (fun a b : Nat × ℚ => a.1 < b.1) m2 := by
    unfold StdMap.Ordered StdMap.keys at h2
    exact List.pairwise_map.1 h2
  exact List.eq_of_perm_of_sorted hp s1 s2

theorem sum_of_squares_perm {l1 l2 : SparseVector} (h : List.Perm l1 l2) :
    sum_of_squares l1 = sum_of_squares l2 := by
  unfold sum_of_squares
  exact (h.map _).sum_eq

theorem euclidean_norm_eq (sqrt : ℚ → ℚ) (entries : List (Nat × ℚ)) :
    euclidean_norm sqrt entries = sqrt (sum_of_squares entries) := rfl

theorem three_four_same (j : Nat) :
    StdMap.find ((SparseMatrix.compressed three_four_csr).row_entries 0) j =
      StdMap.find ((SparseMatrix.stl [[(0, 3), (1, 4)]]).row_entries 0) j := by
  have h1 : (SparseMatrix.compressed three_four_csr).row_entries 0 = [(1, 4), (0, 3)] := by
    decide!
  have h2 : (SparseMatrix.stl [[(0, 3), (1, 4)]]).row_entries 0 = [(0, 3), (1, 4)] := rfl
  rw [h1, h2]
  simp only [StdMap.find]
  by_cases h0 : j = 0
  · subst h0; simp
  · by_cases h1 : j = 1
    · subst h1; simp
    · simp [h0, h1]

/-! ## Order of the elimination steps -/

theorem lower_bound_ge {w : SparseVector} {lo k : Nat} {v : ℚ}
    (h : StdMap.lower_bound w lo = some (k, v)) : lo ≤ k := by
  induction w with
  | nil => simp [StdMap.lower_bound] at h
  | cons hd tl ih =>
    obtain ⟨c, x⟩ := hd
    unfold StdMap.lower_bound at h
    split at h
    · rename_i hc
      simp only [Option.some.injEq, Prod.mk.injEq] at h
      omega
    · exact ih h

theorem eliminate_visits_step {i : Nat} {tau_i : ℚ} {fuel lo : Nat} {w : SparseVector}
    {output : Output} {k : Nat} {w_k : ℚ}
    (hlb : StdMap.lower_bound w lo = some (k, w_k)) (hk : k < i) :
    eliminate_visits i tau_i (fuel + 1) lo w output =
      match elim_body tau_i k w_k w output with
      | .error _ => []
      | .ok (w, output) => k :: eliminate_visits i tau_i fuel (k + 1) w output := by
  rw [eliminate_visits]
  simp only [hlb, ge_iff_le, if_neg (not_le.2 hk)]

theorem eliminate_visits_stop {i : Nat} {tau_i : ℚ} {fuel lo : Nat} {w : SparseVector}
    {output : Output}
    (h : StdMap.lower_bound w lo = none ∨
      ∃ k w_k, StdMap.lower_bound w lo = some (k, w_k) ∧ i ≤ k) :
    eliminate_visits i tau_i fuel lo w output = [] := by
  rcases h with h | ⟨k, w_k, h, hk⟩
  · cases fuel <;> simp [eliminate_visits, h]
  · cases fuel <;> simp [eliminate_visits, h, hk]

theorem eliminate_visits_zero {i : Nat} {tau_i : ℚ} {lo : Nat} {w : SparseVector}
    {output : Output} : eliminate_visits i tau_i 0 lo w output = [] := by
  rw [eliminate_visits]
  split
  · rfl
  · split <;> rfl

theorem eliminate_visits_bounds {i : Nat} {tau_i : ℚ} :
    ∀ (fuel lo : Nat) (w : SparseVector) (output : Output),
      (∀ x ∈ eliminate_visits i tau_i fuel lo w output, lo ≤ x ∧ x < i) ∧
      (eliminate_visits i tau_i fuel lo w output).Pairwise (fun a b => a < b) := by
  intro fuel
  induction fuel with
  | zero =>
    intro lo w output
    rw [eliminate_visits_zero]
    simp
  | succ fuel ih =>
    intro lo w output
    cases hlb : StdMap.lower_bound w lo with
    | none =>
      rw [eliminate_visits_stop (Or.inl hlb)]
      simp
    | some p =>
      obtain ⟨k, w_k⟩ := p
      by_cases hk : k < i
      · rw [eliminate_visits_step hlb hk]
        cases hb : elim_body tau_i k w_k w output with
        | error e => simp
        | ok r =>
          obtain ⟨w1, out1⟩ := r
          simp only
          obtain ⟨h1, h2⟩ := ih (k + 1) w1 out1
          have hlo := lower_bound_ge hlb
          constructor
          · intro x hx
            rcases List.mem_cons.1 hx with hx | hx
            · omega
            · have := h1 x hx
              omega
          · rw [List.pairwise_cons]
            refine ⟨?_, h2⟩
            intro x hx
            have := h1 x hx
            omega
      · rw [eliminate_visits_stop (Or.inr ⟨k, w_k, hlb, not_lt.1 hk⟩)]
        simp

theorem index_keys_mono (m : SparseVector) (k : Nat) (d : ℚ) {j : Nat}
    (h : j ∈ StdMap.keys m) : j ∈ StdMap.keys (StdMap.index m k d).2 := by
  unfold StdMap.index
  split
  · exact h
  · exact (StdMap.mem_keys_assign m k d j).2 (Or.inr h)

theorem update_w_keys_mono (k : Nat) (m : ℚ) (row_k : SparseVector) :
    ∀ (w : SparseVector) (j : Nat), j ∈ StdMap.keys w →
      j ∈ StdMap.keys (update_w k m row_k w) := by
  unfold update_w
  induction row_k with
  | nil => intro w j h; exact h
  | cons u tl ih =>
    intro w j h
    rw [List.foldl_cons]
    apply ih
    split
    · exact (StdMap.mem_keys_assign _ _ _ _).2 (Or.inr (index_keys_mono w u.1 0 h))
    · exact h

theorem elim_step_w_keys_mono (tau_i : ℚ) (k : Nat) (w_k a_kk : ℚ) (row_k w : SparseVector)
    {j : Nat} (h : j ∈ StdMap.keys w ∨ j = k) :
    j ∈ StdMap.keys (elim_step_w tau_i k w_k a_kk row_k w) := by
  have h1 : j ∈ StdMap.keys (StdMap.assign w k (w_k / a_kk)) := by
    rw [StdMap.mem_keys_assign]
    rcases h with h | h
    · exact Or.inr h
    · exact Or.inl h
  unfold elim_step_w
  split
  · exact update_w_keys_mono _ _ _ _ _ h1
  · exact h1

theorem eliminate_keys_mono {i : Nat} {tau_i : ℚ} :
    ∀ (fuel lo : Nat) (w w' : SparseVector) (output out' : Output),
      eliminate i tau_i fuel lo w output = .ok (w', out') →
      ∀ j, j ∈ StdMap.keys w → j ∈ StdMap.keys w' := by
  intro fuel
  induction fuel with
  | zero =>
    intro lo w w' output out' h j hj
    unfold eliminate at h
    split at h
    · simp at h; exact h.1 ▸ hj
    · split at h
      · simp at h; exact h.1 ▸ hj
      · simp at h
  | succ fuel ih =>
    intro lo w w' output out' h j hj
    unfold eliminate at h
    split at h
    · simp at h; exact h.1 ▸ hj
    · split at h
      · simp at h; exact h.1 ▸ hj
      · simp only at h
        split at h
        · simp at h
        · rename_i w1 out1 hb
          obtain ⟨_, _, hw1⟩ := elim_body_ok hb
          exact ih _ _ _ _ _ h j (hw1 ▸ elim_step_w_keys_mono _ _ _ _ _ _ (Or.inl hj))

theorem eliminate_find_below {i : Nat} {tau_i : ℚ} :
    ∀ (fuel lo : Nat) (w w' : SparseVector) (output out' : Output),
      eliminate i tau_i fuel lo w output = .ok (w', out') →
      ∀ j, j < lo → StdMap.find w' j = StdMap.find w j := by
  intro fuel
  induction fuel with
  | zero =>
    intro lo w w' output out' h j hj
    unfold eliminate at h
    split at h
    · simp at h; rw [h.1]
    · split at h
      · simp at h; rw [h.1]
      · simp at h
  | succ fuel ih =>
    intro lo w w' output out' h j hj
    unfold eliminate at h
    split at h
    · simp at h; rw [h.1]
    · rename_i k w_k hlb
      split at h
      · simp at h; rw [h.1]
      · simp only at h
        split at h
        · simp at h
        · rename_i w1 out1 hb
          obtain ⟨_, _, hw1⟩ := elim_body_ok hb
          have hlo := lower_bound_ge hlb
          rw [ih _ _ _ _ _ h j (by omega), hw1,
            elim_step_w_find_le _ _ _ _ _ _ _ (by omega), if_neg (by omega)]

theorem eliminate_visits_iff {i : Nat} {tau_i : ℚ} :
    ∀ (fuel lo : Nat) (w w' : SparseVector) (output out' : Output),
      eliminate i tau_i fuel lo w output = .ok (w', out') → StdMap.Ordered w →
      ∀ k, k ∈ eliminate_visits i tau_i fuel lo w output ↔
        (lo ≤ k ∧ k < i ∧ k ∈ StdMap.keys w') := by
  intro fuel
  induction fuel with
  | zero =>
    intro lo w w' output out' h hw k
    rw [eliminate_visits_zero]
    simp only [List.not_mem_nil, false_iff, not_and]
    intro h1 h2 h3
    unfold eliminate at h
    split at h
    · rename_i hlb
      simp only [Except.ok.injEq, Prod.mk.injEq] at h
      rw [← h.1] at h3
      exact lower_bound_none hlb k h1 h3
    · rename_i k0 w_k hlb
      split at h
      · rename_i hk
        simp only [Except.ok.injEq, Prod.mk.injEq] at h
        rw [← h.1] at h3
        exact (lower_bound_some hw hlb).2.2 k h1 (by omega) h3
      · simp at h
  | succ fuel ih =>
    intro lo w w' output out' h hw k
    cases hlb : StdMap.lower_bound w lo with
    | none =>
      rw [eliminate_visits_stop (Or.inl hlb)]
      rw [eliminate_stop (Or.inl hlb)] at h
      simp only [Except.ok.injEq, Prod.mk.injEq] at h
      simp only [List.not_mem_nil, false_iff, not_and]
      intro h1 _ h3
      rw [← h.1] at h3
      exact lower_bound_none hlb k h1 h3
    | some p =>
      obtain ⟨k0, w_k⟩ := p
      by_cases hk : k0 < i
      · rw [eliminate_visits_step hlb hk]
        rw [eliminate_step hlb hk] at h
        cases hb : elim_body tau_i k0 w_k w output with
        | error e =>
          rw [hb] at h
          simp at h
        | ok r =>
          obtain ⟨w1, out1⟩ := r
          rw [hb] at h
          simp only at h ⊢
          obtain ⟨_, _, hw1⟩ := elim_body_ok hb
          have hord1 : StdMap.Ordered w1 := hw1 ▸ elim_step_w_ordered _ _ _ _ _ hw
          obtain ⟨hlo, _, hgap⟩ := lower_bound_some hw hlb
          have hIH := ih (k0 + 1) w1 w' out1 out' h hord1 k
          have hk0 : k0 ∈ StdMap.keys w' :=
            eliminate_keys_mono _ _ _ _ _ _ h k0
              (hw1 ▸ elim_step_w_keys_mono _ _ _ _ _ _ (Or.inr rfl))
          rw [List.mem_cons, hIH]
          constructor
          · rintro (h1 | ⟨h1, h2, h3⟩)
            · subst h1
              exact ⟨hlo, hk, hk0⟩
            · exact ⟨by omega, h2, h3⟩
          · rintro ⟨h1, h2, h3⟩
            rcases Nat.lt_trichotomy k k0 with hlt | heq | hgt
            · exfalso
              have e1 := eliminate_find_below _ _ _ _ _ _ h k (by omega)
              rw [hw1, elim_step_w_find_le _ _ _ _ _ _ _ (by omega), if_neg (by omega)] at e1
              have e2 := (StdMap.find_eq_none_iff w k).2 (hgap k h1 hlt)
              rw [e2] at e1
              exact (StdMap.find_eq_none_iff w' k).1 e1 h3
            · exact Or.inl heq
            · exact Or.inr ⟨by omega, h2, h3⟩
      · have hstop : StdMap.lower_bound w lo = none ∨
            ∃ k w_k, StdMap.lower_bound w lo = some (k, w_k) ∧ i ≤ k :=
          Or.inr ⟨k0, w_k, hlb, not_lt.1 hk⟩
        rw [eliminate_visits_stop hstop]
        rw [eliminate_stop hstop] at h
        simp only [Except.ok.injEq, Prod.mk.injEq] at h
        simp only [List.not_mem_nil, false_iff, not_and]
        intro h1 h2 h3
        rw [← h.1] at h3
        exact (lower_bound_some hw hlb).2.2 k h1 (by omega) h3

/-! ## Rows that a later row leaves alone -/

theorem eliminate_error_kind {i : Nat} {tau_i : ℚ} :
    ∀ (fuel lo : Nat) (w : SparseVector) (output : Output) (e : IlutError × Output),
      eliminate i tau_i fuel lo w output = .error e →
      e.1 = .zero_diagonal ∨ e.1 = .out_of_fuel := by
  intro fuel
  induction fuel with
  | zero =>
    intro lo w output e h
    unfold eliminate at h
    split at h
    · simp at h
    · split at h
      · simp at h
      · simp only [Except.error.injEq] at h
        rw [← h]
        exact Or.inr rfl
  | succ fuel ih =>
    intro lo w output e h
    unfold eliminate at h
    split at h
    · simp at h
    · split at h
      · simp at h
      · simp only at h
        split at h
        · rename_i e' hb
          simp only [Except.error.injEq] at h
          rw [← h]
          exact Or.inl (elim_body_error hb)
        · exact ih _ _ _ _ h

/-- A row that completes changes no other row, and a row that stops with the singular-factor
error leaves the whole output as it found it. -/
theorem process_row_frame {sqrt : ℚ → ℚ} {A : SparseMatrix} {tag : ilut_tag} {output : Output}
    {i : Nat} :
    (∀ out', process_row sqrt A tag output i = .ok out' →
      ∀ k, k ≠ i → row_at out' k = row_at output k) ∧
    (∀ o, process_row sqrt A tag output i = .error (.singular_factor, o) → o = output) := by
  constructor
  · intro out' h k hk
    obtain ⟨w, tm, _, _, ho⟩ := process_row_ok h
    rw [ho, row_at_set_ne _ (Ne.symm hk)]
  · intro o h
    rw [process_row_eq] at h
    split at h
    · rename_i e he
      simp only [Except.error.injEq] at h
      rw [h] at he
      rcases eliminate_error_kind _ _ _ _ _ he with h1 | h1 <;> simp at h1
    · rename_i w out1 he
      have ho := eliminate_ok_output _ _ _ _ _ _ he
      split at h
      · simp only [Except.error.injEq, Prod.mk.injEq] at h
        rw [← h.2, ho]
      · simp at h
/-! ## Lemmas on the enumeration of tuning parameters -/

theorem has_next_fold (params : params_t) (b : Bool) :
    params.foldl (fun res it => res || !it.2.is_max) b =
      (b || params.any (fun it => !it.2.is_max)) := by
  induction params generalizing b with
  | nil => simp
  | cons it rest ih => simp [List.foldl_cons, ih, List.any_cons, Bool.or_assoc]

theorem has_next_loop_cons (it : String × tuning_param) (rest : params_t) :
    has_next_loop (it :: rest) = (!it.2.is_max || has_next_loop rest) := by
  unfold has_next_loop
  rw [has_next_fold, has_next_fold]
  simp

theorem rank_cons (it : String × tuning_param) (rest : params_t) :
    rank (it :: rest) =
      (it.2.current_ - it.2.min_max_.1) + (it.2.min_max_.2 - it.2.min_max_.1 + 1) * rank rest :=
  rfl

theorem combinations_cons (it : String × tuning_param) (rest : params_t) :
    combinations (bounds (it :: rest)) =
      (it.2.min_max_.2 - it.2.min_max_.1 + 1) * combinations (bounds rest) :=
  rfl

theorem add_one_inc (p : tuning_param) (h1 : p.inc_ = .add_one)
    (h3 : p.min_max_.2 < 2 ^ 32 - 1) (h2 : p.current_ ≤ p.min_max_.2) :
    p.inc = if p.current_ < p.min_max_.2 then (false, { p with current_ := p.current_ + 1 })
      else (true, { p with current_ := p.min_max_.1 }) := by
  have hmod : (p.current_ + 1) % 2 ^ 32 = p.current_ + 1 := Nat.mod_eq_of_lt (by omega)
  simp only [tuning_param.inc, h1, inc.apply, hmod]
  by_cases h : p.current_ < p.min_max_.2
  · rw [if_pos (by omega), if_pos h]
  · rw [if_neg (by omega), if_neg h]

theorem update_loop_add_one : ∀ params : params_t, AddOneParams params →
    has_next_loop params = true →
    AddOneParams (update_loop params) ∧ bounds (update_loop params) = bounds params ∧
      rank (update_loop params) = rank params + 1
  | [], _, hn => by simp [has_next_loop] at hn
  | it :: rest, h, hn => by
    have hit := h it (List.mem_cons_self _ _)
    have hrest : AddOneParams rest := fun e he => h e (List.mem_cons_of_mem _ he)
    have hinc := add_one_inc it.2 hit.1 hit.2.2.2 hit.2.2.1
    by_cases hlt : it.2.current_ < it.2.min_max_.2
    · rw [if_pos hlt] at hinc
      have hu : update_loop (it :: rest) =
          (it.1, { it.2 with current_ := it.2.current_ + 1 }) :: rest := by
        simp [update_loop, hinc]
      rw [hu]
      refine ⟨?_, ?_, ?_⟩
      · intro e he
        rcases List.mem_cons.1 he with rfl | he
        · exact ⟨hit.1, by dsimp only; omega, by dsimp only; omega, hit.2.2.2⟩
        · exact hrest e he
      · simp [bounds]
      · rw [rank_cons, rank_cons]
        dsimp only
        omega
    · rw [if_neg hlt] at hinc
      have hmax : it.2.is_max = true := by
        simp only [tuning_param.is_max, decide_eq_true_eq]
        omega
      have hn' : has_next_loop rest = true := by
        rw [has_next_loop_cons, hmax] at hn
        simpa using hn
      obtain ⟨ih1, ih2, ih3⟩ := update_loop_add_one rest hrest hn'
      have hu : update_loop (it :: rest) =
          (it.1, { it.2 with current_ := it.2.min_max_.1 }) :: update_loop rest := by
        simp [update_loop, hinc]
      rw [hu]
      refine ⟨?_, ?_, ?_⟩
      · intro e he
        rcases List.mem_cons.1 he with rfl | he
        · exact ⟨hit.1, le_refl _, by dsimp only; omega, hit.2.2.2⟩
        · exact ih1 e he
      · have := ih2
        simp only [bounds] at this ⊢
        simp [this]
      · rw [rank_cons, rank_cons, ih3, Nat.mul_add, Nat.mul_one]
        dsimp only
        omega

theorem in_bounds_of_add_one : ∀ params : params_t, AddOneParams params →
    InBounds (bounds params) (params.map (fun it => it.2.current))
  | [], _ => trivial
  | it :: rest, h =>
    ⟨⟨(h it (List.mem_cons_self _ _)).2.1, (h it (List.mem_cons_self _ _)).2.2.1⟩,
      in_bounds_of_add_one rest (fun e he => h e (List.mem_cons_of_mem _ he))⟩

theorem rank_of_lt : ∀ (bs : List (Nat × Nat)) (vs : List Nat), InBounds bs vs →
    rank_of bs vs < combinations bs
  | [], [], _ => by simp [rank_of, combinations]
  | [], _ :: _, h => by simp [InBounds] at h
  | _ :: _, [], h => by simp [InBounds] at h
  | b :: bs, v :: vs, h => by
    obtain ⟨⟨h1, h2⟩, h3⟩ := h
    have ih := rank_of_lt bs vs h3
    simp only [rank_of, combinations]
    have := Nat.mul_le_mul_left (b.2 - b.1 + 1) (Nat.succ_le_of_lt ih)
    rw [Nat.mul_succ] at this
    omega

theorem digit_unique (r a a' x y : Nat) (ha : a < r) (ha' : a' < r)
    (h : a + r * x = a' + r * y) : a = a' ∧ x = y := by
  have h1 : (a + r * x) % r = (a' + r * y) % r := by rw [h]
  rw [Nat.add_mul_mod_self_left, Nat.add_mul_mod_self_left, Nat.mod_eq_of_lt ha,
    Nat.mod_eq_of_lt ha'] at h1
  subst h1
  have h2 : r * x = r * y := by omega
  exact ⟨rfl, Nat.eq_of_mul_eq_mul_left (by omega) h2⟩

theorem rank_of_inj : ∀ (bs : List (Nat × Nat)) (vs vs' : List Nat), InBounds bs vs →
    InBounds bs vs' → rank_of bs vs = rank_of bs vs' → vs = vs'
  | [], [], [], _, _, _ => rfl
  | [], [], _ :: _, _, h, _ => by simp [InBounds] at h
  | [], _ :: _, _, h, _, _ => by simp [InBounds] at h
  | _ :: _, [], _, h, _, _ => by simp [InBounds] at h
  | _ :: _, _ :: _, [], _, h, _ => by simp [InBounds] at h
  | b :: bs, v :: vs, v' :: vs', h, h', he => by
    obtain ⟨⟨h1, h2⟩, h3⟩ := h
    obtain ⟨⟨h1', h2'⟩, h3'⟩ := h'
    simp only [rank_of] at he
    obtain ⟨e1, e2⟩ := digit_unique _ _ _ _ _ (by omega) (by omega) he
    rw [rank_of_inj bs vs vs' h3 h3' e2]
    have : v = v' := by omega
    rw [this]

theorem has_next_false : ∀ params : params_t, AddOneParams params →
    has_next_loop params = false →
    params.map (fun it => it.2.current) = params.map (fun it => it.2.min_max_.2) ∧
      rank params + 1 = combinations (bounds params)
  | [], _, _ => ⟨rfl, rfl⟩
  | it :: rest, h, hn => by
    have hit := h it (List.mem_cons_self _ _)
    have hrest : AddOneParams rest := fun e he => h e (List.mem_cons_of_mem _ he)
    rw [has_next_loop_cons] at hn
    have hmax : it.2.is_max = true := by
      cases hm : it.2.is_max
      · rw [hm] at hn; simp at hn
      · rfl
    have hn' : has_next_loop rest = false := by
      rw [hmax] at hn
      simpa using hn
    obtain ⟨ih1, ih2⟩ := has_next_false rest hrest hn'
    have hcur : it.2.current_ = it.2.min_max_.2 := by
      simp only [tuning_param.is_max, decide_eq_true_eq] at hmax
      omega
    refine ⟨?_, ?_⟩
    · rw [List.map_cons, List.map_cons, ih1]
      simp [tuning_param.current, hcur]
    · rw [rank_cons, combinations_cons, ← ih2, Nat.mul_add, Nat.mul_one, hcur]
      omega

theorem enumerate_spec : ∀ (fuel : Nat) (c : tuning_config), AddOneParams c.params_ →
    combinations (bounds c.params_) ≤ rank c.params_ + 1 + fuel →
    ∃ states, enumerate fuel c = some states ∧
      states.map (fun t => rank t.params_) =
        List.range' (rank c.params_) (combinations (bounds c.params_) - rank c.params_) ∧
      (∀ t ∈ states, AddOneParams t.params_ ∧ bounds t.params_ = bounds c.params_) ∧
      ∃ t, states.getLast? = some t ∧ t.has_next = false := by
  intro fuel
  induction fuel with
  | zero =>
    intro c h hf
    cases hn : c.has_next
    · obtain ⟨_, hr⟩ := has_next_false c.params_ h hn
      refine ⟨[c], by simp [enumerate, hn], ?_, ?_, c, rfl, hn⟩
      · rw [← hr]
        simp [List.range']
      · intro t ht
        rw [List.mem_singleton.1 ht]
        exact ⟨h, rfl⟩
    · obtain ⟨u1, u2, u3⟩ := update_loop_add_one c.params_ h hn
      have := rank_of_lt _ _ (in_bounds_of_add_one _ u1)
      rw [u2] at this
      have hr : rank (update_loop c.params_) = rank c.params_ + 1 := u3
      unfold rank at hr
      rw [u2] at hr
      unfold rank at hf
      omega
  | succ fuel ih =>
    intro c h hf
    cases hn : c.has_next
    · obtain ⟨_, hr⟩ := has_next_false c.params_ h hn
      refine ⟨[c], by simp [enumerate, hn], ?_, ?_, c, rfl, hn⟩
      · rw [← hr]
        simp [List.range']
      · intro t ht
        rw [List.mem_singleton.1 ht]
        exact ⟨h, rfl⟩
    · obtain ⟨u1, u2, u3⟩ := update_loop_add_one c.params_ h hn
      have hlt := rank_of_lt _ _ (in_bounds_of_add_one _ u1)
      obtain ⟨states, e1, e2, e3, t, e4, e5⟩ := ih c.update u1 (by
        show combinations (bounds (update_loop c.params_)) ≤ rank (update_loop c.params_) + 1 + fuel
        rw [u2, u3]
        omega)
      refine ⟨c :: states, by simp [enumerate, hn, e1], ?_, ?_, t, ?_, e5⟩
      · rw [List.map_cons, e2]
        show _ :: List.range' (rank (update_loop c.params_))
          (combinations (bounds (update_loop c.params_)) - rank (update_loop c.params_)) = _
        rw [u2, u3]
        have hlt' : rank (update_loop c.params_) < combinations (bounds c.params_) := by
          rw [← u2]
          exact hlt
        rw [u3] at hlt'
        have : combinations (bounds c.params_) - rank c.params_ =
            (combinations (bounds c.params_) - (rank c.params_ + 1)) + 1 := by omega
        rw [this, List.range'_succ]
      · intro s hs
        rcases List.mem_cons.1 hs with rfl | hs
        · exact ⟨h, rfl⟩
        · obtain ⟨a, b⟩ := e3 s hs
          exact ⟨a, b.trans u2⟩
      · cases states with
        | nil => simp at e4
        | cons s states => simpa [List.getLast?_cons_cons] using e4

theorem enumerate_head : ∀ (fuel : Nat) (c : tuning_config) (states : List tuning_config),
    enumerate fuel c = some states → ∀ k, k < states.length → states[k]? = some (updates k c)
  | 0, c, states, h => by
    unfold enumerate at h
    split_ifs at h
    cases h
    intro k hk
    simp only [List.length_singleton, Nat.lt_one_iff] at hk
    subst hk
    simp [updates]
  | fuel + 1, c, states, h => by
    unfold enumerate at h
    split_ifs at h with hn
    · cases he : enumerate fuel c.update with
      | none => rw [he] at h; simp at h
      | some t =>
        rw [he] at h
        simp only [Option.map_some', Option.some.injEq] at h
        subst h
        intro k hk
        cases k with
        | zero => simp [updates]
        | succ k =>
          simp only [List.length_cons, Nat.add_lt_add_iff_right] at hk
          simpa [updates] using enumerate_head fuel c.update t he k hk
    · cases h
      intro k hk
      simp only [List.length_singleton, Nat.lt_one_iff] at hk
      subst hk
      simp [updates]

theorem add_one_reset (params : params_t) (hinc : ∀ it ∈ params, it.2.inc_ = .add_one)
    (hmin : ∀ it ∈ params, it.2.min_max_.1 ≤ it.2.min_max_.2)
    (hmax : ∀ it ∈ params, it.2.min_max_.2 < 2 ^ 32 - 1) :
    AddOneParams (params.map (fun it => (it.1, it.2.reset))) ∧
      bounds (params.map (fun it => (it.1, it.2.reset))) = bounds params ∧
      rank (params.map (fun it => (it.1, it.2.reset))) = 0 := by
  induction params with
  | nil => exact ⟨fun _ h => by simp at h, rfl, rfl⟩
  | cons it rest ih =>
    obtain ⟨i1, i2, i3⟩ := ih (fun e he => hinc e (List.mem_cons_of_mem _ he))
      (fun e he => hmin e (List.mem_cons_of_mem _ he))
      (fun e he => hmax e (List.mem_cons_of_mem _ he))
    refine ⟨?_, ?_, ?_⟩
    · intro e he
      rw [List.map_cons] at he
      rcases List.mem_cons.1 he with rfl | he
      · exact ⟨hinc it (List.mem_cons_self _ _), le_refl _, hmin it (List.mem_cons_self _ _),
          hmax it (List.mem_cons_self _ _)⟩
      · exact i1 e he
    · simp only [bounds, List.map_cons] at i2 ⊢
      rw [i2]
      rfl
    · rw [List.map_cons, rank_cons, i3]
      simp [tuning_param.reset]

theorem skip_max_cycle (c : tuning_config)
    (h : c = skip_max_config ∨ c = skip_max_config.update) :
    c.has_next = true ∧ (c.update = skip_max_config ∨ c.update = skip_max_config.update) := by
  rcases h with rfl | rfl
  · exact ⟨by decide, Or.inr rfl⟩
  · exact ⟨by decide, Or.inl (by decide)⟩

theorem skip_max_updates : ∀ (n : Nat) (c : tuning_config),
    c = skip_max_config ∨ c = skip_max_config.update → (updates n c).has_next = true
  | 0, c, h => (skip_max_cycle c h).1
  | n + 1, c, h => skip_max_updates n c.update (skip_max_cycle c h).2

theorem skip_max_enumerate : ∀ (fuel : Nat) (c : tuning_config),
    c = skip_max_config ∨ c = skip_max_config.update → enumerate fuel c = none
  | 0, c, h => by simp [enumerate, (skip_max_cycle c h).1]
  | fuel + 1, c, h => by
    simp [enumerate, (skip_max_cycle c h).1, skip_max_enumerate fuel c.update (skip_max_cycle c h).2]

/-! ## The key-uniqueness loop and the order of ties -/

theorem unique_key_steps_spec {fuel : Nat} {temp_map : TemporarySortMap} {temp key : ℚ}
    (h : unique_key fuel temp_map temp = some key) :
    key = temp * (1000001 / 1000000) ^ unique_key_steps fuel temp_map temp ∧
      unique_key_steps fuel temp_map temp ≤ fuel ∧
      ∀ m, m < unique_key_steps fuel temp_map temp →
        temp * (1000001 / 1000000) ^ m ∈ StdMap.keys temp_map := by
  induction fuel generalizing temp with
  | zero =>
    unfold unique_key at h
    split at h
    · simp at h
    · simp only [Option.some.injEq] at h
      simp [unique_key_steps, h]
  | succ fuel ih =>
    unfold unique_key at h
    rw [unique_key_steps]
    split at h
    · rename_i hf
      rw [if_pos hf]
      obtain ⟨h1, h2, h3⟩ := ih h
      refine ⟨by rw [h1, pow_succ]; ring, by omega, ?_⟩
      intro m hm
      cases m with
      | zero =>
        rw [pow_zero, mul_one]
        by_contra hc
        rw [(StdMap.find_eq_none_iff temp_map temp).2 hc] at hf
        simp at hf
      | succ m =>
        have := h3 m (by omega)
        rw [pow_succ]
        have e : temp * ((1000001 / 1000000) ^ m * (1000001 / 1000000)) =
            temp * (1000001 / 1000000) * (1000001 / 1000000) ^ m := by ring
        rw [e]
        exact this
    · rename_i hf
      rw [if_neg hf]
      simp only [Option.some.injEq] at h
      simp [h]

theorem unique_key_fuel_mono {fuel : Nat} {temp_map : TemporarySortMap} {temp key : ℚ}
    (h : unique_key fuel temp_map temp = some key) :
    ∀ fuel', fuel ≤ fuel' → unique_key fuel' temp_map temp = some key ∧
      unique_key_steps fuel' temp_map temp = unique_key_steps fuel temp_map temp := by
  induction fuel generalizing temp with
  | zero =>
    intro fuel' _
    unfold unique_key at h
    split at h
    · simp at h
    · rename_i hf
      simp only [Option.some.injEq] at h
      have hn : StdMap.find temp_map temp = none := by simpa using hf
      subst h
      cases fuel' with
      | zero => simp [unique_key, unique_key_steps, hn]
      | succ g => simp [unique_key, unique_key_steps, hn]
  | succ fuel ih =>
    intro fuel' hle
    unfold unique_key at h
    split at h
    · rename_i hf
      cases fuel' with
      | zero => omega
      | succ g =>
        obtain ⟨i1, i2⟩ := ih h g (by omega)
        rw [unique_key, unique_key_steps, unique_key_steps, if_pos hf, if_pos hf, if_pos hf, i1,
          i2]
        exact ⟨rfl, rfl⟩
    · rename_i hf
      simp only [Option.some.injEq] at h
      have hn : StdMap.find temp_map temp = none := by simpa using hf
      subst h
      cases fuel' with
      | zero => omega
      | succ g => simp [unique_key, unique_key_steps, hn]

theorem assign_tie {fuel : Nat} {tm0 : TemporarySortMap} {k : Nat} {v key : ℚ}
    (hu : unique_key fuel tm0 (fabs v) = some key) (hz : fabs v ≠ 0)
    (hcols : ∀ c ∈ tm0, cand_col c < k) (hch : KeyChains tm0) (hto : TieOrder tm0) :
    KeyChains (StdMap.assign tm0 key (k, v)) ∧ TieOrder (StdMap.assign tm0 key (k, v)) := by
  obtain ⟨s1, _, s3⟩ := unique_key_steps_spec hu
  have hnone := unique_key_find hu
  have habsent : key ∉ StdMap.keys tm0 := (StdMap.find_eq_none_iff tm0 key).1 hnone
  have hpos : 0 < fabs v := lt_of_le_of_ne (fabs_nonneg v) (Ne.symm hz)
  constructor
  · intro c hc
    rcases StdMap.mem_assign hc with rfl | hc0
    · exact ⟨_, s1, fun a' ha' => (StdMap.mem_keys_assign _ _ _ _).2 (Or.inr (s3 a' ha'))⟩
    · obtain ⟨a, h1, h2⟩ := hch c hc0
      exact ⟨a, h1, fun a' ha' => (StdMap.mem_keys_assign _ _ _ _).2 (Or.inr (h2 a' ha'))⟩
  · intro c hc c' hc' hlt heq
    rcases StdMap.mem_assign hc with rfl | hc0
    · rcases StdMap.mem_assign hc' with rfl | hc0'
      · exact absurd hlt (lt_irrefl _)
      · have := hcols c' hc0'
        simp only [cand_col] at hlt this
        omega
    · rcases StdMap.mem_assign hc' with rfl | hc0'
      · obtain ⟨a, h1, h2⟩ := hch c hc0
        simp only at heq
        rw [heq] at h1 h2
        have hlt' : a < unique_key_steps fuel tm0 (fabs v) := by
          by_contra hge
          rcases Nat.lt_or_eq_of_le (not_lt.1 hge) with h3 | h3
          · exact habsent (s1 ▸ h2 _ h3)
          · apply habsent
            rw [s1, h3, ← h1]
            exact StdMap.mem_keys_of_mem hc0
        show c.1 < key
        rw [h1, s1]
        exact mul_lt_mul_of_pos_left (pow_lt_pow_right₀ (by norm_num) hlt') hpos
      · exact hto c hc0 c' hc0' hlt heq

theorem sort_pass_tie {i : Nat} {tau_i : ℚ} :
    ∀ (w : SparseVector) (tm0 tm : TemporarySortMap),
      sort_pass i tau_i w tm0 = .ok tm → StdMap.Ordered w →
      (∀ c ∈ tm0, ∀ e ∈ w, cand_col c < e.1) → KeyChains tm0 → TieOrder tm0 →
      KeyChains tm ∧ TieOrder tm := by
  intro w
  induction w with
  | nil =>
    intro tm0 tm h _ _ h1 h2
    simp only [sort_pass, Except.ok.injEq] at h
    exact h ▸ ⟨h1, h2⟩
  | cons hd tl ih =>
    intro tm0 tm h hw hcols h1 h2
    obtain ⟨k, v⟩ := hd
    obtain ⟨hk, htl⟩ := StdMap.ordered_cons.1 hw
    unfold sort_pass at h
    split at h
    · simp only at h
      split at h
      · simp at h
      · rename_i hz
        split at h
        · simp at h
        · rename_i key hu
          obtain ⟨a1, a2⟩ := assign_tie hu hz
            (fun c hc => hcols c hc (k, v) (List.mem_cons_self _ _)) h1 h2
          refine ih _ _ h htl ?_ a1 a2
          intro c hc e he
          rcases StdMap.mem_assign hc with rfl | hc0
          · exact hk e.1 (StdMap.mem_keys_of_mem he)
          · exact hcols c hc0 e (List.mem_cons_of_mem _ he)
    · exact ih _ _ h htl (fun c hc e he => hcols c hc e (List.mem_cons_of_mem _ he)) h1 h2

theorem two_mem_sublist {α : Type} {a b : α} : ∀ {l : List α}, a ∈ l → b ∈ l → a ≠ b →
    List.Sublist [a, b] l ∨ List.Sublist [b, a] l
  | [], ha, _, _ => by simp at ha
  | x :: tl, ha, hb, hne => by
    rcases List.mem_cons.1 ha with rfl | ha'
    · rcases List.mem_cons.1 hb with rfl | hb'
      · exact absurd rfl hne
      · exact Or.inl (List.Sublist.cons₂ _ (List.singleton_sublist.2 hb'))
    · rcases List.mem_cons.1 hb with rfl | hb'
      · exact Or.inr (List.Sublist.cons₂ _ (List.singleton_sublist.2 ha'))
      · rcases two_mem_sublist ha' hb' hne with h | h
        · exact Or.inl (List.Sublist.cons _ h)
        · exact Or.inr (List.Sublist.cons _ h)

theorem ordered_sublist {tm : TemporarySortMap} (ho : StdMap.Ordered tm) {c c' : ℚ × (Nat × ℚ)}
    (hc : c ∈ tm) (hc' : c' ∈ tm) (hlt : c.1 < c'.1) : List.Sublist [c', c] tm.reverse := by
  have hne : c ≠ c' := fun h => by rw [h] at hlt; exact lt_irrefl _ hlt
  have hpw : tm.Pairwise (fun x y => x.1 < y.1) := by
    unfold StdMap.Ordered StdMap.keys at ho
    exact List.pairwise_map.1 ho
  rcases two_mem_sublist hc hc' hne with h | h
  · have := h.reverse
    simpa using this
  · have := List.pairwise_iff_forall_sublist.1 hpw h
    exact absurd this (not_lt.2 (le_of_lt hlt))

theorem eliminate_visits_pivot {i : Nat} {tau_i : ℚ} :
    ∀ (fuel lo : Nat) (w : SparseVector) (output : Output),
      ∀ k ∈ eliminate_visits i tau_i fuel lo w output,
        SparseVector.val (row_at output k) k ≠ 0 := by
  intro fuel
  induction fuel with
  | zero =>
    intro lo w output k hk
    rw [eliminate_visits_zero] at hk
    simp at hk
  | succ fuel ih =>
    intro lo w output x hx
    cases hlb : StdMap.lower_bound w lo with
    | none =>
      rw [eliminate_visits_stop (Or.inl hlb)] at hx
      simp at hx
    | some p =>
      obtain ⟨k, w_k⟩ := p
      by_cases hk : k < i
      · rw [eliminate_visits_step hlb hk] at hx
        cases hb : elim_body tau_i k w_k w output with
        | error e =>
          rw [hb] at hx
          simp at hx
        | ok q =>
          obtain ⟨w1, out1⟩ := q
          rw [hb] at hx
          simp only at hx
          obtain ⟨e1, e2, _⟩ := elim_body_ok hb
          rcases List.mem_cons.1 hx with rfl | hx'
          · exact e2
          · rw [e1] at hx'
            exact ih _ _ _ x hx'
      · rw [eliminate_visits_stop (Or.inr ⟨k, w_k, hlb, not_lt.1 hk⟩)] at hx
        simp at hx

theorem row_at_length_le {out : Output} {r : Nat} (h : out.length ≤ r) : row_at out r = [] := by
  unfold row_at
  exact List.getD_eq_default _ _ h

/-! ## The claims -/

/-- C1 (sparsity budget): when `precondition` completes on an output of `n` initially empty
rows, the input has `n` rows and every row `i` of the factor stores at most `entries_per_row`
entries with column below `i` and at most `entries_per_row` entries with column above `i`;
each of the two counts is bounded on its own. -/
theorem sparsity_budget (sqrt : ℚ → ℚ) (A : SparseMatrix) (tag : ilut_tag) (n : Nat)
    (out : Output) (h : precondition sqrt A (empty_output n) tag = .ok out) :
    A.size1 = n ∧ ∀ i, i < n →
      count_L i (row_at out i) ≤ tag.get_entries_per_row ∧
      count_U i (row_at out i) ≤ tag.get_entries_per_row := by
  obtain ⟨hn, _, hrows⟩ := precondition_ok_rows h
  refine ⟨hn, ?_⟩
  intro i hi
  obtain ⟨out_r, w, tm, _, _, _, _, hrow⟩ := hrows i hi
  rw [hrow]
  exact write_pass_budget i tag.get_entries_per_row tm

/-- Witness of C1: the factorisation of `cancel_matrix` with a budget of one entry per part
completes. -/
theorem sparsity_budget_witness :
    precondition rat_sqrt cancel_matrix (empty_output 4) (ilut_tag.ctor 1 (1 / 10)) =
        .ok [[(0, 1), (3, 2)], [(0, 1), (1, 4), (2, 2)], [(2, 1)], [(3, 1)]] ∧
      (cancel_matrix.size1 = 4 ∧ ∀ i, i < 4 →
        count_L i (row_at [[(0, 1), (3, 2)], [(0, 1), (1, 4), (2, 2)], [(2, 1)], [(3, 1)]] i) ≤
          (ilut_tag.ctor 1 (1 / 10)).get_entries_per_row ∧
        count_U i (row_at [[(0, 1), (3, 2)], [(0, 1), (1, 4), (2, 2)], [(2, 1)], [(3, 1)]] i) ≤
          (ilut_tag.ctor 1 (1 / 10)).get_entries_per_row) :=
  ⟨by decide!, sparsity_budget rat_sqrt cancel_matrix (ilut_tag.ctor 1 (1 / 10)) 4 _ (by decide!)⟩

/-- C2 (diagonal preservation), the code at the failing input: for the matrix `[[1,0],[0,0]]`
and the default tag, with whatever square root, `precondition` returns normally and row 1 of
the returned factor stores no entry at column 1. -/
theorem diagonal_missing_on_return (sqrt : ℚ → ℚ) :
    precondition sqrt rank_one_matrix (empty_output 2) ilut_tag.ctor_default =
        .ok [[(0, 1)], []] ∧
      StdMap.find (row_at [[(0, 1)], []] 1) 1 = none := by
  refine ⟨?_, by decide⟩
  norm_num [precondition, rank_one_matrix, SparseMatrix.size1, empty_output, row_loop,
    List.range, List.range.loop, process_row, setup_w, setup_w_stl, eliminate,
    StdMap.lower_bound, finalize_row, sort_pass, unique_key, StdMap.find, write_pass,
    write_body, StdMap.assign, row_at, fabs]
  rfl

/-- C3 (exactness at zero tolerance): for every `n × n` sparse matrix `A` in valid storage
(pairwise distinct column indices below `n` in every row), with `drop_tolerance = 0` and
`entries_per_row = n`, when `precondition` completes on `n` empty rows, the unit lower
triangular `L` (stored entries with column < row) and the upper triangular `U` (stored entries
with column ≥ row) of the output satisfy `(L * U)[i][j] = A[i][j]` for every row `i < n` and
every column `j`, absent entries counting as zero. -/
theorem exact_at_zero_tolerance (sqrt : ℚ → ℚ) (A : SparseMatrix) (tag : ilut_tag) (n : Nat)
    (out : Output) (hA : A.Valid) (hsq : A.Square n) (htol : tag.get_drop_tolerance = 0)
    (hepr : tag.get_entries_per_row = n)
    (h : precondition sqrt A (empty_output n) tag = .ok out) :
    ∀ i, i < n → ∀ j,
      ∑ k in Finset.range n, L_entry out i k * U_entry out k j = A.entry i j := by
  obtain ⟨_, _, hrows⟩ := precondition_ok_rows h
  intro i hi j
  rw [product_eq_residual out hi j]
  exact (exact_rows hA hsq htol hepr hrows i hi).2.2 j

/-- Witness of C3: the tridiagonal matrix of the concrete scenario, in per-row-map storage. -/
theorem exact_at_zero_tolerance_witness :
    (tridiag_stl.Valid ∧ tridiag_stl.Square 3 ∧ (ilut_tag.ctor 3 0).get_drop_tolerance = 0 ∧
      (ilut_tag.ctor 3 0).get_entries_per_row = 3 ∧
      precondition rat_sqrt tridiag_stl (empty_output 3) (ilut_tag.ctor 3 0) =
        .ok [[(0, 4), (1, 1)], [(0, 1 / 4), (1, 11 / 4), (2, 1)], [(1, 4 / 11), (2, 18 / 11)]]) ∧
    ∀ i, i < 3 → ∀ j,
      ∑ k in Finset.range 3,
        L_entry [[(0, 4), (1, 1)], [(0, 1 / 4), (1, 11 / 4), (2, 1)], [(1, 4 / 11), (2, 18 / 11)]]
          i k *
        U_entry [[(0, 4), (1, 1)], [(0, 1 / 4), (1, 11 / 4), (2, 1)], [(1, 4 / 11), (2, 18 / 11)]]
          k j = tridiag_stl.entry i j :=
  ⟨⟨by decide, tridiag_stl_square, rfl, rfl, by decide!⟩,
    exact_at_zero_tolerance rat_sqrt tridiag_stl (ilut_tag.ctor 3 0) 3 _ (by decide)
      tridiag_stl_square rfl rfl (by decide!)⟩

/-- C4 (concrete scenario): for `[[4,1,0],[1,3,1],[0,1,2]]`, in either storage, with
`drop_tolerance = 0` and `entries_per_row = 3`, `precondition` completes on three empty rows
and the diagonal entries of the factor are exactly `4`, `11/4` and `18/11`. -/
theorem concrete_scenario (sqrt : ℚ → ℚ) (A : SparseMatrix)
    (hA : A = tridiag_stl ∨ A = tridiag_csr) :
    ∃ out, precondition sqrt A (empty_output 3) (ilut_tag.ctor 3 0) = .ok out ∧
      StdMap.find (row_at out 0) 0 = some 4 ∧
      StdMap.find (row_at out 1) 1 = some (11 / 4) ∧
      StdMap.find (row_at out 2) 2 = some (18 / 11) := by
  refine ⟨[[(0, 4), (1, 1)], [(0, 1 / 4), (1, 11 / 4), (2, 1)], [(1, 4 / 11), (2, 18 / 11)]],
    ?_, by decide!, by decide!, by decide!⟩
  rw [precondition_tol_zero sqrt (fun _ => 0) A (ilut_tag.ctor 3 0) rfl]
  rcases hA with hA | hA <;> subst hA <;> decide!

/-- Witness of C4: the scenario in the per-row-map storage, with `rat_sqrt`. -/
theorem concrete_scenario_witness :
    (tridiag_stl = tridiag_stl ∨ tridiag_stl = tridiag_csr) ∧
      ∃ out, precondition rat_sqrt tridiag_stl (empty_output 3) (ilut_tag.ctor 3 0) = .ok out ∧
        StdMap.find (row_at out 0) 0 = some 4 ∧
        StdMap.find (row_at out 1) 1 = some (11 / 4) ∧
        StdMap.find (row_at out 2) 2 = some (18 / 11) :=
  ⟨Or.inl rfl, concrete_scenario rat_sqrt tridiag_stl (Or.inl rfl)⟩

/-- C5 (threshold dropping): when `precondition` completes on an output of `n` initially empty
rows, every stored entry `(j, v)` of row `i` of the factor with `j ≠ i` has `|v|` strictly
greater than `tau_i = drop_tolerance * (Euclidean norm of row i of A)`. -/
theorem threshold_dropping (sqrt : ℚ → ℚ) (A : SparseMatrix) (tag : ilut_tag) (n : Nat)
    (out : Output) (h : precondition sqrt A (empty_output n) tag = .ok out) :
    ∀ i, i < n → ∀ j v, (j, v) ∈ row_at out i → j ≠ i →
      |v| > tag.get_drop_tolerance * euclidean_norm sqrt (A.row_entries i) := by
  obtain ⟨_, _, hrows⟩ := precondition_ok_rows h
  intro i hi j v hmem hji
  obtain ⟨out_r, w, tm, _, _, _, hsort, hrow⟩ := hrows i hi
  rw [hrow] at hmem
  obtain ⟨c, hc, hx⟩ := write_pass_mem hmem
  rcases sort_pass_mem w [] tm hsort c hc with h0 | ⟨_, hs, _⟩
  · simp at h0
  · rw [← hx] at hs
    simp only [survives, Bool.or_eq_true, decide_eq_true_eq] at hs
    rcases hs with hs | hs
    · rw [← tau_eq, ← fabs_eq_abs]
      exact hs
    · exact absurd hs hji

/-- Witness of C5: the factorisation of `cancel_matrix` with tolerance `1/10` completes. -/
theorem threshold_dropping_witness :
    precondition rat_sqrt cancel_matrix (empty_output 4) (ilut_tag.ctor 20 (1 / 10)) =
        .ok [[(0, 1), (2, 2), (3, 2)], [(0, 1), (1, 4)], [(2, 1)], [(3, 1)]] ∧
      ∀ i, i < 4 → ∀ j v,
        (j, v) ∈ row_at [[(0, 1), (2, 2), (3, 2)], [(0, 1), (1, 4)], [(2, 1)], [(3, 1)]] i →
        j ≠ i →
        |v| > (ilut_tag.ctor 20 (1 / 10)).get_drop_tolerance *
          euclidean_norm rat_sqrt (cancel_matrix.row_entries i) :=
  ⟨by decide!, threshold_dropping rat_sqrt cancel_matrix (ilut_tag.ctor 20 (1 / 10)) 4 _
    (by decide!)⟩

/-- C6 (top-k selection by magnitude), counterexample: in row 0 of `near_tie_matrix`, with
`drop_tolerance = 0` and `entries_per_row = 1`, the working row is `{0: 1, 1: 1, 2: 1,
3: 1.0000005}` (no elimination takes place in row 0).  The entry at column 2 (magnitude 1) is
written to the U part and the surviving entry at column 3 is left out although its
magnitude `1.0000005` is strictly larger: the key of column 2 was raised twice, to
`1.000002000001`. -/
theorem top_k_not_by_magnitude :
    precondition rat_sqrt near_tie_matrix (empty_output 4) (ilut_tag.ctor 1 0) =
        .ok [[(0, 1), (2, 1)], [(1, 1)], [(2, 1)], [(3, 1)]] ∧
      eliminate 0 0 0 0 [(0, 1), (1, 1), (2, 1), (3, 2000001 / 2000000)] (empty_output 4) =
        .ok ([(0, 1), (1, 1), (2, 1), (3, 2000001 / 2000000)], empty_output 4) ∧
      finalize_row 0 0 1 [(0, 1), (1, 1), (2, 1), (3, 2000001 / 2000000)] [] =
        .ok [(0, 1), (2, 1)] ∧
      survives 0 0 (2, 1) = true ∧ survives 0 0 (3, 2000001 / 2000000) = true ∧
      (0 < 2 ∧ 0 < 3) ∧
      (2, (1 : ℚ)) ∈ ([(0, 1), (2, 1)] : SparseVector) ∧
      3 ∉ StdMap.keys ([(0, 1), (2, 1)] : SparseVector) ∧
      |(1 : ℚ)| < |(2000001 / 2000000 : ℚ)| := by
  refine ⟨?_, by decide!, by decide!, by decide!, by decide!, by decide, by decide!, by decide,
    by norm_num [abs_of_pos]⟩
  rw [precondition_tol_zero rat_sqrt (fun _ => 0) near_tie_matrix (ilut_tag.ctor 1 0) rfl]
  decide!

/-- C6 as amended: the finalisation ranks the surviving entries by their sort key, which is
the magnitude multiplied by `1.000001` once for every key collision met at insertion.  Every
surviving entry of `w` is a candidate of the sort map under such a key; of two candidates in
the same part (both columns below `i`, or both above), one that is written has a strictly
larger sort key than one that is left out; and when the surviving entries of `w` have pairwise
distinct magnitudes, a written entry has a strictly larger magnitude than a surviving entry of
the same part that is left out. -/
theorem top_k_by_sort_key (i entries_per_row : Nat) (tau_i : ℚ) (w row : SparseVector)
    (hw : StdMap.Ordered w) (h : finalize_row i tau_i entries_per_row w [] = .ok row) :
    ∃ tm : TemporarySortMap, sort_pass i tau_i w [] = .ok tm ∧
      row = write_pass i entries_per_row tm [] ∧
      (∀ e ∈ w, survives i tau_i e = true →
        ∃ (key : ℚ) (m : Nat), (key, e) ∈ tm ∧ key = |e.2| * (1000001 / 1000000) ^ m) ∧
      (∀ c ∈ tm, ∀ c' ∈ tm,
        (cand_col c < i ∧ cand_col c' < i) ∨ (i < cand_col c ∧ i < cand_col c') →
        cand_col c ∈ StdMap.keys row → cand_col c' ∉ StdMap.keys row → c'.1 < c.1) ∧
      ((∀ e ∈ w, ∀ e' ∈ w, survives i tau_i e = true → survives i tau_i e' = true →
          |e.2| = |e'.2| → e = e') →
        ∀ e ∈ w, ∀ e' ∈ w, survives i tau_i e = true → survives i tau_i e' = true →
          (e.1 < i ∧ e'.1 < i) ∨ (i < e.1 ∧ i < e'.1) →
          e.1 ∈ StdMap.keys row → e'.1 ∉ StdMap.keys row → |e'.2| < |e.2|) := by
  unfold finalize_row at h
  split at h
  · simp at h
  · rename_i tm hs
    simp only [Except.ok.injEq] at h
    have ho := sort_pass_ordered w [] tm hs StdMap.ordered_nil
    have hnd := sort_pass_cols_nodup hw hs
    refine ⟨tm, hs, h.symm, ?_, ?_, ?_⟩
    · intro e he hsv
      obtain ⟨key, hk⟩ := sort_pass_mem_of_survives hs he hsv
      rcases sort_pass_key_pow w [] tm hs _ hk with h0 | ⟨m, hm⟩
      · simp at h0
      · exact ⟨key, m, hk, by rw [← fabs_eq_abs]; exact hm⟩
    · intro c hc c' hc' hpart hin hout
      rw [← h] at hin hout
      exact write_pass_by_key ho hnd hc hc' hpart hin hout
    · intro hdist e he e' he' hsv hsv' hpart hin hout
      have hpw : (w.filter (survives i tau_i)).Pairwise (fun e e' => fabs e.2 ≠ fabs e'.2) := by
        have hnodup : (w.filter (survives i tau_i)).Nodup :=
          (List.Nodup.of_map Prod.fst hw.nodup).filter _
        refine List.Pairwise.imp_of_mem ?_ hnodup
        intro a b ha hb hab heq
        rw [fabs_eq_abs, fabs_eq_abs] at heq
        exact hab (hdist a (List.mem_filter.1 ha).1 b (List.mem_filter.1 hb).1
          (List.mem_filter.1 ha).2 (List.mem_filter.1 hb).2 heq)
      have hexact := sort_pass_key_exact w [] tm hs hpw (fun _ _ _ hm => by simp [StdMap.keys] at hm)
        (fun c hc => by simp at hc)
      obtain ⟨key, hk⟩ := sort_pass_mem_of_survives hs he hsv
      obtain ⟨key', hk'⟩ := sort_pass_mem_of_survives hs he' hsv'
      have e1 := hexact _ hk
      have e2 := hexact _ hk'
      simp only at e1 e2
      rw [← h] at hin hout
      have := write_pass_by_key ho hnd hk hk' hpart hin hout
      simp only at this
      rw [e1, e2, fabs_eq_abs, fabs_eq_abs] at this
      exact this

/-- Witness of C6 as amended: row 1 with budget one and the working row
`{0: 1, 1: 4, 2: 2, 3: 3}`. -/
theorem top_k_by_sort_key_witness :
    (StdMap.Ordered ([(0, 1), (1, 4), (2, 2), (3, 3)] : SparseVector) ∧
      finalize_row 1 (1 / 2) 1 [(0, 1), (1, 4), (2, 2), (3, 3)] [] =
        .ok [(0, 1), (1, 4), (3, 3)]) ∧
    ∃ tm : TemporarySortMap,
      sort_pass 1 (1 / 2) [(0, 1), (1, 4), (2, 2), (3, 3)] [] = .ok tm ∧
      ([(0, 1), (1, 4), (3, 3)] : SparseVector) = write_pass 1 1 tm [] ∧
      (∀ e ∈ ([(0, 1), (1, 4), (2, 2), (3, 3)] : SparseVector), survives 1 (1 / 2) e = true →
        ∃ (key : ℚ) (m : Nat), (key, e) ∈ tm ∧ key = |e.2| * (1000001 / 1000000) ^ m) ∧
      (∀ c ∈ tm, ∀ c' ∈ tm,
        (cand_col c < 1 ∧ cand_col c' < 1) ∨ (1 < cand_col c ∧ 1 < cand_col c') →
        cand_col c ∈ StdMap.keys ([(0, 1), (1, 4), (3, 3)] : SparseVector) →
        cand_col c' ∉ StdMap.keys ([(0, 1), (1, 4), (3, 3)] : SparseVector) → c'.1 < c.1) ∧
      ((∀ e ∈ ([(0, 1), (1, 4), (2, 2), (3, 3)] : SparseVector),
          ∀ e' ∈ ([(0, 1), (1, 4), (2, 2), (3, 3)] : SparseVector),
          survives 1 (1 / 2) e = true → survives 1 (1 / 2) e' = true →
          |e.2| = |e'.2| → e = e') →
        ∀ e ∈ ([(0, 1), (1, 4), (2, 2), (3, 3)] : SparseVector),
          ∀ e' ∈ ([(0, 1), (1, 4), (2, 2), (3, 3)] : SparseVector),
          survives 1 (1 / 2) e = true → survives 1 (1 / 2) e' = true →
          (e.1 < 1 ∧ e'.1 < 1) ∨ (1 < e.1 ∧ 1 < e'.1) →
          e.1 ∈ StdMap.keys ([(0, 1), (1, 4), (3, 3)] : SparseVector) →
          e'.1 ∉ StdMap.keys ([(0, 1), (1, 4), (3, 3)] : SparseVector) → |e'.2| < |e.2|) :=
  ⟨⟨by decide, by decide!⟩,
    top_k_by_sort_key 1 1 (1 / 2) [(0, 1), (1, 4), (2, 2), (3, 3)] [(0, 1), (1, 4), (3, 3)]
      (by decide) (by decide!)⟩

/-- C7 (the diagonal is written unconditionally): for every row index `i`, budget
`entries_per_row` (zero included) and threshold `tau_i`, if the post-elimination working row
`w` holds the non-zero value `v` at column `i` and the finalisation of the row completes, then
the finalized row stores `v` at column `i`; and the diagonal takes nothing from either budget:
the L part holds `min entries_per_row (number of entries of w with column < i and
magnitude > tau_i)` entries, and likewise the U part. -/
theorem diagonal_written (i entries_per_row : Nat) (tau_i : ℚ) (w row : SparseVector) (v : ℚ)
    (hw : StdMap.Ordered w) (hv : StdMap.find w i = some v) (hne : v ≠ 0)
    (h : finalize_row i tau_i entries_per_row w [] = .ok row) :
    StdMap.find row i = some v ∧ v ≠ 0 ∧
      count_L i row =
        min entries_per_row (w.countP (fun e => decide (e.1 < i) && decide (|e.2| > tau_i))) ∧
      count_U i row =
        min entries_per_row (w.countP (fun e => decide (i < e.1) && decide (|e.2| > tau_i))) := by
  obtain ⟨hL, hU, _⟩ := finalize_counts hw h
  refine ⟨finalize_diagonal hw hv h, hne, ?_, ?_⟩
  · rw [hL]
    congr 1
    apply List.countP_congr
    intro e _
    by_cases h1 : e.1 < i
    · have h2 : e.1 ≠ i := by omega
      simp [survives, h1, h2, fabs_eq_abs]
    · simp [h1]
  · rw [hU]
    congr 1
    apply List.countP_congr
    intro e _
    by_cases h1 : i < e.1
    · have h2 : e.1 ≠ i := by omega
      simp [survives, h1, h2, fabs_eq_abs]
    · simp [h1]

/-- Witness of C7: row 1 with budget zero and a threshold far above the diagonal value. -/
theorem diagonal_written_witness :
    (StdMap.Ordered ([(0, 1), (1, 1 / 100), (2, 3)] : SparseVector) ∧
      StdMap.find ([(0, 1), (1, 1 / 100), (2, 3)] : SparseVector) 1 = some (1 / 100) ∧
      (1 / 100 : ℚ) ≠ 0 ∧
      finalize_row 1 5 0 [(0, 1), (1, 1 / 100), (2, 3)] [] = .ok [(1, 1 / 100)]) ∧
    (StdMap.find ([(1, 1 / 100)] : SparseVector) 1 = some (1 / 100) ∧ (1 / 100 : ℚ) ≠ 0 ∧
      count_L 1 [(1, 1 / 100)] =
        min 0 (([(0, 1), (1, 1 / 100), (2, 3)] : SparseVector).countP
          (fun e => decide (e.1 < 1) && decide (|e.2| > 5))) ∧
      count_U 1 [(1, 1 / 100)] =
        min 0 (([(0, 1), (1, 1 / 100), (2, 3)] : SparseVector).countP
          (fun e => decide (1 < e.1) && decide (|e.2| > 5)))) :=
  ⟨⟨by decide, by decide!, by decide!, by decide!⟩,
    diagonal_written 1 0 5 [(0, 1), (1, 1 / 100), (2, 3)] [(1, 1 / 100)] (1 / 100)
      (by decide) (by decide!) (by decide!) (by decide!)⟩

/-- C8 (monotonic threshold scaling), counterexample: for `cancel_matrix` with
`entries_per_row = 20`, both factorisations complete, and the factor for the tolerance `3/10`
stores 8 entries while the factor for the smaller tolerance `1/10` stores 7.  (With `1/10` the
multiplier of row 1 passes the test of line 169 and the update cancels two entries of the row;
with `3/10` it does not, and both entries are stored.) -/
theorem threshold_not_monotone :
    (0 : ℚ) < 1 / 10 ∧ (1 / 10 : ℚ) ≤ 3 / 10 ∧
      precondition rat_sqrt cancel_matrix (empty_output 4) (ilut_tag.ctor 20 (1 / 10)) =
        .ok [[(0, 1), (2, 2), (3, 2)], [(0, 1), (1, 4)], [(2, 1)], [(3, 1)]] ∧
      precondition rat_sqrt cancel_matrix (empty_output 4) (ilut_tag.ctor 20 (3 / 10)) =
        .ok [[(0, 1), (2, 2), (3, 2)], [(1, 4), (2, 2), (3, 2)], [(2, 1)], [(3, 1)]] ∧
      ¬ (stored_entries [[(0, 1), (2, 2), (3, 2)], [(1, 4), (2, 2), (3, 2)], [(2, 1)], [(3, 1)]] ≤
        stored_entries [[(0, 1), (2, 2), (3, 2)], [(0, 1), (1, 4)], [(2, 1)], [(3, 1)]]) ∧
      (∀ i, i < 4 → rat_sqrt ((cancel_matrix.row_entries i).map (fun e => e.2 * e.2)).sum *
          rat_sqrt ((cancel_matrix.row_entries i).map (fun e => e.2 * e.2)).sum =
        ((cancel_matrix.row_entries i).map (fun e => e.2 * e.2)).sum) := by
  refine ⟨by norm_num, by norm_num, by decide!, by decide!, by decide, ?_⟩
  intro i hi
  interval_cases i <;> decide!

/-- C8 as amended: for one and the same post-elimination working row, a larger threshold
never makes the finalized row longer. -/
theorem threshold_monotone_row (i entries_per_row : Nat) (tau_1 tau_2 : ℚ)
    (w row_1 row_2 : SparseVector) (hw : StdMap.Ordered w) (ht : tau_1 ≤ tau_2)
    (h1 : finalize_row i tau_1 entries_per_row w [] = .ok row_1)
    (h2 : finalize_row i tau_2 entries_per_row w [] = .ok row_2) :
    row_2.length ≤ row_1.length := by
  obtain ⟨a1, a2, a3⟩ := finalize_counts hw h1
  obtain ⟨b1, b2, b3⟩ := finalize_counts hw h2
  have hmono : ∀ p : Nat → Bool,
      w.countP (fun e => p e.1 && survives i tau_2 e) ≤
        w.countP (fun e => p e.1 && survives i tau_1 e) := by
    intro p
    apply List.countP_mono_left
    intro e _ he
    simp only [survives, Bool.and_eq_true, Bool.or_eq_true, decide_eq_true_eq] at he ⊢
    refine ⟨he.1, ?_⟩
    rcases he.2 with h | h
    · exact Or.inl (lt_of_le_of_lt ht h)
    · exact Or.inr h
  have hD : w.countP (fun e => decide (e.1 = i) && survives i tau_2 e) =
      w.countP (fun e => decide (e.1 = i) && survives i tau_1 e) := by
    apply List.countP_congr
    intro e _
    by_cases h : e.1 = i <;> simp [survives, h]
  have hL := hmono (fun k => decide (k < i))
  have hU := hmono (fun k => decide (i < k))
  rw [a3, b3, a1, a2, b1, b2, hD]
  have e1 := min_le_min_left entries_per_row hL
  have e2 := min_le_min_left entries_per_row hU
  omega

/-- Witness of C8 as amended: row 1 of `cancel_matrix` before elimination, thresholds `1/2`
and `3/2`. -/
theorem threshold_monotone_row_witness :
    (StdMap.Ordered ([(0, 1), (1, 4), (2, 2), (3, 2)] : SparseVector) ∧ (1 / 2 : ℚ) ≤ 3 / 2 ∧
      finalize_row 1 (1 / 2) 20 [(0, 1), (1, 4), (2, 2), (3, 2)] [] =
        .ok [(0, 1), (1, 4), (2, 2), (3, 2)] ∧
      finalize_row 1 (3 / 2) 20 [(0, 1), (1, 4), (2, 2), (3, 2)] [] =
        .ok [(1, 4), (2, 2), (3, 2)]) ∧
    ([(1, 4), (2, 2), (3, 2)] : SparseVector).length ≤
      ([(0, 1), (1, 4), (2, 2), (3, 2)] : SparseVector).length :=
  ⟨⟨by decide, by decide!, by decide!, by decide!⟩,
    threshold_monotone_row 1 20 (1 / 2) (3 / 2) [(0, 1), (1, 4), (2, 2), (3, 2)] _ _
      (by decide) (by decide!) (by decide!) (by decide!)⟩

/-- C9 (zero-pivot error): when the elimination scan of row `i` stands at the entry `(k, w_k)`
of the working row, `k < i`, then (a) if the pivot `output[k][k]` is zero or not stored, the
loop stops with the zero-diagonal error, and no quotient is formed; (b) otherwise the pivot is
non-zero, the loop body returns a working row whose entry at `k` is `w_k / output[k][k]`,
leaves `output` as it was, and the scan goes on behind `k`; (c) an error of the elimination
loop of row `i` is the result of the row and of the whole row loop. -/
theorem zero_pivot_error (i : Nat) (tau_i : ℚ) (fuel lo : Nat) (w : SparseVector)
    (output : Output) (k : Nat) (w_k : ℚ)
    (hlb : StdMap.lower_bound w lo = some (k, w_k)) (hk : k < i) :
    (SparseVector.val (row_at output k) k = 0 →
      ∃ out', eliminate i tau_i (fuel + 1) lo w output = .error (.zero_diagonal, out')) ∧
    (SparseVector.val (row_at output k) k ≠ 0 →
      ∃ w', elim_body tau_i k w_k w output = .ok (w', output) ∧
        StdMap.find w' k = some (w_k / SparseVector.val (row_at output k) k) ∧
        eliminate i tau_i (fuel + 1) lo w output = eliminate i tau_i fuel (k + 1) w' output) ∧
    (∀ (sqrt : ℚ → ℚ) (A : SparseMatrix) (tag : ilut_tag) (e : IlutError × Output),
      eliminate i (tau sqrt A tag i) i 0 (setup_w sqrt A i []).2 output = .error e →
      process_row sqrt A tag output i = .error e ∧
        ∀ rest, row_loop sqrt A tag (i :: rest) output = .error e) := by
  refine ⟨?_, ?_, ?_⟩
  · intro ha
    rw [eliminate_step hlb hk, elim_body_zero ha]
    exact ⟨_, rfl⟩
  · intro ha
    refine ⟨_, elim_body_nonzero ha, ?_, ?_⟩
    · rw [elim_step_w_find_le _ _ _ _ _ _ _ (le_refl k), if_pos rfl]
    · rw [eliminate_step hlb hk, elim_body_nonzero ha]
  · intro sqrt A tag e he
    have hp : process_row sqrt A tag output i = .error e := by
      rw [process_row_eq, he]
    exact ⟨hp, fun rest => row_loop_error hp rest⟩

/-- Witness of C9: row 1, working row `{0: 1, 1: 1}`, pivot `output[0][0] = 2`. -/
theorem zero_pivot_error_witness :
    (StdMap.lower_bound ([(0, 1), (1, 1)] : SparseVector) 0 = some (0, 1) ∧ 0 < 1) ∧
    (SparseVector.val (row_at [[(0, 2)], []] 0) 0 ≠ 0 →
      ∃ w', elim_body 0 0 1 [(0, 1), (1, 1)] [[(0, 2)], []] = .ok (w', [[(0, 2)], []]) ∧
        StdMap.find w' 0 = some (1 / SparseVector.val (row_at [[(0, 2)], []] 0) 0) ∧
        eliminate 1 0 (0 + 1) 0 [(0, 1), (1, 1)] [[(0, 2)], []] =
          eliminate 1 0 0 (0 + 1) w' [[(0, 2)], []]) :=
  ⟨⟨by decide!, by decide⟩,
    (zero_pivot_error 1 0 0 0 [(0, 1), (1, 1)] [[(0, 2)], []] 0 1 (by decide!) (by decide)).2.1⟩

/-- C10 (singular-factor error): for a non-negative square root and a non-negative drop
tolerance, once the elimination of row `i` has completed with working row `w`, the row raises
the singular-factor error exactly when `w` stores the value zero at column `i` (so never on
account of an off-diagonal entry), and the error is then the result of the row loop.  For
`[[1,1],[1,1]]`, whose elimination leaves an exact zero on the diagonal of row 1,
`precondition` fails with that error for every tag with `drop_tolerance * sqrt 2 < 1` and
`entries_per_row ≥ 1` (the default tag among them). -/
theorem singular_factor_error (sqrt : ℚ → ℚ) (A : SparseMatrix) (tag : ilut_tag)
    (output out' : Output) (i : Nat) (w : SparseVector)
    (hsqrt : ∀ x, 0 ≤ sqrt x) (htol : 0 ≤ tag.get_drop_tolerance) (hA : A.Valid)
    (he : eliminate i (tau sqrt A tag i) i 0 (setup_w sqrt A i []).2 output = .ok (w, out')) :
    ((∃ o, process_row sqrt A tag output i = .error (.singular_factor, o)) ↔
      StdMap.find w i = some 0) ∧
    (StdMap.find w i = some 0 →
      ∀ rest, row_loop sqrt A tag (i :: rest) output = .error (.singular_factor, out')) ∧
    (∀ tag' : ilut_tag, tag'.get_drop_tolerance * sqrt 2 < 1 → 1 ≤ tag'.get_entries_per_row →
      precondition sqrt ones_matrix (empty_output 2) tag' =
        .error (.singular_factor, [[(0, 1), (1, 1)], []])) := by
  have htau : 0 ≤ tau sqrt A tag i := by
    rw [tau_eq]
    exact mul_nonneg htol (hsqrt _)
  have hw : StdMap.Ordered w :=
    eliminate_ordered _ _ _ _ _ _ he (setup_w_ordered sqrt hA i)
  have hiff := @finalize_row_singular_iff i tag.get_entries_per_row _ htau w hw (row_at out' i)
  have hp : process_row sqrt A tag output i =
      match finalize_row i (tau sqrt A tag i) tag.get_entries_per_row w (row_at out' i) with
      | .error e => .error (e, out')
      | .ok row_i => .ok (out'.set i row_i) := by
    rw [process_row_eq, he]
  refine ⟨⟨?_, ?_⟩, ?_, fun tag' h1 h2 => ones_precondition sqrt tag' h1 h2⟩
  · rintro ⟨o, ho⟩
    rw [hp] at ho
    apply hiff.1
    split at ho
    · rename_i e hf
      simp only [Except.error.injEq, Prod.mk.injEq] at ho
      rw [hf, ho.1]
    · simp at ho
  · intro hz
    rw [hp, hiff.2 hz]
    exact ⟨out', rfl⟩
  · intro hz rest
    apply row_loop_error
    rw [hp, hiff.2 hz]

/-- Witness of C10: row 1 of `[[1,1],[1,1]]` with the default tag, after row 0 was stored. -/
theorem singular_factor_error_witness :
    ((∀ x, 0 ≤ rat_sqrt x) ∧ 0 ≤ ilut_tag.ctor_default.get_drop_tolerance ∧
      ones_matrix.Valid ∧
      eliminate 1 (tau rat_sqrt ones_matrix ilut_tag.ctor_default 1) 1 0
        (setup_w rat_sqrt ones_matrix 1 []).2 [[(0, 1), (1, 1)], []] =
        .ok ([(0, 1), (1, 0)], [[(0, 1), (1, 1)], []])) ∧
    ((∃ o, process_row rat_sqrt ones_matrix ilut_tag.ctor_default [[(0, 1), (1, 1)], []] 1 =
        .error (.singular_factor, o)) ↔
      StdMap.find ([(0, 1), (1, 0)] : SparseVector) 1 = some 0) :=
  ⟨⟨rat_sqrt_nonneg, by decide!, by decide, by decide!⟩,
    (singular_factor_error rat_sqrt ones_matrix ilut_tag.ctor_default [[(0, 1), (1, 1)], []]
      [[(0, 1), (1, 1)], []] 1 [(0, 1), (1, 0)] rat_sqrt_nonneg (by decide!)
      (by decide) (by decide!)).1⟩

/-- C11 (setters ignore non-positive values): `set_drop_tolerance tol` leaves the tag as it
is when `tol ≤ 0` and otherwise stores `tol`, keeping `entries_per_row`;
`set_entries_per_row e` leaves the tag as it is when `e = 0` and otherwise stores `e`, keeping
`drop_tolerance`.  Both setters are total: they return a tag and have no failing outcome. -/
theorem setters_ignore_non_positive (t : ilut_tag) (tol : ℚ) (e : Nat) :
    (tol ≤ 0 → t.set_drop_tolerance tol = t) ∧
    (0 < tol → (t.set_drop_tolerance tol).get_drop_tolerance = tol ∧
      (t.set_drop_tolerance tol).get_entries_per_row = t.get_entries_per_row) ∧
    (e = 0 → t.set_entries_per_row e = t) ∧
    (0 < e → (t.set_entries_per_row e).get_entries_per_row = e ∧
      (t.set_entries_per_row e).get_drop_tolerance = t.get_drop_tolerance) := by
  refine ⟨?_, ?_, ?_, ?_⟩
  · intro h
    unfold ilut_tag.set_drop_tolerance
    rw [if_neg (not_lt.2 h)]
  · intro h
    unfold ilut_tag.set_drop_tolerance
    rw [if_pos h]
    exact ⟨rfl, rfl⟩
  · intro h
    unfold ilut_tag.set_entries_per_row
    rw [if_neg (by omega)]
  · intro h
    unfold ilut_tag.set_entries_per_row
    rw [if_pos h]
    exact ⟨rfl, rfl⟩

/-- Witness of C11: the default tag, a negative tolerance and a positive entry count. -/
theorem setters_ignore_non_positive_witness :
    ((-1 : ℚ) ≤ 0 ∧ 0 < 7) ∧
    ilut_tag.ctor_default.set_drop_tolerance (-1) = ilut_tag.ctor_default ∧
    (ilut_tag.ctor_default.set_entries_per_row 7).get_entries_per_row = 7 ∧
    (ilut_tag.ctor_default.set_entries_per_row 7).get_drop_tolerance =
      ilut_tag.ctor_default.get_drop_tolerance :=
  ⟨⟨by norm_num, by norm_num⟩,
    (setters_ignore_non_positive ilut_tag.ctor_default (-1) 7).1 (by norm_num),
    (setters_ignore_non_positive ilut_tag.ctor_default (-1) 7).2.2.2 (by norm_num)⟩

/-- C12 (configuration invariant), the code at the failing input: the constructor stores its
arguments unchecked, so `ilut_tag(0, -1)` reports `entries_per_row = 0` and
`drop_tolerance = -1`, and setter calls with non-positive arguments leave it so. -/
theorem constructor_accepts_non_positive :
    (ilut_tag.ctor 0 (-1)).get_entries_per_row = 0 ∧
    (ilut_tag.ctor 0 (-1)).get_drop_tolerance = -1 ∧
    (((ilut_tag.ctor 0 (-1)).set_drop_tolerance 0).set_entries_per_row 0).get_entries_per_row
      = 0 ∧
    (((ilut_tag.ctor 0 (-1)).set_drop_tolerance 0).set_entries_per_row 0).get_drop_tolerance
      = -1 := by
  refine ⟨rfl, rfl, by decide!, by decide!⟩

/-- C13 (per-row total), counterexample: for `cancel_matrix` with `entries_per_row = 1` and
tolerance `1/10` the factorisation completes and row 1 of the factor stores three entries,
one in the L part, the diagonal, and one in the U part, which is more than
`2 * entries_per_row = 2`. -/
theorem row_total_exceeds_twice_budget :
    precondition rat_sqrt cancel_matrix (empty_output 4) (ilut_tag.ctor 1 (1 / 10)) =
        .ok [[(0, 1), (3, 2)], [(0, 1), (1, 4), (2, 2)], [(2, 1)], [(3, 1)]] ∧
      ¬ ((row_at [[(0, 1), (3, 2)], [(0, 1), (1, 4), (2, 2)], [(2, 1)], [(3, 1)]] 1).length ≤
        2 * (ilut_tag.ctor 1 (1 / 10)).get_entries_per_row) :=
  ⟨by decide!, by decide⟩

/-- C13 as amended: when `precondition` completes on an output of `n` initially empty rows,
every row of the factor stores at most `2 * entries_per_row + 1` entries: at most
`entries_per_row` in each of the L and U parts, and the diagonal entry. -/
theorem row_total_bound (sqrt : ℚ → ℚ) (A : SparseMatrix) (tag : ilut_tag) (n : Nat)
    (out : Output) (h : precondition sqrt A (empty_output n) tag = .ok out) :
    ∀ i, i < n → (row_at out i).length ≤ 2 * tag.get_entries_per_row + 1 := by
  obtain ⟨_, _, hrows⟩ := precondition_ok_rows h
  intro i hi
  obtain ⟨out_r, w, tm, _, _, _, _, hrow⟩ := hrows i hi
  rw [hrow]
  exact write_pass_length i tag.get_entries_per_row tm

/-- Witness of C13 as amended: `cancel_matrix` with `entries_per_row = 1`. -/
theorem row_total_bound_witness :
    precondition rat_sqrt cancel_matrix (empty_output 4) (ilut_tag.ctor 1 (1 / 10)) =
        .ok [[(0, 1), (3, 2)], [(0, 1), (1, 4), (2, 2)], [(2, 1)], [(3, 1)]] ∧
      ∀ i, i < 4 →
        (row_at [[(0, 1), (3, 2)], [(0, 1), (1, 4), (2, 2)], [(2, 1)], [(3, 1)]] i).length ≤
          2 * (ilut_tag.ctor 1 (1 / 10)).get_entries_per_row + 1 :=
  ⟨by decide!, row_total_bound rat_sqrt cancel_matrix (ilut_tag.ctor 1 (1 / 10)) 4 _
    (by decide!)⟩

/-- C14 (write-once rows), the code at the failing input: for `[[0,1],[1,0]]` and the default
tag, row 0 is finalized as `{1: 1}`; processing row 1 then reads the pivot `output[0][0]`
through `operator[]`, which inserts the entry `(0, 0)` into row 0 before the zero-diagonal
error is raised, so at the point of failure row 0 is `{0: 0, 1: 1}`. -/
theorem finalized_row_changed_on_abort :
    process_row rat_sqrt swap_matrix ilut_tag.ctor_default (empty_output 2) 0 =
        .ok [[(1, 1)], []] ∧
      process_row rat_sqrt swap_matrix ilut_tag.ctor_default [[(1, 1)], []] 1 =
        .error (.zero_diagonal, [[(0, 0), (1, 1)], []]) ∧
      precondition rat_sqrt swap_matrix (empty_output 2) ilut_tag.ctor_default =
        .error (.zero_diagonal, [[(0, 0), (1, 1)], []]) ∧
      row_at [[(0, 0), (1, 1)], []] 0 ≠ row_at [[(1, 1)], []] 0 :=
  ⟨by decide!, by decide!, by decide!, by decide⟩

/-- C15 (dimension mismatch is reported before any mutation): when the row count of `A` differs
from the size of `output`, `precondition` stops at the assertion of line 135, and the `output`
it leaves behind is the one it was given. -/
theorem dimension_mismatch (sqrt : ℚ → ℚ) (A : SparseMatrix) (output : Output) (tag : ilut_tag)
    (h : A.size1 ≠ output.length) :
    precondition sqrt A output tag = .error (.size_mismatch, output) := by
  unfold precondition
  rw [if_pos h]

/-- Witness of C15: a three-row matrix and a two-row output with contents. -/
theorem dimension_mismatch_witness :
    tridiag_stl.size1 ≠ ([[(0, 1)], [(1, 2)]] : Output).length ∧
    precondition rat_sqrt tridiag_stl [[(0, 1)], [(1, 2)]] ilut_tag.ctor_default =
      .error (.size_mismatch, [[(0, 1)], [(1, 2)]]) :=
  ⟨by decide, dimension_mismatch rat_sqrt tridiag_stl [[(0, 1)], [(1, 2)]]
    ilut_tag.ctor_default (by decide)⟩

/-- C16 (default configuration): the default-constructed tag reports `entries_per_row = 20`
and `drop_tolerance = 1/10000`, and a tag constructed from `(e, t)` reports exactly `e` and
`t`. -/
theorem default_configuration :
    ilut_tag.ctor_default.get_entries_per_row = 20 ∧
    ilut_tag.ctor_default.get_drop_tolerance = 1 / 10000 ∧
    ∀ (e : Nat) (t : ℚ),
      (ilut_tag.ctor e t).get_entries_per_row = e ∧ (ilut_tag.ctor e t).get_drop_tolerance = t :=
  ⟨rfl, rfl, fun _ _ => ⟨rfl, rfl⟩⟩

/-- C17 (row extraction): let row `i` of a compressed matrix hold pairwise distinct column
indices, let row `i` of a per-row-map matrix be a well-formed map, and let both hold the same
mapping column -> value.  Then, started on an empty `w`, both `setup_w` overloads leave the
same `w`, a well-formed map that is exactly that mapping, and return the same value
`r = sqrt (sum of the squares of the stored values)`; so wherever `sqrt` is a non-negative
square root of that sum, `r ≥ 0` and `r * r` is the sum of the squares. -/
theorem row_extraction (sqrt : ℚ → ℚ) (A_c : compressed_matrix) (A_m : List SparseVector)
    (i : Nat)
    (huniq : (StdMap.keys ((SparseMatrix.compressed A_c).row_entries i)).Nodup)
    (hmap : StdMap.Ordered ((SparseMatrix.stl A_m).row_entries i))
    (hsame : ∀ j, StdMap.find ((SparseMatrix.compressed A_c).row_entries i) j =
      StdMap.find ((SparseMatrix.stl A_m).row_entries i) j)
    (hsqrt : 0 ≤ sqrt (sum_of_squares ((SparseMatrix.compressed A_c).row_entries i)) ∧
      sqrt (sum_of_squares ((SparseMatrix.compressed A_c).row_entries i)) *
        sqrt (sum_of_squares ((SparseMatrix.compressed A_c).row_entries i)) =
        sum_of_squares ((SparseMatrix.compressed A_c).row_entries i)) :
    (setup_w sqrt (.compressed A_c) i []).2 = (setup_w sqrt (.stl A_m) i []).2 ∧
    StdMap.Ordered (setup_w sqrt (.compressed A_c) i []).2 ∧
    (∀ j, StdMap.find (setup_w sqrt (.compressed A_c) i []).2 j =
      StdMap.find ((SparseMatrix.compressed A_c).row_entries i) j) ∧
    (setup_w sqrt (.compressed A_c) i []).1 = (setup_w sqrt (.stl A_m) i []).1 ∧
    0 ≤ (setup_w sqrt (.compressed A_c) i []).1 ∧
    (setup_w sqrt (.compressed A_c) i []).1 * (setup_w sqrt (.compressed A_c) i []).1 =
      sum_of_squares ((SparseMatrix.compressed A_c).row_entries i) := by
  have hfind := setup_w_find sqrt (.compressed A_c) i huniq
  have hord := setup_w_ordered sqrt (A := .compressed A_c) trivial i
  have hm : (setup_w sqrt (.stl A_m) i []).2 = (SparseMatrix.stl A_m).row_entries i := rfl
  have hperm := perm_of_find_eq huniq hmap.nodup hsame
  have hn1 := setup_w_norm sqrt (.compressed A_c) i []
  have hn2 := setup_w_norm sqrt (.stl A_m) i []
  rw [euclidean_norm_eq] at hn1 hn2
  refine ⟨?_, hord, hfind, ?_, ?_, ?_⟩
  · rw [hm]
    exact ordered_ext hord hmap (fun j => by rw [hfind j, hsame j])
  · rw [hn1, hn2, sum_of_squares_perm hperm]
  · rw [hn1]; exact hsqrt.1
  · rw [hn1]; exact hsqrt.2

/-- Witness of C17: the row `{0: 3, 1: 4}` of norm 5, stored unsorted in the compressed
matrix. -/
theorem row_extraction_witness :
    ((StdMap.keys ((SparseMatrix.compressed three_four_csr).row_entries 0)).Nodup ∧
      StdMap.Ordered ((SparseMatrix.stl [[(0, 3), (1, 4)]]).row_entries 0) ∧
      (∀ j, StdMap.find ((SparseMatrix.compressed three_four_csr).row_entries 0) j =
        StdMap.find ((SparseMatrix.stl [[(0, 3), (1, 4)]]).row_entries 0) j) ∧
      (0 ≤ rat_sqrt (sum_of_squares ((SparseMatrix.compressed three_four_csr).row_entries 0)) ∧
        rat_sqrt (sum_of_squares ((SparseMatrix.compressed three_four_csr).row_entries 0)) *
          rat_sqrt (sum_of_squares ((SparseMatrix.compressed three_four_csr).row_entries 0)) =
          sum_of_squares ((SparseMatrix.compressed three_four_csr).row_entries 0))) ∧
    ((setup_w rat_sqrt (.compressed three_four_csr) 0 []).2 =
        (setup_w rat_sqrt (.stl [[(0, 3), (1, 4)]]) 0 []).2 ∧
      (setup_w rat_sqrt (.compressed three_four_csr) 0 []).1 =
        (setup_w rat_sqrt (.stl [[(0, 3), (1, 4)]]) 0 []).1 ∧
      (setup_w rat_sqrt (.compressed three_four_csr) 0 []).1 = 5) :=
  ⟨⟨by decide, by decide, three_four_same, by decide!, by decide!⟩,
    (row_extraction rat_sqrt three_four_csr [[(0, 3), (1, 4)]] 0 (by decide) (by decide)
      three_four_same ⟨by decide!, by decide!⟩).1,
    (row_extraction rat_sqrt three_four_csr [[(0, 3), (1, 4)]] 0 (by decide) (by decide)
      three_four_same ⟨by decide!, by decide!⟩).2.2.2.1, by decide!⟩

/-- C19 (no candidate is lost to a key collision): from whatever state `tm0` of the sort map,
(a) the key under which a candidate is inserted is absent from the sort map at that moment,
and for a positive magnitude the uniqueness loop does deliver such a key; (b) when the dropping
pass over `w` completes with the sort map `tm`, the candidates of `tm` are those of `tm0`
together with exactly one candidate `(column, value)` per surviving entry of `w`, each with
the entry's own column and unperturbed value; so from the cleared map the number of
candidates is the number of surviving entries, under pairwise distinct keys; (c) the pass
never stops for want of a key. -/
theorem no_candidate_lost (i : Nat) (tau_i : ℚ) (w : SparseVector) (tm0 tm : TemporarySortMap)
    (h : sort_pass i tau_i w tm0 = .ok tm) :
    (∀ (temp key : ℚ), unique_key tm0.length tm0 temp = some key →
      StdMap.find tm0 key = none) ∧
    (∀ temp : ℚ, 0 < temp → ∃ key, unique_key tm0.length tm0 temp = some key) ∧
    List.Perm (tm.map Prod.snd) (tm0.map Prod.snd ++ w.filter (survives i tau_i)) ∧
    (tm0 = [] → tm.length = (w.filter (survives i tau_i)).length ∧ (StdMap.keys tm).Nodup) ∧
    (∀ (w' : SparseVector) (tm' : TemporarySortMap),
      sort_pass i tau_i w' tm' ≠ .error .out_of_fuel) := by
  have hp := sort_pass_perm w tm0 tm h
  refine ⟨fun temp key hk => unique_key_find hk, fun temp ht => unique_key_length tm0 temp ht,
    hp, ?_, fun w' tm' => sort_pass_fuel w' tm'⟩
  intro h0
  subst h0
  constructor
  · have := hp.length_eq
    simpa using this
  · exact (sort_pass_ordered w [] tm h StdMap.ordered_nil).nodup

/-- Witness of C19: three entries of magnitude 1 in row 0. -/
theorem no_candidate_lost_witness :
    sort_pass 0 0 [(0, 1), (1, 1), (2, 1)] [] =
        .ok [(1, (0, 1)), (1000001 / 1000000, (1, 1)),
          (1000001 / 1000000 * (1000001 / 1000000), (2, 1))] ∧
      List.Perm
        (([(1, (0, 1)), (1000001 / 1000000, (1, 1)),
          (1000001 / 1000000 * (1000001 / 1000000), (2, 1))] : TemporarySortMap).map Prod.snd)
        (([] : TemporarySortMap).map Prod.snd ++
          ([(0, 1), (1, 1), (2, 1)] : SparseVector).filter (survives 0 0)) :=
  ⟨by decide!,
    (no_candidate_lost 0 0 [(0, 1), (1, 1), (2, 1)] [] _ (by decide!)).2.2.1⟩

/-- C18 (application order): with the triangular solves as parameters, the generic `apply`
returns `upper (unit_lower vec0)`, both solves reading the same buffers of `LU`; the
specialisation for `compressed_matrix` leaves in `vec` the elements
`upper (unit_lower vec0)` and the handle id `vec` had on entry, in the branch for a vector
outside main memory as in the branch for one inside.  `LU` is an argument that neither
variant returns or changes. -/
theorem application_order
    (csr_inplace_solve : List Nat → List Nat → List ℚ → List ℚ → Nat → solver_tag → List ℚ)
    (solve : compressed_matrix → List ℚ → solver_tag → List ℚ)
    (LU : compressed_matrix) (size2 : Nat) (v : List ℚ) (vec : vector) :
    apply_generic csr_inplace_solve LU size2 v =
        csr_inplace_solve LU.row_buffer LU.col_buffer LU.elements
          (csr_inplace_solve LU.row_buffer LU.col_buffer LU.elements v size2 .unit_lower_tag)
          size2 .upper_tag ∧
      (apply_compressed solve LU vec).elements =
        solve LU (solve LU vec.elements .unit_lower_tag) .upper_tag ∧
      (apply_compressed solve LU vec).active_handle_id = vec.active_handle_id ∧
      apply_compressed solve LU vec =
        (apply_compressed solve LU (vec.switch_active_handle_id .MAIN_MEMORY)
          ).switch_active_handle_id vec.active_handle_id := by
  refine ⟨rfl, ?_, ?_, ?_⟩
  · unfold apply_compressed
    split <;> rfl
  · unfold apply_compressed
    split <;> rfl
  · unfold apply_compressed
    by_cases h : vec.active_handle_id = .MAIN_MEMORY
    · simp [h, vector.switch_active_handle_id, inplace_solve]
    · simp [h, vector.switch_active_handle_id, inplace_solve]

/-- C20 (elimination order within a row): from any state of the elimination loop of row `i`,
(a) the columns at which a pivot division is performed are visited in strictly increasing
order; (b) each of them is at least the scan position and below `i`, so no entry with column
`≥ i` is divided; (c) when the loop completes from a well-formed working row, the visited
columns are exactly the columns `lo ≤ k < i` of the final working row, which holds every
column of the initial one and every fill-in, so each such entry is divided exactly once;
(d) the update of line 175 triggered at column `k` leaves every entry at a column `≤ k` as
it is. -/
theorem elimination_order (i : Nat) (tau_i : ℚ) (fuel lo : Nat) (w : SparseVector)
    (output : Output) :
    (eliminate_visits i tau_i fuel lo w output).Pairwise (fun a b => a < b) ∧
    (∀ k ∈ eliminate_visits i tau_i fuel lo w output, lo ≤ k ∧ k < i) ∧
    (∀ (w' : SparseVector) (out' : Output), StdMap.Ordered w →
      eliminate i tau_i fuel lo w output = .ok (w', out') →
      (∀ k, k ∈ eliminate_visits i tau_i fuel lo w output ↔
        (lo ≤ k ∧ k < i ∧ k ∈ StdMap.keys w')) ∧
      (∀ k ∈ StdMap.keys w, k ∈ StdMap.keys w')) ∧
    (∀ (k : Nat) (w_k_entry : ℚ) (row_k w0 : SparseVector) (j : Nat), j ≤ k →
      StdMap.find (update_w k w_k_entry row_k w0) j = StdMap.find w0 j) := by
  refine ⟨(eliminate_visits_bounds fuel lo w output).2,
    (eliminate_visits_bounds fuel lo w output).1, ?_, ?_⟩
  · intro w' out' hw he
    exact ⟨eliminate_visits_iff fuel lo w w' output out' he hw,
      eliminate_keys_mono fuel lo w w' output out' he⟩
  · intro k m row_k w0 j hj
    exact update_w_find_le k m row_k w0 j hj

/-- Witness of C20: row 2 with working row `{0: 1, 2: 5}`; the step at column 0 creates the
fill-in at column 1, which is visited next. -/
theorem elimination_order_witness :
    (StdMap.Ordered ([(0, 1), (2, 5)] : SparseVector) ∧
      eliminate 2 0 2 0 [(0, 1), (2, 5)] [[(0, 1), (1, 1)], [(1, 1)], []] =
        .ok ([(0, 1), (1, -1), (2, 5)], [[(0, 1), (1, 1)], [(1, 1)], []]) ∧
      eliminate_visits 2 0 2 0 [(0, 1), (2, 5)] [[(0, 1), (1, 1)], [(1, 1)], []] = [0, 1]) ∧
    ((∀ k, k ∈ eliminate_visits 2 0 2 0 [(0, 1), (2, 5)] [[(0, 1), (1, 1)], [(1, 1)], []] ↔
        (0 ≤ k ∧ k < 2 ∧ k ∈ StdMap.keys ([(0, 1), (1, -1), (2, 5)] : SparseVector))) ∧
      (∀ k ∈ StdMap.keys ([(0, 1), (2, 5)] : SparseVector),
        k ∈ StdMap.keys ([(0, 1), (1, -1), (2, 5)] : SparseVector))) :=
  ⟨⟨by decide, by decide!, by decide!⟩,
    (elimination_order 2 0 2 0 [(0, 1), (2, 5)] [[(0, 1), (1, 1)], [(1, 1)], []]).2.2.1
      [(0, 1), (1, -1), (2, 5)] [[(0, 1), (1, 1)], [(1, 1)], []] (by decide) (by decide!)⟩

/-- C21 (parameter enumeration terminates), evaluated on the configuration with the single
parameter `tuning_param(1, 3, inc::mul_by_two)`: the parameter satisfies `min ≤ max` and uses
a preset policy, the configuration is in its reset state, and yet `has_next()` returns `true`
after any number of `update()` calls, the value alternating between 1 and 2 and `is_max()`
never holding; the loop `while (has_next()) update();` exhausts every fuel. -/
theorem enumeration_never_ends :
    (∀ it ∈ skip_max_config.params_, it.2.min_max_.1 ≤ it.2.min_max_.2 ∧
      (it.2.inc_ = inc.add_one ∨ it.2.inc_ = inc.mul_by_two)) ∧
    skip_max_config.reset = skip_max_config ∧
    (∀ n, (updates n skip_max_config).has_next = true) ∧
    (∀ n, (updates n skip_max_config).currents = if n % 2 = 0 then [1] else [2]) ∧
    (∀ fuel, enumerate fuel skip_max_config = none) := by
  refine ⟨by decide, by decide, fun n => skip_max_updates n _ (Or.inl rfl), ?_,
    fun fuel => skip_max_enumerate fuel _ (Or.inl rfl)⟩
  have key : ∀ n c, (c = skip_max_config → (updates n c).currents =
      if n % 2 = 0 then [1] else [2]) ∧
      (c = skip_max_config.update → (updates n c).currents =
        if n % 2 = 0 then [2] else [1]) := by
    intro n
    induction n with
    | zero =>
      intro c
      exact ⟨fun h => by rw [h]; rfl, fun h => by rw [h]; rfl⟩
    | succ n ih =>
      intro c
      constructor
      · intro h
        rw [h]
        have := (ih skip_max_config.update).2 rfl
        simp only [updates]
        rw [this]
        rcases Nat.mod_two_eq_zero_or_one n with h0 | h1
        · rw [if_pos h0, if_neg (by omega)]
        · rw [if_neg (by omega), if_pos (by omega)]
      · intro h
        rw [h]
        have hc : skip_max_config.update.update = skip_max_config := by decide
        have := (ih skip_max_config).1 rfl
        simp only [updates]
        rw [hc, this]
        rcases Nat.mod_two_eq_zero_or_one n with h0 | h1
        · rw [if_pos h0, if_neg (by omega)]
        · rw [if_neg (by omega), if_pos (by omega)]
  exact fun n => (key n _).1 rfl

/-- C22 (odometer enumeration): for a configuration whose parameters all use `inc::add_one`
with `min ≤ max` and `max` below the largest `unsigned int`, the loop
`while (has_next()) update();` started from the reset state ends (for every fuel of at least
the number of combinations minus one), and the sequence of its states, the `k`-th being the
one after `k` calls of `update()`, has as many states as there are combinations, shows no
tuple of values twice, shows exactly the tuples that give every parameter a value within its
bounds, and ends with every parameter at its maximum. -/
theorem odometer_enumeration (c : tuning_config) (fuel : Nat)
    (hinc : ∀ it ∈ c.params_, it.2.inc_ = inc.add_one)
    (hmin : ∀ it ∈ c.params_, it.2.min_max_.1 ≤ it.2.min_max_.2)
    (hmax : ∀ it ∈ c.params_, it.2.min_max_.2 < 2 ^ 32 - 1)
    (hfuel : combinations (bounds c.params_) ≤ fuel + 1) :
    ∃ states, enumerate fuel c.reset = some states ∧
      (∀ k, k < states.length → states[k]? = some (updates k c.reset)) ∧
      states.length = combinations (bounds c.params_) ∧
      (states.map tuning_config.currents).Nodup ∧
      (∀ vals, vals ∈ states.map tuning_config.currents ↔ InBounds (bounds c.params_) vals) ∧
      states.getLast?.map tuning_config.currents =
        some (c.params_.map (fun it => it.2.min_max_.2)) := by
  obtain ⟨r1, r2, r3⟩ := add_one_reset c.params_ hinc hmin hmax
  have hb : bounds c.reset.params_ = bounds c.params_ := r2
  have hr : rank c.reset.params_ = 0 := r3
  obtain ⟨states, e1, e2, e3, t, e4, e5⟩ := enumerate_spec fuel c.reset r1 (by
    rw [hb, hr]
    omega)
  rw [hb, hr, Nat.sub_zero] at e2
  have hrank : ∀ s ∈ states, rank_of (bounds c.params_) s.currents = rank s.params_ := by
    intro s hs
    rw [← hb, ← (e3 s hs).2]
    rfl
  have hmap : (states.map tuning_config.currents).map (rank_of (bounds c.params_)) =
      List.range' 0 (combinations (bounds c.params_)) := by
    rw [List.map_map, ← e2]
    exact List.map_congr_left (fun s hs => hrank s hs)
  refine ⟨states, e1, enumerate_head fuel c.reset states e1, ?_, ?_, ?_, ?_⟩
  · have := congrArg List.length e2
    simpa using this
  · apply List.Nodup.of_map (rank_of (bounds c.params_))
    rw [hmap]
    exact List.nodup_range' 0 _
  · intro vals
    constructor
    · intro hv
      obtain ⟨s, hs, rfl⟩ := List.mem_map.1 hv
      have := in_bounds_of_add_one s.params_ (e3 s hs).1
      rw [(e3 s hs).2, hb] at this
      exact this
    · intro hv
      have hlt := rank_of_lt _ _ hv
      have hm : rank_of (bounds c.params_) vals ∈
          (states.map tuning_config.currents).map (rank_of (bounds c.params_)) := by
        rw [hmap, List.mem_range']
        exact ⟨rank_of (bounds c.params_) vals, hlt, by omega⟩
      obtain ⟨vs, hvs, he⟩ := List.mem_map.1 hm
      obtain ⟨s, hs, rfl⟩ := List.mem_map.1 hvs
      have hin := in_bounds_of_add_one s.params_ (e3 s hs).1
      rw [(e3 s hs).2, hb] at hin
      have := rank_of_inj _ _ _ hin hv he
      rw [← this]
      exact hvs
  · rw [e4]
    have ht : t ∈ states := List.mem_of_getLast?_eq_some e4
    obtain ⟨h1, _⟩ := has_next_false t.params_ (e3 t ht).1 e5
    have hbt : bounds t.params_ = bounds c.params_ := (e3 t ht).2.trans hb
    have h2 : t.params_.map (fun it => it.2.min_max_.2) =
        c.params_.map (fun it => it.2.min_max_.2) := by
      have := congrArg (List.map Prod.snd) hbt
      simpa [bounds, List.map_map, Function.comp] using this
    simp only [Option.map_some', Option.some.injEq]
    rw [← h2, ← h1]
    rfl

/-- Witness of C22: parameters `a` in `[0, 1]` and `b` in `[3, 5]`; the six states are
`(0,3), (1,3), (0,4), (1,4), (0,5), (1,5)`. -/
theorem odometer_enumeration_witness :
    ((∀ it ∈ two_by_three_config.params_, it.2.inc_ = inc.add_one) ∧
      (∀ it ∈ two_by_three_config.params_, it.2.min_max_.1 ≤ it.2.min_max_.2) ∧
      (∀ it ∈ two_by_three_config.params_, it.2.min_max_.2 < 2 ^ 32 - 1) ∧
      (enumerate 5 two_by_three_config.reset).map (fun l => l.map tuning_config.currents) =
        some [[0, 3], [1, 3], [0, 4], [1, 4], [0, 5], [1, 5]]) ∧
    ∃ states, enumerate 5 two_by_three_config.reset = some states ∧
      (∀ k, k < states.length → states[k]? = some (updates k two_by_three_config.reset)) ∧
      states.length = combinations (bounds two_by_three_config.params_) ∧
      (states.map tuning_config.currents).Nodup ∧
      (∀ vals, vals ∈ states.map tuning_config.currents ↔
        InBounds (bounds two_by_three_config.params_) vals) ∧
      states.getLast?.map tuning_config.currents =
        some (two_by_three_config.params_.map (fun it => it.2.min_max_.2)) :=
  ⟨⟨by decide, by decide, by decide, by decide⟩,
    odometer_enumeration two_by_three_config 5 (by decide) (by decide) (by decide)
      (by decide)⟩

/-- C23 (tie-break direction): when the finalisation of row `i` completes for a well-formed
working row, every candidate of the sort map is a surviving entry of the working row, and of
two candidates with exactly equal absolute value the one with the larger column has the
strictly larger sort key; hence the write loop, which runs from the largest key down, visits
it first, and when both lie in the same part and the one with the smaller column is written,
so is the one with the larger column: a budget that admits only one of them goes to the larger
column. -/
theorem tie_break_direction (i entries_per_row : Nat) (tau_i : ℚ) (w row : SparseVector)
    (hw : StdMap.Ordered w) (h : finalize_row i tau_i entries_per_row w [] = .ok row) :
    ∃ tm : TemporarySortMap, sort_pass i tau_i w [] = .ok tm ∧
      row = write_pass i entries_per_row tm [] ∧
      (∀ e ∈ w, survives i tau_i e = true → ∃ key, (key, e) ∈ tm) ∧
      (∀ c ∈ tm, c.2 ∈ w ∧ survives i tau_i c.2 = true) ∧
      ∀ c ∈ tm, ∀ c' ∈ tm, |c.2.2| = |c'.2.2| → cand_col c < cand_col c' →
        c.1 < c'.1 ∧ List.Sublist [c', c] tm.reverse ∧
        ((cand_col c < i ∧ cand_col c' < i) ∨ (i < cand_col c ∧ i < cand_col c') →
          cand_col c ∈ StdMap.keys row → cand_col c' ∈ StdMap.keys row) := by
  unfold finalize_row at h
  split at h
  · simp at h
  · rename_i tm hs
    simp only [Except.ok.injEq] at h
    have ho := sort_pass_ordered w [] tm hs StdMap.ordered_nil
    have hnd := sort_pass_cols_nodup hw hs
    obtain ⟨_, hto⟩ := sort_pass_tie w [] tm hs hw (fun c hc => by simp at hc)
      (fun c hc => by simp at hc) (fun c hc => by simp at hc)
    refine ⟨tm, hs, h.symm, fun e he hsv => sort_pass_mem_of_survives hs he hsv, ?_, ?_⟩
    · intro c hc
      rcases sort_pass_mem w [] tm hs c hc with h0 | ⟨h1, h2, _⟩
      · simp at h0
      · exact ⟨h1, h2⟩
    · intro c hc c' hc' heq hlt
      have hkey : c.1 < c'.1 := hto c hc c' hc' hlt (by rw [fabs_eq_abs, fabs_eq_abs]; exact heq)
      refine ⟨hkey, ordered_sublist ho hc hc' hkey, ?_⟩
      intro hpart hin
      by_contra hout
      rw [← h] at hin hout
      exact absurd (write_pass_by_key ho hnd hc hc' hpart hin hout) (not_lt.2 (le_of_lt hkey))

/-- Witness of C23: row 2 with the working row `{0: 1, 1: 1, 2: 5}` and a budget of one entry
per part; the two entries of magnitude 1 get the keys `1` and `1.000001`, and the row keeps
column 1. -/
theorem tie_break_direction_witness :
    (StdMap.Ordered ([(0, 1), (1, 1), (2, 5)] : SparseVector) ∧
      finalize_row 2 0 1 [(0, 1), (1, 1), (2, 5)] [] = .ok [(1, 1), (2, 5)] ∧
      sort_pass 2 0 [(0, 1), (1, 1), (2, 5)] [] =
        .ok [(1, (0, 1)), (1000001 / 1000000, (1, 1)), (5, (2, 5))]) ∧
    ∃ tm : TemporarySortMap, sort_pass 2 0 [(0, 1), (1, 1), (2, 5)] [] = .ok tm ∧
      [(1, 1), (2, 5)] = write_pass 2 1 tm [] ∧
      (∀ e ∈ ([(0, 1), (1, 1), (2, 5)] : SparseVector), survives 2 0 e = true →
        ∃ key, (key, e) ∈ tm) ∧
      (∀ c ∈ tm, c.2 ∈ ([(0, 1), (1, 1), (2, 5)] : SparseVector) ∧ survives 2 0 c.2 = true) ∧
      ∀ c ∈ tm, ∀ c' ∈ tm, |c.2.2| = |c'.2.2| → cand_col c < cand_col c' →
        c.1 < c'.1 ∧ List.Sublist [c', c] tm.reverse ∧
        ((cand_col c < 2 ∧ cand_col c' < 2) ∨ (2 < cand_col c ∧ 2 < cand_col c') →
          cand_col c ∈ StdMap.keys ([(1, 1), (2, 5)] : SparseVector) →
          cand_col c' ∈ StdMap.keys ([(1, 1), (2, 5)] : SparseVector)) :=
  ⟨⟨by decide, by decide!, by decide!⟩,
    tie_break_direction 2 1 0 [(0, 1), (1, 1), (2, 5)] [(1, 1), (2, 5)] (by decide)
      (by decide!)⟩

/-- C24 (all stored entries are non-zero): when `precondition` completes on an output of `n`
initially empty rows, whatever the drop tolerance, no row of the factor stores an entry of
value zero; and for every row `r`, in the state of the output at which the row was eliminated,
whose rows above `r` are those of the final factor, every column `k` at which the working row
was divided by a pivot is above `r` in the matrix and its pivot is the non-zero diagonal entry
stored in row `k` of the factor. -/
theorem stored_entries_nonzero (sqrt : ℚ → ℚ) (A : SparseMatrix) (tag : ilut_tag) (n : Nat)
    (out : Output) (h : precondition sqrt A (empty_output n) tag = .ok out) :
    (∀ r j v, (j, v) ∈ row_at out r → v ≠ 0) ∧
    ∀ r, r < n → ∃ (out_r : Output) (w : SparseVector),
      (∀ k, k < r → row_at out_r k = row_at out k) ∧
      eliminate r (tau sqrt A tag r) r 0 (setup_w sqrt A r []).2 out_r = .ok (w, out_r) ∧
      ∀ k ∈ eliminate_visits r (tau sqrt A tag r) r 0 (setup_w sqrt A r []).2 out_r,
        k < r ∧ ∃ a, (k, a) ∈ row_at out k ∧ a ≠ 0 ∧
          SparseVector.val (row_at out_r k) k = a := by
  obtain ⟨_, hlen, hrows⟩ := precondition_ok_rows h
  constructor
  · intro r j v hm
    by_cases hr : r < n
    · obtain ⟨out_r, w, tm, _, _, _, hsp, hrow⟩ := hrows r hr
      rw [hrow] at hm
      obtain ⟨c, hc, hx⟩ := write_pass_mem hm
      rcases sort_pass_mem w [] tm hsp c hc with h0 | ⟨_, _, h3⟩
      · simp at h0
      · rw [← hx] at h3
        exact h3
    · rw [row_at_length_le (by omega)] at hm
      simp at hm
  · intro r hr
    obtain ⟨out_r, w, tm, _, hsame, he, _, _⟩ := hrows r hr
    refine ⟨out_r, w, hsame, he, ?_⟩
    intro k hk
    have hb := ((eliminate_visits_bounds r 0 (setup_w sqrt A r []).2 out_r).1 k hk).2
    have hp := eliminate_visits_pivot r 0 (setup_w sqrt A r []).2 out_r k hk
    refine ⟨hb, SparseVector.val (row_at out_r k) k, ?_, hp, rfl⟩
    rw [← hsame k hb]
    unfold SparseVector.val at hp ⊢
    cases hf : StdMap.find (row_at out_r k) k with
    | none => rw [hf] at hp; simp at hp
    | some a => exact StdMap.mem_of_find hf

/-- Witness of C24: the factorisation of `cancel_matrix` with a budget of one entry per part
and the tolerance `1/10`. -/
theorem stored_entries_nonzero_witness :
    precondition rat_sqrt cancel_matrix (empty_output 4) (ilut_tag.ctor 1 (1 / 10)) =
        .ok [[(0, 1), (3, 2)], [(0, 1), (1, 4), (2, 2)], [(2, 1)], [(3, 1)]] ∧
    ((∀ r j v, (j, v) ∈ row_at [[(0, 1), (3, 2)], [(0, 1), (1, 4), (2, 2)], [(2, 1)],
        [(3, 1)]] r → v ≠ 0) ∧
      ∀ r, r < 4 → ∃ (out_r : Output) (w : SparseVector),
        (∀ k, k < r → row_at out_r k =
          row_at [[(0, 1), (3, 2)], [(0, 1), (1, 4), (2, 2)], [(2, 1)], [(3, 1)]] k) ∧
        eliminate r (tau rat_sqrt cancel_matrix (ilut_tag.ctor 1 (1 / 10)) r) r 0
          (setup_w rat_sqrt cancel_matrix r []).2 out_r = .ok (w, out_r) ∧
        ∀ k ∈ eliminate_visits r (tau rat_sqrt cancel_matrix (ilut_tag.ctor 1 (1 / 10)) r) r 0
            (setup_w rat_sqrt cancel_matrix r []).2 out_r,
          k < r ∧ ∃ a, (k, a) ∈ row_at [[(0, 1), (3, 2)], [(0, 1), (1, 4), (2, 2)], [(2, 1)],
            [(3, 1)]] k ∧ a ≠ 0 ∧ SparseVector.val (row_at out_r k) k = a) :=
  ⟨by decide!, stored_entries_nonzero rat_sqrt cancel_matrix (ilut_tag.ctor 1 (1 / 10)) 4 _
    (by decide!)⟩

/-- C25 (the key-uniqueness loop terminates): for a strictly positive starting key, the loop
of lines 198-199 ends with a fuel of the size of the sort map, and with the same result and
the same number of executions of its body for every larger fuel; that number is at most the
size of the map, the final key is the starting key times `1.000001` to that power and is not
in the map, every key tried before it is in the map, and each execution strictly increases
the key.  The dropping pass enters the loop only with the strictly positive magnitude of a
candidate, and never runs out of fuel. -/
theorem key_loop_terminates (temp_map : TemporarySortMap) (temp : ℚ) (hpos : 0 < temp) :
    (∃ key, unique_key temp_map.length temp_map temp = some key ∧
      (∀ fuel, temp_map.length ≤ fuel → unique_key fuel temp_map temp = some key ∧
        unique_key_steps fuel temp_map temp =
          unique_key_steps temp_map.length temp_map temp) ∧
      unique_key_steps temp_map.length temp_map temp ≤ temp_map.length ∧
      key = temp * (1000001 / 1000000) ^ unique_key_steps temp_map.length temp_map temp ∧
      StdMap.find temp_map key = none ∧
      ∀ m, m < unique_key_steps temp_map.length temp_map temp →
        temp * (1000001 / 1000000) ^ m ∈ StdMap.keys temp_map ∧
        temp * (1000001 / 1000000) ^ m < temp * (1000001 / 1000000) ^ (m + 1)) ∧
    (∀ v : ℚ, fabs v ≠ 0 → 0 < fabs v) ∧
    ∀ (i : Nat) (tau_i : ℚ) (w : SparseVector) (tm0 : TemporarySortMap),
      sort_pass i tau_i w tm0 ≠ .error .out_of_fuel := by
  refine ⟨?_, fun v hv => lt_of_le_of_ne (fabs_nonneg v) (Ne.symm hv),
    fun i tau_i w tm0 => sort_pass_fuel w tm0⟩
  obtain ⟨key, hkey⟩ := unique_key_length temp_map temp hpos
  obtain ⟨s1, s2, s3⟩ := unique_key_steps_spec hkey
  refine ⟨key, hkey, unique_key_fuel_mono hkey, s2, s1, unique_key_find hkey, ?_⟩
  intro m hm
  refine ⟨s3 m hm, ?_⟩
  rw [pow_succ, ← mul_assoc]
  have hp : 0 < temp * (1000001 / 1000000) ^ m := mul_pos hpos (pow_pos (by norm_num) m)
  calc temp * (1000001 / 1000000) ^ m = temp * (1000001 / 1000000) ^ m * 1 := (mul_one _).symm
    _ < temp * (1000001 / 1000000) ^ m * (1000001 / 1000000) :=
      mul_lt_mul_of_pos_left (by norm_num) hp

/-- Witness of C25: the key `1` against a sort map holding the keys `1` and `1.000001`; the
body runs twice. -/
theorem key_loop_terminates_witness :
    ((0 : ℚ) < 1 ∧
      unique_key 2 [(1, (0, 1)), (1000001 / 1000000, (1, 1))] 1 =
        some (1000001 / 1000000 * (1000001 / 1000000)) ∧
      unique_key_steps 2 [(1, (0, 1)), (1000001 / 1000000, (1, 1))] 1 = 2) ∧
    ∃ key, unique_key ([(1, (0, 1)), (1000001 / 1000000, (1, 1))] : TemporarySortMap).length
        [(1, (0, 1)), (1000001 / 1000000, (1, 1))] 1 = some key ∧
      (∀ fuel, ([(1, (0, 1)), (1000001 / 1000000, (1, 1))] : TemporarySortMap).length ≤ fuel →
        unique_key fuel [(1, (0, 1)), (1000001 / 1000000, (1, 1))] 1 = some key ∧
        unique_key_steps fuel [(1, (0, 1)), (1000001 / 1000000, (1, 1))] 1 =
          unique_key_steps
            ([(1, (0, 1)), (1000001 / 1000000, (1, 1))] : TemporarySortMap).length
            [(1, (0, 1)), (1000001 / 1000000, (1, 1))] 1) ∧
      unique_key_steps ([(1, (0, 1)), (1000001 / 1000000, (1, 1))] : TemporarySortMap).length
          [(1, (0, 1)), (1000001 / 1000000, (1, 1))] 1 ≤
        ([(1, (0, 1)), (1000001 / 1000000, (1, 1))] : TemporarySortMap).length ∧
      key = 1 * (1000001 / 1000000) ^ unique_key_steps
        ([(1, (0, 1)), (1000001 / 1000000, (1, 1))] : TemporarySortMap).length
        [(1, (0, 1)), (1000001 / 1000000, (1, 1))] 1 ∧
      StdMap.find ([(1, (0, 1)), (1000001 / 1000000, (1, 1))] : TemporarySortMap) key = none ∧
      ∀ m, m < unique_key_steps
          ([(1, (0, 1)), (1000001 / 1000000, (1, 1))] : TemporarySortMap).length
          [(1, (0, 1)), (1000001 / 1000000, (1, 1))] 1 →
        1 * (1000001 / 1000000) ^ m ∈
          StdMap.keys ([(1, (0, 1)), (1000001 / 1000000, (1, 1))] : TemporarySortMap) ∧
        (1 : ℚ) * (1000001 / 1000000) ^ m < 1 * (1000001 / 1000000) ^ (m + 1) :=
  ⟨⟨by decide!, by decide!, by decide!⟩,
    (key_loop_terminates [(1, (0, 1)), (1000001 / 1000000, (1, 1))] 1 (by decide!)).1⟩

end ViennaCL
